import Mathlib

/-!
# Verification of the `mazes` grid/maze core

A shallow embedding of `src/maze/grid.py` and `src/maze/algorithm.py`:
the occupancy `Mask` with its run-length text codec, the cell/link data
model, breadth-first distances with path reconstruction, and the six
maze generators.  Python `random.choice` / `random.randint` draws are
modelled by an explicit oracle `Nat → Nat`; unbounded `while` loops are
modelled with explicit fuel and an `Option`/`Except` result, where
`none`/`error` corresponds to a run that raises or does not terminate.
-/

namespace Mazes

/-! ## Mask (`grid.py`, class `Mask`)

`Mask._mask` is a list of rows, each row a list of booleans (`True` = on).
Indices arriving from callers are arbitrary Python ints, so they are
modelled as `Int`. -/

structure Mask where
  grid : List (List Bool)
deriving DecidableEq, Repr

/-- `Mask.__init__(rows, columns)`: all cells on. -/
def Mask.init (rows columns : Nat) : Mask :=
  ⟨List.replicate rows (List.replicate columns true)⟩

/-- `Mask.rows`: `len(self._mask)`. -/
def Mask.rows (m : Mask) : Nat := m.grid.length

/-- `Mask.columns`: `len(self._mask[0])`.  The source raises `IndexError`
when there are zero rows; every mask the library constructs has at least
one row, and our theorems assume `rows ≥ 1`, so the zero-row default
`[]` is never exercised. -/
def Mask.columns (m : Mask) : Nat := (m.grid.headD []).length

/-- `Mask.__getitem__`: out-of-range reads return `False`, in-range reads
return the stored cell.  (The inner `getD` defaults are dead for the
rectangular masks the library builds.) -/
def Mask.get (m : Mask) (r c : Int) : Bool :=
  if r < 0 || r ≥ (m.rows : Int) then false
  else if c < 0 || c ≥ (m.columns : Int) then false
  else ((m.grid.getD r.toNat []).getD c.toNat false)

/-- `Mask.__setitem__`: out-of-range writes raise `IndexError`. -/
def Mask.set (m : Mask) (r c : Int) (is_on : Bool) : Except String Mask :=
  if r < 0 || r ≥ (m.rows : Int) then .error "Row index is out of range"
  else if c < 0 || c ≥ (m.columns : Int) then .error "Column index is out of range"
  else .ok ⟨m.grid.set r.toNat ((m.grid.getD r.toNat []).set c.toNat is_on)⟩

/-- `Mask.count`: number of on cells. -/
def Mask.count (m : Mask) : Nat :=
  (m.grid.map (fun row => (row.filter id).length)).sum

/-! ## RLE decoding (`Mask.from_RLE`)

The decoder is a character-driven state machine.  Errors raised by the
source (`ValueError`, `IndexError`) become `Except.error`; reaching the
end of input or `!` returns the current `mask` field, which is `None`
(here `none`) when the dimensions were never both declared. -/

structure RLEState where
  mask : Option Mask
  width : Option Nat
  height : Option Nat
  count : Nat
  index : Nat
deriving DecidableEq, Repr

def RLEState.initial : RLEState := ⟨none, none, none, 0, 0⟩

/-- `_state.rowcol`: `divmod(self.index, self.width)` (`width` is set
whenever the source evaluates this). -/
def RLEState.rowcol (s : RLEState) : Nat × Nat :=
  (s.index / (s.width.getD 1), s.index % (s.width.getD 1))

/-- `get_and_reset_count`: the pending count, defaulting to 1, and the
state with the count cleared. -/
def getAndResetCount (s : RLEState) : Nat × RLEState :=
  (if s.count > 0 then s.count else 1, { s with count := 0 })

/-- The whitespace characters of Python's `string.whitespace`. -/
def isPyWhitespace (ch : Char) : Bool :=
  ch = ' ' || ch = '\t' || ch = '\n' || ch = '\x0d' || ch = '\x0b' || ch = '\x0c'

/-- The `'o'` branch: turn off `cnt` cells at the cursor, row-major;
a cursor that has run past the mask raises `IndexError` via
`Mask.__setitem__`. -/
def setOffRun (cnt : Nat) (s : RLEState) : Except String RLEState :=
  match cnt with
  | 0 => .ok s
  | cnt + 1 =>
    match s.mask with
    | none => .error "Must specify dimensions before occupancy"
    | some m =>
      let (r, c) := s.rowcol
      match m.set (r : Int) (c : Int) false with
      | .error e => .error e
      | .ok m' => setOffRun cnt { s with mask := some m', index := s.index + 1 }

/-- One non-`!` character of `Mask.from_RLE`'s loop. -/
def fromRLEStep (s : RLEState) (ch : Char) : Except String RLEState :=
  if isPyWhitespace ch then .ok s
  else if ch.isDigit then
    .ok { s with count := s.count * 10 + (ch.toNat - '0'.toNat) }
  else if ch = 'w' then
    match s.width with
    | some _ => .error "Width already specified"
    | none =>
      let (cnt, s') := getAndResetCount s
      let s'' := { s' with width := some cnt }
      match s''.height, s''.mask with
      | some h, none => .ok { s'' with mask := some (Mask.init h cnt) }
      | _, _ => .ok s''
  else if ch = 'h' then
    match s.height with
    | some _ => .error "Height already specified"
    | none =>
      let (cnt, s') := getAndResetCount s
      let s'' := { s' with height := some cnt }
      match s''.width, s''.mask with
      | some w, none => .ok { s'' with mask := some (Mask.init cnt w) }
      | _, _ => .ok s''
  else if ch = 'o' then
    match s.mask with
    | none => .error "Must specify dimensions before occupancy"
    | some _ =>
      let (cnt, s') := getAndResetCount s
      setOffRun cnt s'
  else if ch = '.' then
    let (cnt, s') := getAndResetCount s
    .ok { s' with index := s'.index + cnt }
  else if ch = '$' then
    match s.width with
    | none => .error "Must specify width before ending row"
    | some _ =>
      let (_, c) := s.rowcol
      .ok { s with index := s.index + ((s.width.getD 1) - c) }
  else .error "Bad character"

/-- The character loop of `Mask.from_RLE`; `!` breaks out immediately. -/
def fromRLEAux (s : RLEState) : List Char → Except String RLEState
  | [] => .ok s
  | ch :: rest =>
    if ch = '!' then .ok s
    else
      match fromRLEStep s ch with
      | .error e => .error e
      | .ok s' => fromRLEAux s' rest

/-- `Mask.from_RLE`: returns the `mask` field of the final state, which
is `none` when the dimensions were never both declared. -/
def Mask.from_RLE (rle : String) : Except String (Option Mask) :=
  match fromRLEAux RLEState.initial rle.toList with
  | .error e => .error e
  | .ok s => .ok s.mask

/-! ## RLE encoding (`Mask.to_RLE`)

`f'{n}'` formats `n` in decimal; `natToDecimal` is that decimal
rendering (no sign, no leading zeros). -/

set_option linter.unusedVariables false in
def natToDecimal (n : Nat) : List Char :=
  if h' : n < 10 then [Char.ofNat ('0'.toNat + n)]
  else natToDecimal (n / 10) ++ [Char.ofNat ('0'.toNat + n % 10)]
decreasing_by exact Nat.div_lt_self (Nat.lt_of_lt_of_le (by norm_num) (Nat.le_of_not_lt h')) (by norm_num)

/-- The run character table `ch = {True: '.', False: 'o'}`. -/
def runChar (b : Bool) : Char := if b then '.' else 'o'

/-- `output_count()`: emit the count (omitted when 1) then the run
character. -/
def outputCount (count : Nat) (current : Bool) : List Char :=
  if count = 1 then [runChar current]
  else natToDecimal count ++ [runChar current]

/-- The run-length fold of `Mask.to_RLE` over the row-major cell
sequence, carrying `(emitted, current, count)`. -/
def rleFold (acc : List Char × Option Bool × Nat) (val : Bool) :
    List Char × Option Bool × Nat :=
  let (out, current, count) := acc
  match current with
  | none => (out, some val, 1)
  | some cur =>
    if val ≠ cur then (out ++ outputCount count cur, some val, 1)
    else (out, some cur, count + 1)

/-- `Mask.to_RLE`: header `f'{rows}h{columns}w'` followed by the
run-length encoding of the row-major boolean sequence. -/
def Mask.to_RLE (m : Mask) : String :=
  let header := natToDecimal m.rows ++ ['h'] ++ natToDecimal m.columns ++ ['w']
  let (out, current, count) := m.grid.flatten.foldl rleFold ([], none, 0)
  let body :=
    match current with
    | none => out
    | some cur => out ++ outputCount count cur
  ⟨header ++ body⟩

/-! ## Cells and links (`grid.py`, class `Cell`)

A cell is its `(row, column)` coordinate.  The per-cell Python sets
`Cell._links` are modelled by one global set `L` of ordered pairs:
`(u, v) ∈ L` means `v ∈ u._links`.  `Cell.link` with
`bidirectional=True` inserts `(u, v)` and then `(v, u)`. -/

abbrev Cell := Nat × Nat

abbrev Links := Finset (Cell × Cell)

/-- `Cell.link(cell, bidirectional=True)`: `self._links.add(cell)` then
`cell._links.add(self)`. -/
def Links.link (L : Links) (u v : Cell) : Links :=
  insert (v, u) (insert (u, v) L)

/-- `set.remove`: raises `KeyError` when the element is absent. -/
def removePair (L : Links) (u v : Cell) : Except String Links :=
  if (u, v) ∈ L then .ok (L.erase (u, v)) else .error "KeyError"

/-- `Cell.unlink(cell, bidirectional=True)`: remove `cell` from
`self._links`, then `self` from `cell._links`.  The second component
records whether a `KeyError` was raised; the returned state is the
mutation state at the point of the raise (Python mutates in place). -/
def Links.unlink (L : Links) (u v : Cell) : Links × Bool :=
  match removePair L u v with
  | .error _ => (L, true)
  | .ok L1 =>
    match removePair L1 v u with
    | .error _ => (L1, true)
    | .ok L2 => (L2, false)

/-- `Cell.linked_to(cell)`: `cell in self._links`. -/
def linked_to (L : Links) (u v : Cell) : Prop := (u, v) ∈ L

instance (L : Links) (u v : Cell) : Decidable (linked_to L u v) := by
  unfold linked_to; infer_instance

/-- A bidirectional `link`/`unlink` call, for stating the symmetry
invariant over arbitrary call sequences. -/
inductive LinkOp where
  | link (u v : Cell)
  | unlink (u v : Cell)

def applyOp (L : Links) : LinkOp → Links
  | .link u v => L.link u v
  | .unlink u v => (L.unlink u v).1

/-- The link state after a sequence of bidirectional calls on freshly
constructed cells (empty link sets). -/
def runOps (ops : List LinkOp) : Links := ops.foldl applyOp ∅

/-- `Cell.links` of one cell: the set of `v` with `(u, v) ∈ L`. -/
def cellLinks (L : Links) (u : Cell) : Finset Cell :=
  (L.filter (fun p => p.1 = u)).image Prod.snd

/-- Iteration order over a Python set is arbitrary: `adj` lists each
cell's link set in some order.  `AdjOf L adj` says `adj` enumerates
exactly the link sets of `L`, each without duplicates; results about
`Cell.distances` and `path_to` are proved for every such enumeration. -/
def AdjOf (L : Links) (adj : Cell → List Cell) : Prop :=
  ∀ u, (adj u).Nodup ∧ ∀ v, v ∈ adj u ↔ (u, v) ∈ L

/-! ## Distances (`grid.py`, `Cell.distances` and class `Distances`)

A `Distances` dict is an association list with distinct keys, appended
in discovery order (Python dicts preserve insertion order).  The
`while frontier` loop of `Cell.distances` gets explicit fuel; the bound
`2 * L.card + 2` is proven sufficient below (every round that recurses
with a nonempty frontier has just added at least one key, and keys are
distinct cells incident to `L`). -/

abbrev DistMap := List (Cell × Nat)

def dlookup (D : DistMap) (c : Cell) : Option Nat :=
  (D.find? (fun p => p.1 = c)).map Prod.snd

/-- The inner `for linked in cell.links` loop body of `Cell.distances`. -/
def bfsVisit (adj : Cell → List Cell) (cell : Cell) (acc : DistMap × List Cell) :
    DistMap × List Cell :=
  (adj cell).foldl
    (fun acc linked =>
      if (dlookup acc.1 linked).isSome then acc
      else (acc.1 ++ [(linked, (dlookup acc.1 cell).getD 0 + 1)], acc.2 ++ [linked]))
    acc

/-- One round of `Cell.distances`: process the whole frontier, build
`next_frontier`. -/
def bfsRound (adj : Cell → List Cell) (dist : DistMap) (frontier : List Cell) :
    DistMap × List Cell :=
  frontier.foldl (fun acc cell => bfsVisit adj cell acc) (dist, [])

def bfsLoop (adj : Cell → List Cell) : Nat → DistMap → List Cell → DistMap
  | 0, dist, _ => dist
  | fuel + 1, dist, frontier =>
    if frontier = [] then dist
    else
      let r := bfsRound adj dist frontier
      bfsLoop adj fuel r.1 r.2

/-- `Cell.distances`: breadth-first distances over the link graph from
`root`. -/
def distances (L : Links) (adj : Cell → List Cell) (root : Cell) : DistMap :=
  bfsLoop adj (2 * L.card + 2) [(root, 0)] [root]

/-! ## `Distances.path_to` -/

/-- Dict write: overwrite an existing key, else append. -/
def upsert (D : DistMap) (c : Cell) (v : Nat) : DistMap :=
  if (dlookup D c).isSome then D.map (fun p => if p.1 = c then (c, v) else p)
  else D ++ [(c, v)]

/-- The `for neighbor in current.links` scan of `path_to`: the first
neighbor with a strictly smaller recorded distance.  A neighbor missing
from the map raises `KeyError` in the source; that and the
no-qualifying-neighbor case (where the source's `while` loop spins
forever) are both `none`. -/
def findSmaller (D : DistMap) (dc : Nat) : List Cell → Option Cell
  | [] => none
  | n :: rest =>
    match dlookup D n with
    | none => none
    | some dn => if dn < dc then some n else findSmaller D dc rest

def pathLoop (adj : Cell → List Cell) (D : DistMap) (root : Cell) :
    Nat → Cell → DistMap → Option DistMap
  | 0, _, _ => none
  | fuel + 1, current, bc =>
    if current = root then some bc
    else
      match dlookup D current with
      | none => none
      | some dc =>
        match findSmaller D dc (adj current) with
        | none => none
        | some n => pathLoop adj D root fuel n (upsert bc n ((dlookup D n).getD 0))

/-- `Distances.path_to(goal)`: walk backward from `goal` to `root`
choosing linked neighbors with smaller distance.  `breadcrumbs` starts
as `{root: 0}` (from `Distances.__init__`) plus the `goal` entry.  The
fuel `D[goal] + 1` covers the walk because the current distance strictly
decreases at every step. -/
def path_to (adj : Cell → List Cell) (D : DistMap) (root goal : Cell) : Option DistMap :=
  match dlookup D goal with
  | none => none
  | some dg => pathLoop adj D root (dg + 1) goal (upsert [(root, 0)] goal dg)

/-! ## Grid (`grid.py`, classes `Grid` and `MaskedGrid`)

A grid is its dimensions plus the occupancy predicate: `Grid` proper has
every cell present, `MaskedGrid` allocates a cell only where the mask is
on.  Neighbor wiring (`_configure_cells`) assigns `N/E/S/W` by coordinate
offset through `__getitem__`, which yields `None` out of range or on an
absent slot; the wiring is immutable, so the `N/E/S/W` accessors are
functions of the grid. -/

structure Grid where
  rows : Nat
  cols : Nat
  present : Nat → Nat → Bool

/-- `Grid.__init__(rows, columns)`: every slot holds a cell. -/
def Grid.plain (rows cols : Nat) : Grid := ⟨rows, cols, fun _ _ => true⟩

/-- `MaskedGrid.__init__(mask)`: a slot holds a cell iff the mask is on
there (`_prepare_grid` of `MaskedGrid`). -/
def Grid.ofMask (m : Mask) : Grid :=
  ⟨m.rows, m.columns, fun r c => m.get (r : Int) (c : Int)⟩

/-- `Grid.__getitem__`: `None` out of range or where no cell was
allocated. -/
def Grid.cellAt (g : Grid) (r c : Nat) : Option Cell :=
  if r < g.rows ∧ c < g.cols ∧ g.present r c then some (r, c) else none

/-- `cell.N = self[r - 1, c]` (a negative Python index falls in the
`r < 0` guard of `__getitem__`, hence `None`). -/
def Grid.N (g : Grid) (c : Cell) : Option Cell :=
  if c.1 = 0 then none else g.cellAt (c.1 - 1) c.2

def Grid.E (g : Grid) (c : Cell) : Option Cell := g.cellAt c.1 (c.2 + 1)

def Grid.S (g : Grid) (c : Cell) : Option Cell := g.cellAt (c.1 + 1) c.2

def Grid.W (g : Grid) (c : Cell) : Option Cell :=
  if c.2 = 0 then none else g.cellAt c.1 (c.2 - 1)

/-- `Cell.neighbors`: `filter(None, self._neighbors)` in N, E, S, W
order. -/
def Grid.neighbors (g : Grid) (c : Cell) : List Cell :=
  [g.N c, g.E c, g.S c, g.W c].filterMap id

/-- The set of present cells. -/
def Grid.cells (g : Grid) : Finset Cell :=
  (Finset.range g.rows ×ˢ Finset.range g.cols).filter (fun p => g.present p.1 p.2)

/-- `Grid.size` / `MaskedGrid.size`: the number of present cells
(`rows * columns` for a plain grid, the mask's on-count for a masked
one). -/
def Grid.size (g : Grid) : Nat := g.cells.card

/-- `Grid.each_cell`: row-major iteration skipping absent slots. -/
def Grid.eachCell (g : Grid) : List Cell :=
  (List.range g.rows).flatMap fun r =>
    (List.range g.cols).filterMap fun c => if g.present r c then some (r, c) else none

/-- `Grid.each_row`: the raw rows of `_grid`, absent slots included. -/
def Grid.eachRow (g : Grid) : List (List (Option Cell)) :=
  (List.range g.rows).map fun r =>
    (List.range g.cols).map fun c => if g.present r c then some (r, c) else none

/-! ## Randomness

`random.choice(seq)` and `random.randint(a, b)` are modelled by an
oracle `O : Nat → Nat` of arbitrary values, consumed one index per
draw: `choice seq` picks index `O k % len(seq)` (and raises, i.e.
`none`, on an empty sequence), `randint(0, n)` is `O k % (n + 1)`.
Every position's value is arbitrary, so all possible sequences of
random draws are covered. -/

abbrev Oracle := Nat → Nat

def choiceO (l : List α) (n : Nat) : Option α := l.get? (n % l.length)

/-- `Grid.random_cell` (`choice(choice(self._grid))`) and
`MaskedGrid.random_cell` (`Mask.random_location`: draw a row and a
column, retry while the slot is off — on a plain grid the first draw is
always accepted, which is exactly `choice(choice(self._grid))`).
Returns the cell and the next oracle index; `none` models the
`'No locations on'` error (`size = 0`) or a never-accepting run. -/
def Grid.random_cell (g : Grid) (O : Oracle) : Nat → Nat → Option (Cell × Nat)
  | _, 0 => none
  | k, fuel + 1 =>
    if g.size = 0 then none
    else
      let r := O k % g.rows
      let c := O (k + 1) % g.cols
      if g.present r c then some ((r, c), k + 2) else g.random_cell O (k + 2) fuel

/-! ## The six generators (`algorithm.py`)

Each takes the grid, the oracle, and (for the `while`-loop algorithms)
fuel; the result is the final link relation.  `none` is a run that
raises or runs out of fuel (a non-terminating run exhausts every finite
fuel). -/

/-- `filter(None, (cell.N, cell.E))`: the candidate neighbors of
`binary_tree`. -/
def btNbs (g : Grid) (c : Cell) : List Cell := [g.N c, g.E c].filterMap id

/-- `binary_tree`: for each cell, link to a random choice among its
present N and E neighbors, if any. -/
def binary_tree (g : Grid) (O : Oracle) : Links :=
  (g.eachCell.foldl
    (fun (acc : Links × Nat) cell =>
      match choiceO (btNbs g cell) (O acc.2) with
      | none => acc
      | some nb => (acc.1.link cell nb, acc.2 + 1))
    (∅, 0)).1

/-- Closing a sidewinder run: `member = choice(run)`, then
`member.link(member.N)` when the northern neighbor exists. -/
def swClose (g : Grid) (L : Links) (run : List Cell) (O : Oracle) (k : Nat) :
    Option (Links × Nat) :=
  match choiceO run (O k) with
  | none => none
  | some member =>
    match g.N member with
    | some nb => some (L.link member nb, k + 1)
    | none => some (L, k + 1)

/-- One cell of the sidewinder row loop.  An absent slot is `None` in
`each_row` and the attribute access `cell.E` raises (`none`).  The coin
`randint(0, 1)` is drawn only when the short-circuit
`at_E or (not_at_N and randint(0, 1))` reaches it. -/
def swStep (g : Grid) (O : Oracle) (st : Links × Nat × List Cell) (oc : Option Cell) :
    Option (Links × Nat × List Cell) :=
  match oc with
  | none => none
  | some cell =>
    let (L, k, run) := st
    let run' := run ++ [cell]
    if (g.E cell).isNone then
      (swClose g L run' O k).map fun p => (p.1, p.2, [])
    else if (g.N cell).isNone then
      match g.E cell with
      | some e => some (L.link cell e, k, run')
      | none => none
    else if O k % 2 = 1 then
      (swClose g L run' O (k + 1)).map fun p => (p.1, p.2, [])
    else
      match g.E cell with
      | some e => some (L.link cell e, k + 1, run')
      | none => none

/-- One row of `sidewinder` (`run.clear()` empties the run at the top of
each row). -/
def swRow (g : Grid) (O : Oracle) (st : Links × Nat) (row : List (Option Cell)) :
    Option (Links × Nat) :=
  (row.foldlM (fun st oc => swStep g O st oc) (st.1, st.2, ([] : List Cell))).map
    fun t => (t.1, t.2.1)

/-- `sidewinder`. -/
def sidewinder (g : Grid) (O : Oracle) : Option Links :=
  (g.eachRow.foldlM (swRow g O) ((∅ : Links), 0)).map Prod.fst

/-- The random walk of `aldous_broder`: move to a random neighbor, link
it to the previous cell the first time it is seen without links. -/
def abLoop (g : Grid) (O : Oracle) :
    Nat → Cell → Nat → Links → Nat → Option Links
  | 0, _, _, _, _ => none
  | fuel + 1, cell, unvisited, L, k =>
    if unvisited = 0 then some L
    else
      match choiceO (g.neighbors cell) (O k) with
      | none => none
      | some nb =>
        if cellLinks L nb = ∅ then abLoop g O fuel nb (unvisited - 1) (L.link cell nb) (k + 1)
        else abLoop g O fuel nb unvisited L (k + 1)

/-- `aldous_broder`. -/
def aldous_broder (g : Grid) (O : Oracle) (fuel : Nat) : Option Links :=
  match g.random_cell O 0 fuel with
  | none => none
  | some (cell, k) => abLoop g O fuel cell (g.size - 1) ∅ k

/-- `remove_random(L)`: delete the element at `randint(0, len(L) - 1)`
(raises on an empty list). -/
def remove_random (l : List Cell) (n : Nat) : Option (List Cell) :=
  if l.isEmpty then none else some (l.eraseIdx (n % l.length))

/-- The loop-erased random walk of `wilsons`: extend the path with a
random neighbor; on revisiting a path cell, truncate back to its first
occurrence; stop on reaching a visited cell. -/
def wiWalk (g : Grid) (O : Oracle) (unvisited : List Cell) :
    Nat → List Cell → Cell → Nat → Option (List Cell × Nat)
  | 0, _, _, _ => none
  | fuel + 1, path, cell, k =>
    if cell ∈ unvisited then
      match choiceO (g.neighbors cell) (O k) with
      | none => none
      | some c' =>
        if c' ∈ path then wiWalk g O unvisited fuel (path.take (path.indexOf c' + 1)) c' (k + 1)
        else wiWalk g O unvisited fuel (path ++ [c']) c' (k + 1)
    else some (path, k)

/-- Committing a wilsons path: link consecutive cells and remove each
non-final path cell from `unvisited` (`list.remove` raises when the
element is absent). -/
def wiCommit : List Cell → List Cell → Links → Option (List Cell × Links)
  | [], unvisited, L => some (unvisited, L)
  | [_], unvisited, L => some (unvisited, L)
  | a :: b :: rest, unvisited, L =>
    if a ∈ unvisited then wiCommit (b :: rest) (unvisited.erase a) (L.link a b)
    else none

/-- The links added by committing a path: every consecutive pair,
front to back (specification-side restatement of `wiCommit`'s link
effect). -/
def linkAll : List Cell → Links → Links
  | a :: b :: rest, L => linkAll (b :: rest) (L.link a b)
  | _, L => L

/-- The outer loop of `wilsons`. -/
def wiLoop (g : Grid) (O : Oracle) :
    Nat → List Cell → Links → Nat → Option Links
  | 0, _, _, _ => none
  | fuel + 1, unvisited, L, k =>
    if unvisited.isEmpty then some L
    else
      match choiceO unvisited (O k) with
      | none => none
      | some cell =>
        match wiWalk g O unvisited fuel [cell] cell (k + 1) with
        | none => none
        | some (path, k') =>
          match wiCommit path unvisited L with
          | none => none
          | some (unvisited', L') => wiLoop g O fuel unvisited' L' k'

/-- `wilsons`. -/
def wilsons (g : Grid) (O : Oracle) (fuel : Nat) : Option Links :=
  match remove_random g.eachCell (O 0) with
  | none => none
  | some unvisited => wiLoop g O fuel unvisited ∅ 1

/-- `Cell.neighbors_without_links`. -/
def neighborsWithoutLinks (g : Grid) (L : Links) (c : Cell) : List Cell :=
  (g.neighbors c).filter fun n => cellLinks L n = ∅

/-- `Cell.neighbors_with_links`. -/
def neighborsWithLinks (g : Grid) (L : Links) (c : Cell) : List Cell :=
  (g.neighbors c).filter fun n => cellLinks L n ≠ ∅

/-- The hunt scan of `hunt_and_kill`: the first unlinked cell, in
row-major order, having a linked neighbor. -/
def huntFind (g : Grid) (L : Links) : Option Cell :=
  g.eachCell.find? fun cell =>
    decide (cellLinks L cell = ∅) && decide (neighborsWithLinks g L cell ≠ [])

/-- The kill/hunt loop of `hunt_and_kill`; `current = none` models
`current = None`, on which the `while current` loop exits. -/
def hkLoop (g : Grid) (O : Oracle) :
    Nat → Option Cell → Links → Nat → Option Links
  | 0, _, _, _ => none
  | _ + 1, none, L, _ => some L
  | fuel + 1, some current, L, k =>
    let unl := neighborsWithoutLinks g L current
    if unl.isEmpty then
      match huntFind g L with
      | none => hkLoop g O fuel none L k
      | some cell =>
        match choiceO (neighborsWithLinks g L cell) (O k) with
        | none => none
        | some nb => hkLoop g O fuel (some cell) (L.link cell nb) (k + 1)
    else
      match choiceO unl (O k) with
      | none => none
      | some nb => hkLoop g O fuel (some nb) (L.link current nb) (k + 1)

/-- `hunt_and_kill`. -/
def hunt_and_kill (g : Grid) (O : Oracle) (fuel : Nat) : Option Links :=
  match g.random_cell O 0 fuel with
  | none => none
  | some (start, k) => hkLoop g O fuel (some start) ∅ k

/-- The explicit-stack loop of `recursive_backtracker`; the Python list
with `append`/`pop`/`[-1]` is a stack with its top at the head here. -/
def rbLoop (g : Grid) (O : Oracle) :
    Nat → List Cell → Links → Nat → Option Links
  | 0, _, _, _ => none
  | _ + 1, [], L, _ => some L
  | fuel + 1, current :: stack, L, k =>
    let unl := neighborsWithoutLinks g L current
    if unl.isEmpty then rbLoop g O fuel stack L k
    else
      match choiceO unl (O k) with
      | none => none
      | some nb => rbLoop g O fuel (nb :: current :: stack) (L.link current nb) (k + 1)

/-- `recursive_backtracker` with `start=None`: the start cell is drawn
by `grid.random_cell`. -/
def recursive_backtracker (g : Grid) (O : Oracle) (fuel : Nat) : Option Links :=
  match g.random_cell O 0 fuel with
  | none => none
  | some (start, k) => rbLoop g O fuel [start] ∅ k

/-! ## Spanning-tree statement

`L` stores each undirected link as two ordered pairs, so a spanning
tree over `V` has `L.card = 2 * (V.card - 1)`.  `conn` is
link-reachability between any two present cells. -/

def LinkReach (L : Links) (u v : Cell) : Prop :=
  Relation.ReflTransGen (fun a b => (a, b) ∈ L) u v

structure SpanningTreeOn (V : Finset Cell) (L : Links) : Prop where
  symm : ∀ u v, (u, v) ∈ L → (v, u) ∈ L
  irrefl : ∀ u, (u, u) ∉ L
  mem_left : ∀ u v, (u, v) ∈ L → u ∈ V
  card_links : L.card = 2 * (V.card - 1)
  conn : ∀ u ∈ V, ∀ v ∈ V, LinkReach L u v

/-- Executable lattice connectivity: the present cells are nonempty and
the neighbor-closure of the first one covers them all. -/
def closureStep (g : Grid) (s : Finset Cell) : Finset Cell :=
  s ∪ s.biUnion fun c => (g.neighbors c).toFinset

def closureIter (g : Grid) : Nat → Finset Cell → Finset Cell
  | 0, s => s
  | n + 1, s => closureIter g n (closureStep g s)

/-- The present cells form one lattice-connected component. -/
def latticeConnected (g : Grid) : Bool :=
  match g.eachCell with
  | [] => false
  | c :: _ => decide (closureIter g g.size {c} = g.cells)

/-- The symmetry invariant on a link state. -/
def SymmLinks (L : Links) : Prop := ∀ u v, (u, v) ∈ L → (v, u) ∈ L

/-- The cells of row `r` at columns `i, i+1, …, i+n-1` (specification-side,
for stating the sidewinder run invariant). -/
def rowSeg (r i n : Nat) : List Cell := (List.range' i n).map (fun c => (r, c))

/-- The present cells form a single lattice-connected component
(propositional counterpart of `latticeConnected`). -/
def LatticeConn (g : Grid) : Prop :=
  ∀ u ∈ g.cells, ∀ v ∈ g.cells,
    Relation.ReflTransGen (fun a b => b ∈ g.neighbors a) u v

/-- The mask field is allocated exactly when both dimensions are set. -/
def MaskDimInv (s : RLEState) : Prop :=
  s.mask.isSome ↔ (s.width.isSome ∧ s.height.isSome)

/-- Reading one mask cell by row-major coordinates (specification-side
accessor over the nested-list mask representation). -/
def mget (m : Mask) (r c : Nat) : Bool := (m.grid.getD r []).getD c false

/-- A mask is rectangular: every row has exactly `columns` entries.
Every mask the Python class builds is rectangular. -/
def Rect (m : Mask) : Prop := ∀ row ∈ m.grid, row.length = m.columns

instance (m : Mask) : Decidable (Rect m) := by
  unfold Rect
  infer_instance

/-- The maximal runs of a boolean sequence (count, value), counts ≥ 1. -/
def runsOf : List Bool → List (Nat × Bool)
  | [] => []
  | b :: rest =>
    match runsOf rest with
    | [] => [(1, b)]
    | (k, c) :: gs => if b = c then (k + 1, c) :: gs else (1, b) :: (k, c) :: gs

/-- Rendering a run list the way `to_RLE` does. -/
def encodeRuns (gs : List (Nat × Bool)) : List Char :=
  (gs.map (fun g => outputCount g.1 g.2)).flatten

/-- Expanding a run list back into the boolean sequence. -/
def flattenRuns (gs : List (Nat × Bool)) : List Bool :=
  (gs.map (fun g => List.replicate g.1 g.2)).flatten

/-- The decoder invariant while replaying the runs of mask `m`: the
partial mask agrees with `m` strictly below flat index `idx` and is
still all-on from `idx` up. -/
def DecInv (m : Mask) (idx : Nat) (M : Mask) : Prop :=
  M.rows = m.rows ∧ M.columns = m.columns ∧ Rect M ∧
    ∀ r c, r < m.rows → c < m.columns →
      mget M r c = if r * m.columns + c < idx then mget m r c else true

/-- Invariant of `Cell.distances` between rounds: `d` is the distance
dict (keys distinct, insertion order), `f` the current frontier, all at
level `lev`. -/
structure BFSInv (adj : Cell → List Cell) (root : Cell) (lev : Nat)
    (d : DistMap) (f : List Cell) : Prop where
  nodup : (d.map Prod.fst).Nodup
  root0 : dlookup d root = some 0
  frontier : ∀ c ∈ f, dlookup d c = some lev
  bound : ∀ p ∈ d, p.2 ≤ lev
  closure : ∀ p ∈ d, p.1 ∉ f → ∀ n ∈ adj p.1, ∃ vn, dlookup d n = some vn ∧ vn ≤ p.2 + 1
  parent : ∀ p ∈ d, 1 ≤ p.2 → ∃ q, q ∈ d ∧ q.2 + 1 = p.2 ∧ p.1 ∈ adj q.1
  zero : ∀ p ∈ d, p.2 = 0 → p.1 = root
  univ : ∀ p ∈ d, p.1 = root ∨ ∃ q, p.1 ∈ adj q

/-- What holds of the finished distance dict. -/
structure BFSFinal (adj : Cell → List Cell) (root : Cell) (D : DistMap) : Prop where
  nodup : (D.map Prod.fst).Nodup
  root0 : dlookup D root = some 0
  closure : ∀ p ∈ D, ∀ n ∈ adj p.1, ∃ vn, dlookup D n = some vn ∧ vn ≤ p.2 + 1
  parent : ∀ p ∈ D, 1 ≤ p.2 → ∃ q, q ∈ D ∧ q.2 + 1 = p.2 ∧ p.1 ∈ adj q.1
  zero : ∀ p ∈ D, p.2 = 0 → p.1 = root

/-- A concrete triangle of links on three cells (both directions of each
of the three edges), as `Cell.link` would store them. -/
def L3 : Links :=
  {((0, 0), (0, 1)), ((0, 1), (0, 0)), ((0, 0), (1, 0)), ((1, 0), (0, 0)),
   ((0, 1), (1, 0)), ((1, 0), (0, 1))}

/-- An iteration order for the link sets of `L3`. -/
def adj3 : Cell → List Cell := fun u =>
  if u = (0, 0) then [(0, 1), (1, 0)]
  else if u = (0, 1) then [(0, 0), (1, 0)]
  else if u = (1, 0) then [(0, 0), (0, 1)]
  else []

/-! # Theorems -/

/-! ## Link symmetry (claims C5 and C9) -/

lemma symmLinks_empty : SymmLinks ∅ := fun _ _ h => absurd h (Finset.not_mem_empty _)

lemma symmLinks_link (L : Links) (u v : Cell) (h : SymmLinks L) :
    SymmLinks (L.link u v) := by
  intro a b hab
  simp only [Links.link, Finset.mem_insert, Prod.mk.injEq] at hab ⊢
  rcases hab with ⟨ha, hb⟩ | hab
  · exact Or.inr (Or.inl ⟨hb.symm ▸ rfl, ha.symm ▸ rfl⟩)
  rcases hab with ⟨ha, hb⟩ | hab
  · exact Or.inl ⟨hb.symm ▸ rfl, ha.symm ▸ rfl⟩
  · exact Or.inr (Or.inr (h a b hab))

lemma symmLinks_erase_pair (L : Links) (u v : Cell) (h : SymmLinks L) :
    SymmLinks ((L.erase (u, v)).erase (v, u)) := by
  intro a b hab
  simp only [Finset.mem_erase, Prod.mk.injEq, ne_eq] at hab ⊢
  exact ⟨fun hc => hab.2.1 ⟨hc.2, hc.1⟩, fun hc => hab.1 ⟨hc.2, hc.1⟩, h a b hab.2.2⟩

lemma symmLinks_erase_diag (L : Links) (v : Cell) (h : SymmLinks L) :
    SymmLinks (L.erase (v, v)) := by
  intro a b hab
  simp only [Finset.mem_erase, Prod.mk.injEq, ne_eq] at hab ⊢
  exact ⟨fun hc => hab.1 ⟨hc.2, hc.1⟩, h a b hab.2⟩

lemma symmLinks_unlink (L : Links) (u v : Cell) (h : SymmLinks L) :
    SymmLinks (L.unlink u v).1 := by
  unfold Links.unlink removePair
  by_cases huv : (u, v) ∈ L
  · by_cases huv' : (v, u) ∈ L.erase (u, v)
    · simpa [huv, huv'] using symmLinks_erase_pair L u v h
    · -- `(v, u)` survives the first erase unless `u = v`.
      have huv2 : (v, u) ∈ L := h u v huv
      have huveq : u = v := by
        by_contra hne
        refine huv' (Finset.mem_erase.mpr ⟨?_, huv2⟩)
        intro hEq
        exact hne (congrArg Prod.snd hEq)
      subst huveq
      simpa [huv, huv'] using symmLinks_erase_diag L u h
  · simpa [huv] using h

lemma symmLinks_applyOp (L : Links) (op : LinkOp) (h : SymmLinks L) :
    SymmLinks (applyOp L op) := by
  cases op with
  | link u v => exact symmLinks_link L u v h
  | unlink u v => exact symmLinks_unlink L u v h

lemma symmLinks_runOps (ops : List LinkOp) : SymmLinks (runOps ops) := by
  suffices h : ∀ L, SymmLinks L → SymmLinks (ops.foldl applyOp L) from
    h ∅ symmLinks_empty
  induction ops with
  | nil => exact fun L hL => hL
  | cons op rest ih => exact fun L hL => ih _ (symmLinks_applyOp L op hL)

/-- Claim C5: link symmetry is an invariant of every sequence of
bidirectional `link`/`unlink` calls starting from freshly constructed
cells: `u.linked_to(v)` iff `v.linked_to(u)`. -/
theorem linked_to_symm_after_runOps (ops : List LinkOp) (u v : Cell) :
    linked_to (runOps ops) u v ↔ linked_to (runOps ops) v u :=
  ⟨fun h => symmLinks_runOps ops u v h, fun h => symmLinks_runOps ops v u h⟩

/-- Claim C9: `unlink` on a pair that is not linked raises `KeyError`
(second component `true`) instead of being a no-op, and the link state
is left untouched. -/
theorem unlink_not_linked_raises (L : Links) (u v : Cell) (h : (u, v) ∉ L) :
    L.unlink u v = (L, true) := by
  unfold Links.unlink removePair
  simp [h]

/-- Witness for C9 at a concrete state: fresh cells, nothing linked. -/
theorem unlink_not_linked_raises_witness :
    Links.unlink ∅ (0, 0) (0, 1) = (∅, true) :=
  unlink_not_linked_raises ∅ (0, 0) (0, 1) (Finset.not_mem_empty _)

/-! ## Mask reads and writes (claim C7) -/

/-- Claim C7: a mask read is total, yielding `false` on any out-of-range
index; a mask write at an out-of-range index raises `IndexError` (so the
mask value is unchanged — `set` produces no mask at all). -/
theorem mask_get_false_set_error_oob :
    (∀ (m : Mask) (r c : Int),
        (r < 0 ∨ (m.rows : Int) ≤ r ∨ c < 0 ∨ (m.columns : Int) ≤ c) →
        m.get r c = false) ∧
    (∀ (m : Mask) (r c : Int) (b : Bool),
        (r < 0 ∨ (m.rows : Int) ≤ r ∨ c < 0 ∨ (m.columns : Int) ≤ c) →
        ∃ e, m.set r c b = .error e) := by
  constructor
  · intro m r c h
    unfold Mask.get
    simp only [ge_iff_le, Bool.or_eq_true, decide_eq_true_eq]
    by_cases hr : r < 0 ∨ (m.rows : Int) ≤ r
    · rw [if_pos hr]
    · have hc : c < 0 ∨ (m.columns : Int) ≤ c := by tauto
      rw [if_neg hr, if_pos hc]
  · intro m r c b h
    unfold Mask.set
    simp only [ge_iff_le, Bool.or_eq_true, decide_eq_true_eq]
    by_cases hr : r < 0 ∨ (m.rows : Int) ≤ r
    · exact ⟨"Row index is out of range", by rw [if_pos hr]⟩
    · have hc : c < 0 ∨ (m.columns : Int) ≤ c := by tauto
      exact ⟨"Column index is out of range", by rw [if_neg hr, if_pos hc]⟩

/-- Witness for C7 at a concrete mask and out-of-range index. -/
theorem mask_get_false_set_error_oob_witness :
    Mask.get ⟨[[true]]⟩ 1 0 = false ∧ ∃ e, Mask.set ⟨[[true]]⟩ 1 0 true = .error e :=
  ⟨mask_get_false_set_error_oob.1 ⟨[[true]]⟩ 1 0 (by norm_num [Mask.rows]),
   mask_get_false_set_error_oob.2 ⟨[[true]]⟩ 1 0 true (by norm_num [Mask.rows])⟩

/-! ## The concrete decode scenario (claim C8) -/

/-- Claim C8: decoding `"2w2h1o3.!"` succeeds and yields the 2×2 mask
with only the cell at row 0, column 0 off. -/
theorem from_RLE_concrete_scenario :
    Mask.from_RLE "2w2h1o3.!" = .ok (some ⟨[[false, true], [true, true]]⟩) := by
  rfl

/-! ## `.` before the dimensions (claim C6) -/

/-- Counterexample to C6 as stated: the input `".2w2h!"` has a `.`
command before either dimension is declared, yet decoding succeeds (no
`DimensionsNotSet` failure) and returns a full 2×2 mask. -/
theorem dot_before_dims_no_error :
    Mask.from_RLE ".2w2h!" = .ok (some ⟨[[true, true], [true, true]]⟩) := by
  rfl

/-- Claim C6 (amended): a `.` command never fails — whatever the state,
it merely advances the cursor by the pending count (also before the
dimensions are declared); the decode error for missing dimensions is
raised by `o`, whose handling fails exactly when no mask has been
allocated. -/
theorem dot_step_total_o_step_needs_dims :
    (∀ s : RLEState,
        fromRLEStep s '.' =
          .ok { s with count := 0, index := s.index + (if s.count > 0 then s.count else 1) }) ∧
    (∀ s : RLEState, s.mask = none → ∃ e, fromRLEStep s 'o' = .error e) := by
  constructor
  · intro s
    unfold fromRLEStep
    rw [if_neg (by decide : ¬ isPyWhitespace '.' = true),
      if_neg (by decide : ¬ Char.isDigit '.' = true),
      if_neg (by decide : ¬ ('.' = 'w')), if_neg (by decide : ¬ ('.' = 'h')),
      if_neg (by decide : ¬ ('.' = 'o')), if_pos rfl]
    simp [getAndResetCount, Nat.pos_iff_ne_zero]
  · intro s hs
    refine ⟨"Must specify dimensions before occupancy", ?_⟩
    unfold fromRLEStep
    rw [if_neg (by decide : ¬ isPyWhitespace 'o' = true),
      if_neg (by decide : ¬ Char.isDigit 'o' = true),
      if_neg (by decide : ¬ ('o' = 'w')), if_neg (by decide : ¬ ('o' = 'h')),
      if_pos rfl, hs]

/-- Witness for C6 (amended) at a concrete state. -/
theorem dot_step_total_o_step_needs_dims_witness :
    fromRLEStep RLEState.initial '.' = .ok { RLEState.initial with count := 0, index := 1 } ∧
    ∃ e, fromRLEStep RLEState.initial 'o' = .error e :=
  ⟨dot_step_total_o_step_needs_dims.1 RLEState.initial,
   dot_step_total_o_step_needs_dims.2 RLEState.initial rfl⟩

/-! ## Decoding without dimensions returns `none` (claim C10) -/

lemma setOffRun_fields (cnt : Nat) (s s' : RLEState)
    (h : setOffRun cnt s = .ok s') :
    s'.mask.isSome = s.mask.isSome ∧ s'.width = s.width ∧ s'.height = s.height := by
  induction cnt generalizing s with
  | zero =>
    unfold setOffRun at h
    cases h
    exact ⟨rfl, rfl, rfl⟩
  | succ n ih =>
    unfold setOffRun at h
    cases hm : s.mask with
    | none => simp [hm] at h
    | some m =>
      simp only [hm] at h
      cases hset : m.set (s.rowcol.1 : Int) (s.rowcol.2 : Int) false with
      | error e => simp [hset] at h
      | ok m' =>
        simp only [hset] at h
        simpa [hm] using ih _ h

lemma fromRLEStep_maskDimInv (s s' : RLEState) (ch : Char)
    (hInv : MaskDimInv s) (h : fromRLEStep s ch = .ok s') : MaskDimInv s' := by
  unfold fromRLEStep at h
  by_cases hws : isPyWhitespace ch
  · simp only [hws, if_pos] at h; cases h; exact hInv
  simp only [hws, if_neg, Bool.false_eq_true] at h
  by_cases hd : ch.isDigit
  · simp only [hd, if_pos] at h; cases h; exact hInv
  simp only [hd, if_neg, Bool.false_eq_true] at h
  by_cases hw : ch = 'w'
  · simp only [hw, if_pos] at h
    cases hwid : s.width with
    | some wv => simp [hwid] at h
    | none =>
      simp only [hwid, getAndResetCount] at h
      cases hhei : s.height with
      | some hv =>
        have hmask : s.mask = none := by
          cases hm : s.mask with
          | none => rfl
          | some m => exact absurd (hInv.mp (by simp [hm])).1 (by simp [hwid])
        simp only [hhei, hmask] at h
        cases h
        simp [MaskDimInv, hhei]
      | none =>
        have hmask : s.mask = none := by
          cases hm : s.mask with
          | none => rfl
          | some m => exact absurd (hInv.mp (by simp [hm])).1 (by simp [hwid])
        simp only [hhei, hmask] at h
        cases h
        simp [MaskDimInv, hmask, hhei]
  simp only [hw, if_neg] at h
  by_cases hh : ch = 'h'
  · simp only [hh, if_pos] at h
    cases hhei : s.height with
    | some hv => simp [hhei] at h
    | none =>
      simp only [hhei, getAndResetCount] at h
      cases hwid : s.width with
      | some wv =>
        have hmask : s.mask = none := by
          cases hm : s.mask with
          | none => rfl
          | some m => exact absurd (hInv.mp (by simp [hm])).2 (by simp [hhei])
        simp only [hwid, hmask] at h
        cases h
        simp [MaskDimInv, hwid]
      | none =>
        have hmask : s.mask = none := by
          cases hm : s.mask with
          | none => rfl
          | some m => exact absurd (hInv.mp (by simp [hm])).2 (by simp [hhei])
        simp only [hwid, hmask] at h
        cases h
        simp [MaskDimInv, hmask, hwid]
  simp only [hh, if_neg] at h
  by_cases ho : ch = 'o'
  · simp only [ho, if_pos] at h
    cases hm : s.mask with
    | none => simp [hm] at h
    | some m =>
      simp only [hm, getAndResetCount] at h
      have := setOffRun_fields _ _ _ h
      unfold MaskDimInv
      rw [this.1, this.2.1, this.2.2]
      simpa [MaskDimInv, hm] using hInv
  simp only [ho, if_neg] at h
  by_cases hdot : ch = '.'
  · simp only [hdot, if_pos, getAndResetCount] at h
    cases h
    exact hInv
  simp only [hdot, if_neg] at h
  by_cases hdol : ch = '$'
  · simp only [hdol, if_pos] at h
    cases hwid : s.width with
    | none => simp [hwid] at h
    | some wv =>
      simp only [hwid] at h
      cases h
      simpa [MaskDimInv, hwid] using hInv
  simp [hdol] at h

lemma fromRLEAux_maskDimInv (l : List Char) (s s' : RLEState)
    (hInv : MaskDimInv s) (h : fromRLEAux s l = .ok s') : MaskDimInv s' := by
  induction l generalizing s with
  | nil =>
    unfold fromRLEAux at h
    cases h
    exact hInv
  | cons ch rest ih =>
    unfold fromRLEAux at h
    by_cases hbang : ch = '!'
    · simp only [hbang, if_pos] at h
      cases h
      exact hInv
    · simp only [hbang, if_neg] at h
      cases hstep : fromRLEStep s ch with
      | error e => simp [hstep] at h
      | ok s1 =>
        simp only [hstep] at h
        exact ih _ (fromRLEStep_maskDimInv s s1 ch hInv hstep) h

/-- Claim C10: when the decode loop finishes (end of input or `!`)
without both dimensions declared, `from_RLE` returns no mask and no
error; in particular on `""` and `"5w!"`. -/
theorem from_RLE_no_dims_returns_none :
    (∀ (rle : String) (s : RLEState),
        fromRLEAux RLEState.initial rle.toList = .ok s →
        s.width = none ∨ s.height = none →
        s.mask = none ∧ Mask.from_RLE rle = .ok none) ∧
    Mask.from_RLE "" = .ok none ∧ Mask.from_RLE "5w!" = .ok none := by
  refine ⟨?_, rfl, rfl⟩
  intro rle s h hdim
  have hInv : MaskDimInv s :=
    fromRLEAux_maskDimInv _ RLEState.initial s (by simp [RLEState.initial, MaskDimInv]) h
  have hmask : s.mask = none := by
    cases hm : s.mask with
    | none => rfl
    | some m =>
      rcases hdim with hd | hd
      · exact absurd (hInv.mp (by simp [hm])).1 (by simp [hd])
      · exact absurd (hInv.mp (by simp [hm])).2 (by simp [hd])
  refine ⟨hmask, ?_⟩
  unfold Mask.from_RLE
  rw [h]
  simp [hmask]

/-- Witness for C10 on the concrete input `"5w!"`. -/
theorem from_RLE_no_dims_returns_none_witness :
    (⟨none, some 5, none, 0, 0⟩ : RLEState).mask = none ∧
      Mask.from_RLE "5w!" = .ok none :=
  from_RLE_no_dims_returns_none.1 "5w!" ⟨none, some 5, none, 0, 0⟩ rfl (Or.inr rfl)

/-! ## RLE round-trip (claim C2) -/

lemma digitChar_facts (d : Nat) (hd : d < 10) :
    (Char.ofNat ('0'.toNat + d)).isDigit = true ∧
      isPyWhitespace (Char.ofNat ('0'.toNat + d)) = false ∧
      Char.ofNat ('0'.toNat + d) ≠ '!' ∧
      (Char.ofNat ('0'.toNat + d)).toNat - '0'.toNat = d := by
  interval_cases d <;> exact (by decide)

lemma natToDecimal_mem (n : Nat) :
    ∀ ch ∈ natToDecimal n, ∃ d, d < 10 ∧ ch = Char.ofNat ('0'.toNat + d) := by
  induction n using Nat.strong_induction_on with
  | _ n ih =>
    intro ch hch
    rw [natToDecimal] at hch
    by_cases h : n < 10
    · rw [dif_pos h] at hch
      rcases List.mem_singleton.mp hch with rfl
      exact ⟨n, h, rfl⟩
    · rw [dif_neg h] at hch
      rcases List.mem_append.mp hch with hch | hch
      · exact ih (n / 10) (Nat.div_lt_self (by omega) (by norm_num)) ch hch
      · rcases List.mem_singleton.mp hch with rfl
        exact ⟨n % 10, Nat.mod_lt _ (by norm_num), rfl⟩

lemma natToDecimal_ne_nil (n : Nat) : natToDecimal n ≠ [] := by
  rw [natToDecimal]
  by_cases h : n < 10
  · rw [dif_pos h]; simp
  · rw [dif_neg h]; simp

lemma fromRLEStep_digit (s : RLEState) (ch : Char) (h1 : ch.isDigit = true)
    (h2 : isPyWhitespace ch = false) :
    fromRLEStep s ch = .ok { s with count := s.count * 10 + (ch.toNat - '0'.toNat) } := by
  unfold fromRLEStep
  rw [h2, h1]
  simp

lemma isDigit_not_ws_bang {ch : Char} (h : ch.isDigit = true) :
    isPyWhitespace ch = false ∧ ch ≠ '!' := by
  unfold Char.isDigit at h
  constructor
  · unfold isPyWhitespace
    by_contra hw
    simp only [Bool.not_eq_false, Bool.or_eq_true, decide_eq_true_eq] at hw
    rcases hw with ((((hc | hc) | hc) | hc) | hc) | hc <;> subst hc <;> simp_all
  · intro hc
    subst hc
    simp_all

lemma fromRLEAux_cons (s : RLEState) (ch : Char) (rest : List Char) :
    fromRLEAux s (ch :: rest) =
      if ch = '!' then .ok s
      else
        match fromRLEStep s ch with
        | .error e => .error e
        | .ok s' => fromRLEAux s' rest := rfl

lemma fromRLEAux_append (l1 l2 : List Char) (s : RLEState) (h : '!' ∉ l1) :
    fromRLEAux s (l1 ++ l2) =
      match fromRLEAux s l1 with
      | .error e => .error e
      | .ok s' => fromRLEAux s' l2 := by
  induction l1 generalizing s with
  | nil => rfl
  | cons ch rest ih =>
    have hch : ch ≠ '!' := fun hc => h (hc ▸ List.mem_cons_self _ _)
    rw [List.cons_append]
    simp only [fromRLEAux_cons, if_neg hch]
    cases hstep : fromRLEStep s ch with
    | error e => rfl
    | ok s1 => exact ih s1 (fun hc => h (List.mem_cons_of_mem _ hc))

lemma fromRLEAux_digitRun (ds : List Char) (s : RLEState)
    (h : ∀ ch ∈ ds, ch.isDigit = true) :
    fromRLEAux s ds =
      .ok { s with count := ds.foldl (fun a ch => a * 10 + (ch.toNat - '0'.toNat)) s.count } := by
  induction ds generalizing s with
  | nil => rfl
  | cons ch rest ih =>
    have h1 := h ch (List.mem_cons_self _ _)
    have h2 := isDigit_not_ws_bang h1
    rw [fromRLEAux_cons, if_neg h2.2, fromRLEStep_digit s ch h1 h2.1]
    exact ih _ (fun c hc => h c (List.mem_cons_of_mem _ hc))

lemma foldl_digits_natToDecimal (n : Nat) :
    (natToDecimal n).foldl (fun a ch => a * 10 + (ch.toNat - '0'.toNat)) 0 = n := by
  induction n using Nat.strong_induction_on with
  | _ n ih =>
    rw [natToDecimal]
    by_cases h : n < 10
    · rw [dif_pos h]
      simpa using (digitChar_facts n h).2.2.2
    · rw [dif_neg h]
      rw [List.foldl_append]
      rw [ih (n / 10) (Nat.div_lt_self (by omega) (by norm_num))]
      have := (digitChar_facts (n % 10) (Nat.mod_lt _ (by norm_num))).2.2.2
      simp only [List.foldl_cons, List.foldl_nil, this]
      omega

lemma natToDecimal_all_digits (n : Nat) :
    ∀ ch ∈ natToDecimal n, ch.isDigit = true := by
  intro ch hch
  rcases natToDecimal_mem n ch hch with ⟨d, hd, rfl⟩
  exact (digitChar_facts d hd).1

lemma bang_not_mem_natToDecimal (n : Nat) : '!' ∉ natToDecimal n := by
  intro hch
  exact absurd (natToDecimal_all_digits n '!' hch) (by decide)

/-- Processing the decimal digits of `n` from a cleared count sets the
count to `n`. -/
lemma fromRLEAux_natToDecimal (n : Nat) (s : RLEState) (hc : s.count = 0) :
    fromRLEAux s (natToDecimal n) = .ok { s with count := n } := by
  rw [fromRLEAux_digitRun _ _ (natToDecimal_all_digits n), hc,
    foldl_digits_natToDecimal]

lemma runsOf_eq_nil_iff (F : List Bool) : runsOf F = [] ↔ F = [] := by
  cases F with
  | nil => simp [runsOf]
  | cons b rest =>
    simp only [runsOf]
    constructor
    · intro h
      cases hr : runsOf rest with
      | nil => simp [hr] at h
      | cons g gs =>
        rcases g with ⟨k, c⟩
        rw [hr] at h
        by_cases hbc : b = c <;> simp [hbc] at h
    · intro h
      exact absurd h (List.cons_ne_nil _ _)

lemma runsOf_cons_head (b : Bool) (rest : List Bool) :
    ∃ k gs, runsOf (b :: rest) = (k, b) :: gs ∧ 1 ≤ k := by
  simp only [runsOf]
  cases hr : runsOf rest with
  | nil => exact ⟨1, [], rfl, le_refl 1⟩
  | cons g gs =>
    rcases g with ⟨k, c⟩
    by_cases hbc : b = c
    · subst hbc
      exact ⟨k + 1, gs, by simp, by omega⟩
    · exact ⟨1, (k, c) :: gs, by simp [hbc], le_refl 1⟩

lemma runsOf_pos (F : List Bool) : ∀ g ∈ runsOf F, 1 ≤ g.1 := by
  induction F with
  | nil => simp [runsOf]
  | cons b rest ih =>
    intro g hg
    simp only [runsOf] at hg
    cases hr : runsOf rest with
    | nil => rw [hr] at hg; simp at hg; simp [hg]
    | cons g0 gs =>
      rcases g0 with ⟨k, c⟩
      rw [hr] at hg
      have hk : 1 ≤ k := by
        have := ih (k, c) (by rw [hr]; exact List.mem_cons_self _ _)
        simpa using this
      by_cases hbc : b = c
      · simp only [hbc, if_pos rfl] at hg
        rcases List.mem_cons.mp hg with rfl | hg
        · omega
        · exact ih g (by rw [hr]; exact List.mem_cons_of_mem _ hg)
      · simp only [if_neg hbc] at hg
        rcases List.mem_cons.mp hg with rfl | hg
        · omega
        · exact ih g (by rw [hr]; exact hg)

lemma runsOf_cons (b : Bool) (l : List Bool) :
    runsOf (b :: l) =
      match runsOf l with
      | [] => [(1, b)]
      | (k, c) :: gs => if b = c then (k + 1, c) :: gs else (1, b) :: (k, c) :: gs := rfl

lemma runsOf_cons_cons (b : Bool) (l : List Bool) (k : Nat) (c : Bool)
    (gs : List (Nat × Bool)) (h : runsOf l = (k, c) :: gs) :
    runsOf (b :: l) = if b = c then (k + 1, c) :: gs else (1, b) :: (k, c) :: gs := by
  rw [runsOf_cons, h]

lemma flattenRuns_cons (g : Nat × Bool) (gs : List (Nat × Bool)) :
    flattenRuns (g :: gs) = List.replicate g.1 g.2 ++ flattenRuns gs := rfl

lemma flattenRuns_runsOf (F : List Bool) : flattenRuns (runsOf F) = F := by
  induction F with
  | nil => rfl
  | cons b rest ih =>
    cases hr : runsOf rest with
    | nil =>
      have : rest = [] := (runsOf_eq_nil_iff rest).mp hr
      subst this
      rfl
    | cons g0 gs =>
      rcases g0 with ⟨k, c⟩
      rw [hr] at ih
      rw [runsOf_cons_cons b rest k c gs hr]
      by_cases hbc : b = c
      · subst hbc
        rw [if_pos rfl]
        simp only [flattenRuns_cons] at ih ⊢
        rw [List.replicate_succ, List.cons_append, ih]
      · rw [if_neg hbc]
        simp only [flattenRuns_cons] at ih ⊢
        rw [ih]
        simp

lemma runsOf_replicate_append (count : Nat) (cur : Bool) (G : List Bool)
    (hcount : 1 ≤ count) (hG : ∀ b', G.head? = some b' → b' ≠ cur) :
    runsOf (List.replicate count cur ++ G) = (count, cur) :: runsOf G := by
  induction count with
  | zero => omega
  | succ n ih =>
    cases n with
    | zero =>
      have h1 : List.replicate (0 + 1) cur ++ G = cur :: G := by simp
      rw [h1]
      cases G with
      | nil => rfl
      | cons g grest =>
        rcases runsOf_cons_head g grest with ⟨k, gs, hrg, hk⟩
        have hne : ¬ (cur = g) := fun hc => (hG g rfl) hc.symm
        rw [runsOf_cons_cons cur (g :: grest) k g gs hrg, if_neg hne, hrg]
    | succ n' =>
      have hrep : List.replicate (n' + 1 + 1) cur ++ G =
          cur :: (List.replicate (n' + 1) cur ++ G) := by
        rw [List.replicate_succ, List.cons_append]
      rw [hrep, runsOf_cons_cons cur _ (n' + 1) cur (runsOf G) (ih (by omega)),
        if_pos rfl]

lemma encodeRuns_cons (g : Nat × Bool) (gs : List (Nat × Bool)) :
    encodeRuns (g :: gs) = outputCount g.1 g.2 ++ encodeRuns gs := rfl

lemma rleFold_some (out : List Char) (cur : Bool) (count : Nat) (b : Bool) :
    rleFold (out, some cur, count) b =
      if b ≠ cur then (out ++ outputCount count cur, some b, 1)
      else (out, some cur, count + 1) := rfl

/-- The run-length fold, started with a pending run of `count ≥ 1`
copies of `cur` and `out` already emitted, finishes to the rendering of
the maximal runs of the whole sequence. -/
lemma rleFold_spec (F : List Bool) :
    ∀ (out : List Char) (cur : Bool) (count : Nat), 1 ≤ count →
    ∃ out' cur' count',
      F.foldl rleFold (out, some cur, count) = (out', some cur', count') ∧
      out' ++ outputCount count' cur' =
        out ++ encodeRuns (runsOf (List.replicate count cur ++ F)) := by
  induction F with
  | nil =>
    intro out cur count hcount
    refine ⟨out, cur, count, rfl, ?_⟩
    have h1 := runsOf_replicate_append count cur [] hcount (by simp)
    rw [List.append_nil] at h1
    rw [List.append_nil, h1, encodeRuns_cons,
      show encodeRuns (runsOf []) = [] from rfl, List.append_nil]
  | cons b rest ih =>
    intro out cur count hcount
    rw [List.foldl_cons, rleFold_some]
    by_cases hbc : b = cur
    · subst hbc
      rw [if_neg (by simp)]
      obtain ⟨out', cur', count', hfold, hout⟩ := ih out b (count + 1) (by omega)
      refine ⟨out', cur', count', hfold, ?_⟩
      rw [hout]
      have : List.replicate count b ++ b :: rest = List.replicate (count + 1) b ++ rest := by
        rw [List.replicate_succ', List.append_assoc]
        rfl
      rw [this]
    · rw [if_pos hbc]
      obtain ⟨out', cur', count', hfold, hout⟩ := ih (out ++ outputCount count cur) b 1 (le_refl 1)
      refine ⟨out', cur', count', hfold, ?_⟩
      rw [hout]
      have h1 : List.replicate 1 b ++ rest = b :: rest := by simp
      rw [h1, runsOf_replicate_append count cur (b :: rest) hcount
        (by intro b' hb'; cases hb'; exact hbc), encodeRuns_cons, List.append_assoc]

/-- `to_RLE` in closed form: the dimension header followed by the
rendering of the maximal runs of the row-major sequence. -/
lemma to_RLE_eq (m : Mask) (b : Bool) (rest : List Bool) (hF : m.grid.flatten = b :: rest) :
    m.to_RLE = ⟨(natToDecimal m.rows ++ ['h'] ++ natToDecimal m.columns ++ ['w']) ++
      encodeRuns (runsOf m.grid.flatten)⟩ := by
  obtain ⟨out', cur', count', hfold, hout⟩ := rleFold_spec rest [] b 1 (le_refl 1)
  have hout' : out' ++ outputCount count' cur' = encodeRuns (runsOf (b :: rest)) := by
    rw [hout]
    have h1 : List.replicate 1 b ++ rest = b :: rest := by simp
    rw [h1, List.nil_append]
  unfold Mask.to_RLE
  rw [hF, List.foldl_cons]
  have h0 : rleFold ([], none, 0) b = ([], some b, 1) := rfl
  rw [h0, hfold]
  simp only [List.append_assoc]
  rw [hout']

lemma mask_init_rows (R C : Nat) : (Mask.init R C).rows = R := by
  simp [Mask.init, Mask.rows]

lemma mask_init_columns (R C : Nat) (h : 1 ≤ R) : (Mask.init R C).columns = C := by
  unfold Mask.init Mask.columns
  cases R with
  | zero => omega
  | succ n => simp [List.replicate_succ]

lemma mask_init_rect (R C : Nat) (h : 1 ≤ R) : Rect (Mask.init R C) := by
  intro row hrow
  unfold Mask.init at hrow
  rw [List.eq_of_mem_replicate hrow, mask_init_columns R C h]
  simp

lemma mget_init (R C r c : Nat) (hr : r < R) (hc : c < C) :
    mget (Mask.init R C) r c = true := by
  unfold mget Mask.init
  simp [List.getD_eq_getElem?_getD, List.getElem?_replicate, hr, hc]

lemma flatten_length_of_rect (rows : List (List Bool)) (cols : Nat)
    (h : ∀ row ∈ rows, row.length = cols) :
    rows.flatten.length = rows.length * cols := by
  induction rows with
  | nil => simp
  | cons row rest ih =>
    have hrow := h row (List.mem_cons_self _ _)
    rw [List.flatten_cons, List.length_append, hrow,
      ih (fun r hr => h r (List.mem_cons_of_mem _ hr))]
    simp [List.length_cons]
    ring

lemma flatten_getD_of_rect (rows : List (List Bool)) (cols : Nat)
    (h : ∀ row ∈ rows, row.length = cols) (r c : Nat) (hc : c < cols) :
    rows.flatten.getD (r * cols + c) false = (rows.getD r []).getD c false := by
  induction rows generalizing r with
  | nil => simp
  | cons row rest ih =>
    have hrow := h row (List.mem_cons_self _ _)
    cases r with
    | zero =>
      simp only [Nat.zero_mul, Nat.zero_add, List.flatten_cons]
      rw [List.getD_eq_getElem?_getD, List.getElem?_append, if_pos (by omega),
        ← List.getD_eq_getElem?_getD]
      rfl
    | succ n =>
      simp only [List.flatten_cons]
      rw [List.getD_eq_getElem?_getD, List.getElem?_append,
        if_neg (by push_neg; rw [hrow]; nlinarith), hrow]
      have harith : (n + 1) * cols + c - cols = n * cols + c := by
        rw [Nat.add_mul]
        omega
      rw [harith, ← List.getD_eq_getElem?_getD]
      exact ih (fun r' hr' => h r' (List.mem_cons_of_mem _ hr')) n

lemma mask_set_spec (M : Mask) (r c : Nat) (b : Bool) (hr : r < M.rows)
    (hc : c < M.columns) (hrect : Rect M) :
    ∃ M', M.set (r : Int) (c : Int) b = .ok M' ∧
      M'.rows = M.rows ∧ M'.columns = M.columns ∧ Rect M' ∧
      ∀ r' c', mget M' r' c' = if r' = r ∧ c' = c then b else mget M r' c' := by
  have hrlen : r < M.grid.length := hr
  have hrowlen : (M.grid.getD r []).length = M.columns := by
    apply hrect
    rw [List.getD_eq_getElem?_getD, List.getElem?_eq_getElem hrlen]
    exact List.getElem_mem _
  have hclen : c < (M.grid.getD r []).length := by omega
  have hrows' : (⟨M.grid.set r ((M.grid.getD r []).set c b)⟩ : Mask).rows = M.rows := by
    simp [Mask.rows]
  have hcols' :
      (⟨M.grid.set r ((M.grid.getD r []).set c b)⟩ : Mask).columns = M.columns := by
    unfold Mask.columns
    cases hg : M.grid with
    | nil =>
      rw [hg] at hrlen
      simp at hrlen
    | cons g rest =>
      cases r with
      | zero =>
        simp only [hg, List.set_cons_zero, List.headD_cons, List.length_set,
          List.getD_eq_getElem?_getD]
        simp
      | succ n => simp [hg]
  have hrect' : Rect ⟨M.grid.set r ((M.grid.getD r []).set c b)⟩ := by
    intro row hrow
    rw [hcols']
    rcases List.mem_or_eq_of_mem_set hrow with hmem | rfl
    · exact hrect row hmem
    · rw [List.length_set]
      exact hrowlen
  refine ⟨⟨M.grid.set r ((M.grid.getD r []).set c b)⟩, ?_, hrows', hcols', hrect', ?_⟩
  · unfold Mask.set
    simp only [ge_iff_le, Bool.or_eq_true, decide_eq_true_eq]
    rw [if_neg (by push_neg; constructor <;> omega),
      if_neg (by push_neg; constructor <;> omega)]
    simp
  · intro r' c'
    show (List.getD _ r' []).getD c' false = _
    by_cases hrr : r' = r
    · subst hrr
      have hnew : (M.grid.set r' ((M.grid.getD r' []).set c b)).getD r' [] =
          (M.grid.getD r' []).set c b := by
        rw [List.getD_eq_getElem?_getD, List.getElem?_set, if_pos rfl, if_pos hrlen]
        rfl
      rw [hnew]
      by_cases hcc : c' = c
      · subst hcc
        rw [if_pos ⟨rfl, rfl⟩]
        rw [List.getD_eq_getElem?_getD, List.getElem?_set, if_pos rfl, if_pos hclen]
        rfl
      · rw [if_neg (by tauto)]
        show _ = (M.grid.getD r' []).getD c' false
        rw [List.getD_eq_getElem?_getD, List.getElem?_set, if_neg (fun hcontra => hcc hcontra.symm),
          ← List.getD_eq_getElem?_getD]
    · rw [if_neg (by tauto)]
      show _ = (M.grid.getD r' []).getD c' false
      have : (M.grid.set r ((M.grid.getD r []).set c b)).getD r' [] = M.grid.getD r' [] := by
        rw [List.getD_eq_getElem?_getD, List.getElem?_set,
          if_neg (fun hcontra => hrr hcontra.symm), ← List.getD_eq_getElem?_getD]
      rw [this]

/-- Row-major flat position versus `divmod` coordinates. -/
lemma rowcol_of_flat (cols r c p : Nat) (hC : 1 ≤ cols) (hc : c < cols)
    (hp : p = r * cols + c) : p / cols = r ∧ p % cols = c := by
  subst hp
  constructor
  · rw [Nat.mul_comm r cols, Nat.mul_add_div (by omega), Nat.div_eq_of_lt hc]
    omega
  · rw [Nat.mul_comm r cols, Nat.mul_add_mod, Nat.mod_eq_of_lt hc]

lemma setOffRun_spec (k : Nat) :
    ∀ (s : RLEState) (M : Mask), s.mask = some M → s.width = some M.columns →
    1 ≤ M.columns → Rect M → s.index + k ≤ M.rows * M.columns →
    ∃ M', setOffRun k s = .ok { s with mask := some M', index := s.index + k } ∧
      M'.rows = M.rows ∧ M'.columns = M.columns ∧ Rect M' ∧
      ∀ r c, r < M.rows → c < M.columns →
        mget M' r c =
          if s.index ≤ r * M.columns + c ∧ r * M.columns + c < s.index + k then false
          else mget M r c := by
  induction k with
  | zero =>
    intro s M hM hW hC hrect hbound
    refine ⟨M, ?_, rfl, rfl, hrect, ?_⟩
    · unfold setOffRun
      cases s
      simp only at hM
      simp [hM]
    · intro r c _ _
      rw [if_neg (by omega)]
  | succ n ih =>
    intro s M hM hW hC hrect hbound
    have hidx : s.index < M.rows * M.columns := by omega
    have hrdiv : s.index / M.columns < M.rows :=
      (Nat.div_lt_iff_lt_mul (by omega)).mpr hidx
    have hcmod : s.index % M.columns < M.columns := Nat.mod_lt _ (by omega)
    obtain ⟨M1, hset, h1rows, h1cols, h1rect, h1pt⟩ :=
      mask_set_spec M (s.index / M.columns) (s.index % M.columns) false hrdiv hcmod hrect
    have hrc : s.rowcol = (s.index / M.columns, s.index % M.columns) := by
      unfold RLEState.rowcol
      rw [hW]
      rfl
    obtain ⟨M', hrun, hrows', hcols', hrect', hpt'⟩ :=
      ih { s with mask := some M1, index := s.index + 1 } M1 rfl
        (by simp [hW, h1cols]) (by omega) h1rect
        (by simp only [h1rows, h1cols]; omega)
    refine ⟨M', ?_, by omega, by rw [hcols', h1cols], hrect', ?_⟩
    · unfold setOffRun
      rw [hM, hrc]
      simp only [hset]
      rw [hrun]
      congr 1
      simp only [RLEState.mk.injEq]
      refine ⟨trivial, trivial, trivial, trivial, by omega⟩
    · intro r c hrb hcb
      have hpm := hpt' r c (by omega) (by omega)
      have hp1 := h1pt r c
      rw [h1cols] at hpm
      have hproj : ({ s with mask := some M1, index := s.index + 1 } : RLEState).index =
          s.index + 1 := rfl
      rw [hproj] at hpm
      rw [hpm, hp1]
      by_cases hpeq : r * M.columns + c = s.index
      · obtain ⟨hd, hm⟩ := rowcol_of_flat M.columns r c s.index hC hcb hpeq.symm
        have h1 : ¬(s.index + 1 ≤ r * M.columns + c ∧
            r * M.columns + c < s.index + 1 + n) := by omega
        have h2 : s.index ≤ r * M.columns + c ∧
            r * M.columns + c < s.index + (n + 1) := by omega
        rw [if_neg h1, if_pos ⟨hd.symm, hm.symm⟩, if_pos h2]
      · have hne : ¬(r = s.index / M.columns ∧ c = s.index % M.columns) := by
          rintro ⟨rfl, rfl⟩
          refine hpeq ?_
          rw [Nat.mul_comm]
          exact Nat.div_add_mod s.index M.columns
        rw [if_neg hne]
        by_cases hmid : s.index + 1 ≤ r * M.columns + c ∧ r * M.columns + c < s.index + 1 + n
        · have h2 : s.index ≤ r * M.columns + c ∧
              r * M.columns + c < s.index + (n + 1) := by omega
          rw [if_pos hmid, if_pos h2]
        · have h2 : ¬(s.index ≤ r * M.columns + c ∧
              r * M.columns + c < s.index + (n + 1)) := by omega
          rw [if_neg hmid, if_neg h2]

lemma fromRLEStep_dot_eval (s : RLEState) :
    fromRLEStep s '.' =
      .ok { s with count := 0, index := s.index + (if 0 < s.count then s.count else 1) } := by
  unfold fromRLEStep
  rw [if_neg (by decide : ¬ isPyWhitespace '.' = true),
    if_neg (by decide : ¬ Char.isDigit '.' = true),
    if_neg (by decide : ¬ ('.' = 'w')), if_neg (by decide : ¬ ('.' = 'h')),
    if_neg (by decide : ¬ ('.' = 'o')), if_pos rfl]
  simp [getAndResetCount, Nat.pos_iff_ne_zero]

lemma fromRLEStep_o_eval (s : RLEState) (m : Mask) (h : s.mask = some m) :
    fromRLEStep s 'o' =
      setOffRun (if 0 < s.count then s.count else 1) { s with count := 0 } := by
  unfold fromRLEStep
  rw [if_neg (by decide : ¬ isPyWhitespace 'o' = true),
    if_neg (by decide : ¬ Char.isDigit 'o' = true),
    if_neg (by decide : ¬ ('o' = 'w')), if_neg (by decide : ¬ ('o' = 'h')),
    if_pos rfl, h]
  simp only [getAndResetCount]
  rw [h]

lemma fromRLEAux_append_ok (l1 l2 : List Char) (s s1 : RLEState) (h : '!' ∉ l1)
    (h1 : fromRLEAux s l1 = .ok s1) :
    fromRLEAux s (l1 ++ l2) = fromRLEAux s1 l2 := by
  rw [fromRLEAux_append l1 l2 s h, h1]

lemma fromRLEAux_single_dot (s : RLEState) :
    fromRLEAux s ['.'] =
      .ok { s with count := 0, index := s.index + (if 0 < s.count then s.count else 1) } := by
  rw [fromRLEAux_cons, if_neg (by decide), fromRLEStep_dot_eval]
  rfl

lemma fromRLEAux_single_o (s : RLEState) (m : Mask) (h : s.mask = some m) :
    fromRLEAux s ['o'] =
      setOffRun (if 0 < s.count then s.count else 1) { s with count := 0 } := by
  rw [fromRLEAux_cons, if_neg (by decide), fromRLEStep_o_eval s m h]
  cases hrun : setOffRun (if 0 < s.count then s.count else 1) { s with count := 0 } with
  | error e => rfl
  | ok s2 => show fromRLEAux s2 [] = _; rfl

lemma fromRLEAux_group_true (k : Nat) (hk : 1 ≤ k) (s : RLEState) (hcount : s.count = 0) :
    fromRLEAux s (outputCount k true) = .ok { s with index := s.index + k } := by
  unfold outputCount
  by_cases h1 : k = 1
  · subst h1
    rw [if_pos rfl]
    show fromRLEAux s ['.'] = _
    rw [fromRLEAux_single_dot, hcount]
    obtain ⟨ms, ws, hs, cs, is⟩ := s
    simp only at hcount
    subst hcount
    rfl
  · rw [if_neg h1, show [runChar true] = ['.'] from rfl,
      fromRLEAux_append_ok _ _ _ _ (bang_not_mem_natToDecimal k)
        (fromRLEAux_natToDecimal k s hcount),
      fromRLEAux_single_dot,
      if_pos (show 0 < ({ s with count := k } : RLEState).count from hk)]
    obtain ⟨ms, ws, hs, cs, is⟩ := s
    simp only at hcount
    subst hcount
    rfl

lemma fromRLEAux_group_false (k : Nat) (hk : 1 ≤ k) (s : RLEState) (hcount : s.count = 0)
    (m : Mask) (hm : s.mask = some m) :
    fromRLEAux s (outputCount k false) = setOffRun k s := by
  unfold outputCount
  by_cases h1 : k = 1
  · subst h1
    rw [if_pos rfl]
    show fromRLEAux s ['o'] = _
    rw [fromRLEAux_single_o s m hm, hcount]
    obtain ⟨ms, ws, hs, cs, is⟩ := s
    simp only at hcount
    subst hcount
    rfl
  · rw [if_neg h1, show [runChar false] = ['o'] from rfl,
      fromRLEAux_append_ok _ _ _ _ (bang_not_mem_natToDecimal k)
        (fromRLEAux_natToDecimal k s hcount),
      fromRLEAux_single_o _ m (by simp [hm]),
      if_pos (show 0 < ({ s with count := k } : RLEState).count from hk)]
    obtain ⟨ms, ws, hs, cs, is⟩ := s
    simp only at hcount
    subst hcount
    rfl

lemma fromRLEAux_cons_ok (s s1 : RLEState) (ch : Char) (rest : List Char)
    (hch : ch ≠ '!') (h : fromRLEStep s ch = .ok s1) :
    fromRLEAux s (ch :: rest) = fromRLEAux s1 rest := by
  rw [fromRLEAux_cons, if_neg hch, h]

lemma bang_not_mem_outputCount (k : Nat) (b : Bool) : '!' ∉ outputCount k b := by
  unfold outputCount
  by_cases h1 : k = 1
  · rw [if_pos h1]
    intro hmem
    have h := List.mem_singleton.mp hmem
    cases b <;> simp [runChar] at h
  · rw [if_neg h1]
    intro hmem
    rcases List.mem_append.mp hmem with hmem | hmem
    · exact bang_not_mem_natToDecimal k hmem
    · have h := List.mem_singleton.mp hmem
      cases b <;> simp [runChar] at h

lemma step_h_header (R : Nat) (hR : 1 ≤ R) :
    fromRLEStep ⟨none, none, none, R, 0⟩ 'h' = .ok ⟨none, none, some R, 0, 0⟩ := by
  unfold fromRLEStep
  rw [if_neg (by decide : ¬ isPyWhitespace 'h' = true),
    if_neg (by decide : ¬ Char.isDigit 'h' = true),
    if_neg (by decide : ¬ ('h' = 'w')), if_pos rfl]
  show (match (⟨none, none, none, R, 0⟩ : RLEState).height with
    | some _ => Except.error "Height already specified"
    | none => _) = _
  simp only [getAndResetCount]
  rw [if_pos (show 0 < R from hR)]

lemma step_w_header (R C : Nat) (hC : 1 ≤ C) :
    fromRLEStep ⟨none, none, some R, C, 0⟩ 'w' =
      .ok ⟨some (Mask.init R C), some C, some R, 0, 0⟩ := by
  unfold fromRLEStep
  rw [if_neg (by decide : ¬ isPyWhitespace 'w' = true),
    if_neg (by decide : ¬ Char.isDigit 'w' = true), if_pos rfl]
  show (match (⟨none, none, some R, C, 0⟩ : RLEState).width with
    | some _ => Except.error "Width already specified"
    | none => _) = _
  simp only [getAndResetCount]
  rw [if_pos (show 0 < C from hC)]

/-- Decoding the header `f'{R}h{C}w'` from the initial state allocates
the all-on `R × C` mask. -/
lemma decode_header (R C : Nat) (hR : 1 ≤ R) (hC : 1 ≤ C) (body : List Char) :
    fromRLEAux RLEState.initial
        ((natToDecimal R ++ ['h'] ++ natToDecimal C ++ ['w']) ++ body) =
      fromRLEAux ⟨some (Mask.init R C), some C, some R, 0, 0⟩ body := by
  have hassoc : (natToDecimal R ++ ['h'] ++ natToDecimal C ++ ['w']) ++ body =
      natToDecimal R ++ ('h' :: (natToDecimal C ++ ('w' :: body))) := by
    simp [List.append_assoc]
  have hdig1 : fromRLEAux RLEState.initial (natToDecimal R) =
      .ok ⟨none, none, none, R, 0⟩ := fromRLEAux_natToDecimal R RLEState.initial rfl
  have hdig2 : fromRLEAux ⟨none, none, some R, 0, 0⟩ (natToDecimal C) =
      .ok ⟨none, none, some R, C, 0⟩ := fromRLEAux_natToDecimal C _ rfl
  rw [hassoc,
    fromRLEAux_append_ok _ _ _ _ (bang_not_mem_natToDecimal R) hdig1,
    fromRLEAux_cons_ok _ _ _ _ (by decide) (step_h_header R hR),
    fromRLEAux_append_ok _ _ _ _ (bang_not_mem_natToDecimal C) hdig2,
    fromRLEAux_cons_ok _ _ _ _ (by decide) (step_w_header R C hC)]

lemma mget_eq_getElem (m : Mask) (r c : Nat) (hr : r < m.grid.length)
    (hc : c < (m.grid[r]).length) : mget m r c = m.grid[r][c] := by
  unfold mget
  have h1 : m.grid.getD r [] = m.grid[r] := by
    rw [List.getD_eq_getElem?_getD, List.getElem?_eq_getElem hr]
    rfl
  rw [h1, List.getD_eq_getElem?_getD, List.getElem?_eq_getElem hc]
  rfl

lemma mask_ext (M m : Mask) (hrows : M.rows = m.rows) (hcols : M.columns = m.columns)
    (hM : Rect M) (hm : Rect m)
    (hpt : ∀ r c, r < m.rows → c < m.columns → mget M r c = mget m r c) : M = m := by
  rcases M with ⟨Mg⟩
  rcases m with ⟨mg⟩
  simp only [Mask.rows] at hrows
  congr 1
  apply List.ext_getElem hrows
  intro i h1 h2
  have hlen1 : (Mg[i]).length = Mask.columns ⟨mg⟩ := by
    rw [← hcols]
    exact hM _ (List.getElem_mem _)
  have hlen2 : (mg[i]).length = Mask.columns ⟨mg⟩ := hm _ (List.getElem_mem _)
  apply List.ext_getElem (by rw [hlen1, hlen2])
  intro j hj1 hj2
  have hj : j < Mask.columns ⟨mg⟩ := by rw [← hlen2]; exact hj2
  have e1 : mget ⟨Mg⟩ i j = Mg[i][j] := mget_eq_getElem ⟨Mg⟩ i j h1 hj1
  have e2 : mget ⟨mg⟩ i j = mg[i][j] := mget_eq_getElem ⟨mg⟩ i j h2 hj2
  rw [← e1, ← e2]
  exact hpt i j h2 hj

/-- Replaying the runs of `m`'s row-major sequence from flat position
`idx` onto a partial mask satisfying the decoder invariant completes the
decode with the mask equal to `m` everywhere below `rows * columns`. -/
lemma decode_runs (m : Mask) (hC : 1 ≤ m.columns) (hrectm : Rect m) (gs : List (Nat × Bool)) :
    ∀ (idx : Nat) (M : Mask),
    (∀ g ∈ gs, 1 ≤ g.1) →
    flattenRuns gs = m.grid.flatten.drop idx →
    idx ≤ m.rows * m.columns →
    DecInv m idx M →
    ∃ M', fromRLEAux ⟨some M, some m.columns, some m.rows, 0, idx⟩ (encodeRuns gs) =
        .ok ⟨some M', some m.columns, some m.rows, 0, m.rows * m.columns⟩ ∧
      DecInv m (m.rows * m.columns) M' := by
  have hlenF : m.grid.flatten.length = m.rows * m.columns := by
    rw [flatten_length_of_rect m.grid m.columns hrectm]
    rfl
  induction gs with
  | nil =>
    intro idx M _ hflat hile hInv
    have hidx : idx = m.rows * m.columns := by
      have hd := congrArg List.length hflat
      simp only [flattenRuns, List.map_nil, List.flatten_nil, List.length_nil,
        List.length_drop, hlenF] at hd
      omega
    subst hidx
    exact ⟨M, rfl, hInv⟩
  | cons g gs ih =>
    rcases g with ⟨k, b⟩
    intro idx M hpos hflat hile hInv
    obtain ⟨hMrows, hMcols, hMrect, hMpt⟩ := hInv
    have hk : 1 ≤ k := hpos (k, b) (List.mem_cons_self _ _)
    rw [flattenRuns_cons] at hflat
    have hlen : idx + k ≤ m.rows * m.columns := by
      have hd := congrArg List.length hflat
      simp only [List.length_append, List.length_replicate, List.length_drop, hlenF] at hd
      omega
    have hdropk : flattenRuns gs = m.grid.flatten.drop (idx + k) := by
      have h2 : (m.grid.flatten.drop idx).drop k = m.grid.flatten.drop (idx + k) := by
        rw [List.drop_drop]
      rw [← h2, ← hflat]
      simp
    have hslice : ∀ j, j < k → m.grid.flatten.getD (idx + j) false = b := by
      intro j hj
      rw [List.getD_eq_getElem?_getD, ← List.getElem?_drop, ← hflat,
        List.getElem?_append]
      simp only [List.length_replicate]
      rw [if_pos (show j < (k, b).1 from hj)]
      simp [List.getElem?_replicate, hj]
    have hvalm : ∀ r c, r < m.rows → c < m.columns →
        idx ≤ r * m.columns + c → r * m.columns + c < idx + k →
        mget m r c = b := by
      intro r c hr hc hge hlt
      have := hslice (r * m.columns + c - idx) (by omega)
      rw [show idx + (r * m.columns + c - idx) = r * m.columns + c by omega] at this
      rw [← this, flatten_getD_of_rect m.grid m.columns hrectm r c hc]
      rfl
    rw [encodeRuns_cons]
    cases b with
    | true =>
      have hgrp := fromRLEAux_group_true k hk
        ⟨some M, some m.columns, some m.rows, 0, idx⟩ rfl
      rw [fromRLEAux_append_ok _ _ _ _ (bang_not_mem_outputCount k true) hgrp]
      have hInv' : DecInv m (idx + k) M := by
        refine ⟨hMrows, hMcols, hMrect, ?_⟩
        intro r c hr hc
        rw [hMpt r c hr hc]
        by_cases hlt : r * m.columns + c < idx
        · rw [if_pos hlt, if_pos (by omega)]
        · rw [if_neg hlt]
          by_cases hlt2 : r * m.columns + c < idx + k
          · rw [if_pos hlt2, hvalm r c hr hc (by omega) hlt2]
          · rw [if_neg hlt2]
      exact ih (idx + k) M (fun g hg => hpos g (List.mem_cons_of_mem _ hg))
        hdropk hlen hInv'
    | false =>
      have hgrp := fromRLEAux_group_false k hk
        ⟨some M, some m.columns, some m.rows, 0, idx⟩ rfl M rfl
      obtain ⟨M1, hrun, h1rows, h1cols, h1rect, h1pt⟩ :=
        setOffRun_spec k ⟨some M, some m.columns, some m.rows, 0, idx⟩ M rfl
          (by rw [hMcols]) (by omega) hMrect
          (by show idx + k ≤ M.rows * M.columns; rw [hMrows, hMcols]; omega)
      rw [fromRLEAux_append_ok _ _ _ _ (bang_not_mem_outputCount k false)
        (hgrp.trans hrun)]
      have hInv' : DecInv m (idx + k) M1 := by
        refine ⟨by rw [h1rows, hMrows], by rw [h1cols, hMcols], h1rect, ?_⟩
        intro r c hr hc
        have hpt1 := h1pt r c (by omega) (by omega)
        rw [hMcols] at hpt1
        have hidxproj :
            ({ mask := some M, width := some m.columns, height := some m.rows,
                count := 0, index := idx } : RLEState).index = idx := rfl
        rw [hidxproj] at hpt1
        rw [hpt1]
        by_cases hlt : r * m.columns + c < idx
        · rw [if_neg (by omega), hMpt r c hr hc, if_pos hlt, if_pos (by omega)]
        · by_cases hlt2 : r * m.columns + c < idx + k
          · rw [if_pos (by omega), if_pos (by omega),
              hvalm r c hr hc (by omega) hlt2]
          · rw [if_neg (by omega), hMpt r c hr hc, if_neg (by omega), if_neg (by omega)]
      exact ih (idx + k) M1 (fun g hg => hpos g (List.mem_cons_of_mem _ hg))
        hdropk hlen hInv'

/-- Counterexample to C2 as stated: the 1-row, 0-column mask `[[]]`
(constructible as `Mask(1, 0)`) encodes to `"1h0w"`, and decoding that
yields a 1×1 all-on mask, not the original: the `w` command turns the
pending count 0 into 1 (`get_and_reset_count` maps 0 to 1).  So
`from_RLE(to_RLE(m)) ≠ m` for this mask. -/
theorem rle_roundtrip_fails_zero_columns :
    Mask.to_RLE ⟨[[]]⟩ = "1h0w" ∧
      Mask.from_RLE (Mask.to_RLE ⟨[[]]⟩) = .ok (some ⟨[[true]]⟩) ∧
      some (⟨[[true]]⟩ : Mask) ≠ some (⟨[[]]⟩ : Mask) := by
  have e1 : natToDecimal 1 = ['1'] := by
    rw [natToDecimal, dif_pos (by norm_num : (1 : Nat) < 10)]
    decide
  have e0 : natToDecimal 0 = ['0'] := by
    rw [natToDecimal, dif_pos (by norm_num : (0 : Nat) < 10)]
    decide
  have h1 : Mask.to_RLE ⟨[[]]⟩ = "1h0w" := by
    unfold Mask.to_RLE
    rw [show Mask.rows ⟨[[]]⟩ = 1 from rfl, show Mask.columns ⟨[[]]⟩ = 0 from rfl, e1, e0]
    rfl
  refine ⟨h1, ?_, by decide⟩
  rw [h1]
  rfl

/-- Claim C2 (amended): for every rectangular mask with at least one row
and at least one column — every mask the `Mask` class can construct and
encode — decoding the encoding reproduces the mask cell for cell. -/
theorem from_RLE_to_RLE_roundtrip (m : Mask) (hR : 1 ≤ m.rows) (hC : 1 ≤ m.columns)
    (hrect : Rect m) : Mask.from_RLE m.to_RLE = .ok (some m) := by
  have hlenF : m.grid.flatten.length = m.rows * m.columns := by
    rw [flatten_length_of_rect m.grid m.columns hrect]
    rfl
  cases hF : m.grid.flatten with
  | nil =>
    exfalso
    rw [hF] at hlenF
    have := Nat.mul_pos hR hC
    simp at hlenF
    omega
  | cons b rest =>
    rw [to_RLE_eq m b rest hF]
    show (match fromRLEAux RLEState.initial
        ((natToDecimal m.rows ++ ['h'] ++ natToDecimal m.columns ++ ['w']) ++
          encodeRuns (runsOf m.grid.flatten)) with
      | .error e => Except.error e
      | .ok s => Except.ok s.mask) = .ok (some m)
    rw [decode_header m.rows m.columns hR hC _]
    obtain ⟨M', hrun, hInv⟩ := decode_runs m hC hrect (runsOf m.grid.flatten) 0
      (Mask.init m.rows m.columns) (runsOf_pos _)
      (by rw [flattenRuns_runsOf]; simp)
      (by omega)
      ⟨mask_init_rows _ _, mask_init_columns _ _ hR, mask_init_rect _ _ hR,
        fun r c hr hc => by rw [if_neg (by omega), mget_init _ _ _ _ hr hc]⟩
    rw [hrun]
    have hM' : M' = m := by
      refine mask_ext M' m hInv.1 hInv.2.1 hInv.2.2.1 hrect ?_
      intro r c hr hc
      have hb : r * m.columns + c < m.rows * m.columns := by
        calc r * m.columns + c < r * m.columns + m.columns := by omega
          _ = (r + 1) * m.columns := by ring
          _ ≤ m.rows * m.columns := Nat.mul_le_mul_right _ (by omega)
      have := hInv.2.2.2 r c hr hc
      rwa [if_pos hb] at this
    rw [hM']

/-- Witness for C2 (amended) at a concrete 2×2 mask. -/
theorem from_RLE_to_RLE_roundtrip_witness :
    Mask.from_RLE (Mask.to_RLE ⟨[[false, true], [true, true]]⟩) =
      .ok (some ⟨[[false, true], [true, true]]⟩) :=
  from_RLE_to_RLE_roundtrip ⟨[[false, true], [true, true]]⟩ (by decide) (by decide)
    (by decide)

/-! ## Breadth-first distances (claims C3 and C4) -/

lemma dlookup_nil (c : Cell) : dlookup [] c = none := rfl

lemma dlookup_cons (p : Cell × Nat) (D : DistMap) (c : Cell) :
    dlookup (p :: D) c = if p.1 = c then some p.2 else dlookup D c := by
  unfold dlookup
  rw [List.find?_cons]
  by_cases h : p.1 = c
  · simp [h]
  · simp [h]

lemma dlookup_append (D E : DistMap) (c : Cell) :
    dlookup (D ++ E) c =
      match dlookup D c with
      | some v => some v
      | none => dlookup E c := by
  induction D with
  | nil => rfl
  | cons p D ih =>
    rw [List.cons_append, dlookup_cons, dlookup_cons]
    by_cases h : p.1 = c
    · simp [h]
    · simp only [if_neg h]
      exact ih

lemma dlookup_append_left (D E : DistMap) (c : Cell) (v : Nat)
    (h : dlookup D c = some v) : dlookup (D ++ E) c = some v := by
  rw [dlookup_append, h]

lemma dlookup_append_right (D E : DistMap) (c : Cell)
    (h : dlookup D c = none) : dlookup (D ++ E) c = dlookup E c := by
  rw [dlookup_append, h]

lemma dlookup_mem (D : DistMap) (c : Cell) (v : Nat) (h : dlookup D c = some v) :
    (c, v) ∈ D := by
  induction D with
  | nil => simp [dlookup_nil] at h
  | cons p D ih =>
    rw [dlookup_cons] at h
    by_cases hp : p.1 = c
    · rw [if_pos hp] at h
      cases h
      have : (c, p.2) = p := by rw [← hp]
      rw [this]
      exact List.mem_cons_self _ _
    · rw [if_neg hp] at h
      exact List.mem_cons_of_mem _ (ih h)

lemma dlookup_isSome_of_mem (D : DistMap) (c : Cell) (v : Nat) (h : (c, v) ∈ D) :
    ∃ v', dlookup D c = some v' := by
  induction D with
  | nil => simp at h
  | cons p D ih =>
    rw [dlookup_cons]
    by_cases hp : p.1 = c
    · exact ⟨p.2, if_pos hp⟩
    · rw [if_neg hp]
      rcases List.mem_cons.mp h with rfl | h
    -- first case contradicts hp
      · exact absurd rfl hp
      · exact ih h

lemma mem_dlookup (D : DistMap) (hnd : (D.map Prod.fst).Nodup) (c : Cell) (v : Nat)
    (h : (c, v) ∈ D) : dlookup D c = some v := by
  induction D with
  | nil => simp at h
  | cons p D ih =>
    rw [List.map_cons, List.nodup_cons] at hnd
    rw [dlookup_cons]
    rcases List.mem_cons.mp h with rfl | h
    · rw [if_pos rfl]
    · have hp : p.1 ≠ c := by
        intro hc
        exact hnd.1 (hc ▸ (List.mem_map.mpr ⟨(c, v), h, rfl⟩))
      rw [if_neg hp]
      exact ih hnd.2 h

lemma dlookup_map_replace (D : DistMap) (n : Cell) (v : Nat) (c : Cell) :
    dlookup (D.map (fun p => if p.1 = n then (n, v) else p)) c =
      (dlookup D c).map (fun w => if c = n then v else w) := by
  induction D with
  | nil => rfl
  | cons p D ih =>
    simp only [List.map_cons, dlookup_cons]
    by_cases hp : p.1 = n
    · by_cases hpc : p.1 = c
      · have hcn : c = n := by rw [← hpc, hp]
        simp [hp, hpc, hcn]
      · have hnc : ¬ (n = c) := fun hx => hpc (hp.trans hx)
        simp [hp, hpc, hnc, ih]
    · by_cases hpc : p.1 = c
      · have hcn : ¬ (c = n) := fun hx => hp (hpc.trans hx)
        simp [hp, hpc, hcn]
      · simp [hp, hpc, ih]

lemma dlookup_upsert (D : DistMap) (n : Cell) (v : Nat) (c : Cell) :
    dlookup (upsert D n v) c = if c = n then some v else dlookup D c := by
  unfold upsert
  by_cases hn : (dlookup D n).isSome = true
  · rw [if_pos hn, dlookup_map_replace]
    by_cases hc : c = n
    · subst hc
      obtain ⟨w, hw⟩ := Option.isSome_iff_exists.mp hn
      rw [hw, if_pos rfl]
      simp
    · rw [if_neg hc]
      cases dlookup D c <;> simp [hc]
  · rw [if_neg hn, dlookup_append]
    by_cases hc : c = n
    · subst hc
      have hnone : dlookup D c = none := by
        cases h : dlookup D c
        · rfl
        · rw [h] at hn; simp at hn
      rw [hnone, if_pos rfl]
      rw [dlookup_cons, if_pos rfl]
    · rw [if_neg hc]
      cases h : dlookup D c with
      | some w => rfl
      | none =>
        rw [dlookup_cons, if_neg (fun hx : n = c => hc hx.symm), dlookup_nil]

lemma not_mem_keys_of_dlookup_none (D : DistMap) (c : Cell)
    (h : dlookup D c = none) : c ∉ D.map Prod.fst := by
  intro hmem
  rcases List.mem_map.mp hmem with ⟨p, hp, hfst⟩
  obtain ⟨v, hv⟩ := dlookup_isSome_of_mem D c p.2 (by rw [← hfst]; exact hp)
  rw [h] at hv
  cases hv

/-- The inner `for linked in cell.links` fold of one BFS visit: it
appends some fresh entries `Δ` at level `lev + 1`, all neighbors of
`cell`, and records them in the next frontier; afterwards every listed
neighbor has an entry. -/
lemma bfs_inner_fold (cell : Cell) (lev : Nat) (ns : List Cell) :
    ∀ (d : DistMap) (nf : List Cell), dlookup d cell = some lev →
    ∃ Δ : DistMap,
      ns.foldl (fun acc linked =>
          if (dlookup acc.1 linked).isSome then acc
          else (acc.1 ++ [(linked, (dlookup acc.1 cell).getD 0 + 1)], acc.2 ++ [linked]))
        (d, nf) = (d ++ Δ, nf ++ Δ.map Prod.fst) ∧
      (∀ p ∈ Δ, p.2 = lev + 1 ∧ p.1 ∈ ns ∧ dlookup d p.1 = none) ∧
      (Δ.map Prod.fst).Nodup ∧
      (∀ n ∈ ns, ∃ vn, dlookup (d ++ Δ) n = some vn) := by
  induction ns with
  | nil =>
    intro d nf _
    exact ⟨[], by simp, by simp, by simp, by simp⟩
  | cons x ns ih =>
    intro d nf hcell
    rw [List.foldl_cons]
    by_cases hx : (dlookup d x).isSome = true
    · rw [if_pos hx]
      obtain ⟨Δ, hfold, hΔ, hnd, hall⟩ := ih d nf hcell
      refine ⟨Δ, hfold, fun p hp => ⟨(hΔ p hp).1,
        List.mem_cons_of_mem _ (hΔ p hp).2.1, (hΔ p hp).2.2⟩, hnd, ?_⟩
      intro n hn
      rcases List.mem_cons.mp hn with rfl | hn
      · obtain ⟨v, hv⟩ := Option.isSome_iff_exists.mp hx
        exact ⟨v, dlookup_append_left _ _ _ _ hv⟩
      · exact hall n hn
    · rw [if_neg hx]
      have hxnone : dlookup d x = none := by
        cases h : dlookup d x
        · rfl
        · rw [h] at hx; simp at hx
      have hval : (dlookup d cell).getD 0 + 1 = lev + 1 := by rw [hcell]; rfl
      have hcell' : dlookup (d ++ [(x, (dlookup d cell).getD 0 + 1)]) cell = some lev :=
        dlookup_append_left _ _ _ _ hcell
      obtain ⟨Δ', hfold, hΔ', hnd', hall'⟩ := ih (d ++ [(x, (dlookup d cell).getD 0 + 1)])
        (nf ++ [x]) hcell'
      have hxlook : dlookup (d ++ [(x, (dlookup d cell).getD 0 + 1)]) x =
          some (lev + 1) := by
        rw [dlookup_append_right _ _ _ hxnone, dlookup_cons, if_pos rfl, hval]
      refine ⟨(x, lev + 1) :: Δ', ?_, ?_, ?_, ?_⟩
      · rw [hfold, hval]
        simp [List.append_assoc]
      · intro p hp
        rcases List.mem_cons.mp hp with rfl | hp
        · exact ⟨rfl, List.mem_cons_self _ _, hxnone⟩
        · obtain ⟨h1, h2, h3⟩ := hΔ' p hp
          refine ⟨h1, List.mem_cons_of_mem _ h2, ?_⟩
          cases h : dlookup d p.1 with
          | none => rfl
          | some w =>
            rw [dlookup_append_left _ _ _ _ h] at h3
            cases h3
      · rw [List.map_cons, List.nodup_cons]
        refine ⟨?_, hnd'⟩
        intro hmem
        rcases List.mem_map.mp hmem with ⟨p, hp, hfst⟩
        have := (hΔ' p hp).2.2
        rw [hfst, hxlook] at this
        cases this
      · intro n hn
        have hassoc : d ++ (x, lev + 1) :: Δ' =
            (d ++ [(x, (dlookup d cell).getD 0 + 1)]) ++ Δ' := by
          rw [hval]
          simp [List.append_assoc]
        rcases List.mem_cons.mp hn with rfl | hn
        · refine ⟨lev + 1, ?_⟩
          rw [hassoc]
          exact dlookup_append_left _ _ _ _ hxlook
        · obtain ⟨vn, hvn⟩ := hall' n hn
          exact ⟨vn, by rw [hassoc]; exact hvn⟩

/-- One BFS round (`for cell in frontier`) preserves the level
invariants, moving from level `lev` to `lev + 1`. -/
lemma bfsRound_fold (adj : Cell → List Cell) (root : Cell) (lev : Nat) :
    ∀ (todo : List Cell) (d : DistMap) (nf : List Cell),
    (d.map Prod.fst).Nodup →
    dlookup d root = some 0 →
    (∀ c ∈ todo, dlookup d c = some lev) →
    (∀ c ∈ nf, dlookup d c = some (lev + 1)) →
    (∀ p ∈ d, p.2 ≤ lev + 1) →
    (∀ p ∈ d, p.1 ∉ todo → p.1 ∉ nf → ∀ n ∈ adj p.1,
      ∃ vn, dlookup d n = some vn ∧ vn ≤ p.2 + 1) →
    (∀ p ∈ d, 1 ≤ p.2 → ∃ q, q ∈ d ∧ q.2 + 1 = p.2 ∧ p.1 ∈ adj q.1) →
    (∀ p ∈ d, p.2 = 0 → p.1 = root) →
    (∀ p ∈ d, p.1 = root ∨ ∃ q, p.1 ∈ adj q) →
    ∃ d' nf',
      todo.foldl (fun acc cell => bfsVisit adj cell acc) (d, nf) = (d', nf') ∧
      (d'.map Prod.fst).Nodup ∧
      dlookup d' root = some 0 ∧
      (∀ c ∈ nf', dlookup d' c = some (lev + 1)) ∧
      (∀ p ∈ d', p.2 ≤ lev + 1) ∧
      (∀ p ∈ d', p.1 ∉ nf' → ∀ n ∈ adj p.1,
        ∃ vn, dlookup d' n = some vn ∧ vn ≤ p.2 + 1) ∧
      (∀ p ∈ d', 1 ≤ p.2 → ∃ q, q ∈ d' ∧ q.2 + 1 = p.2 ∧ p.1 ∈ adj q.1) ∧
      (∀ p ∈ d', p.2 = 0 → p.1 = root) ∧
      (∀ p ∈ d', p.1 = root ∨ ∃ q, p.1 ∈ adj q) ∧
      d'.length + nf.length = d.length + nf'.length := by
  intro todo
  induction todo with
  | nil =>
    intro d nf hnd hroot _ hnf hbound hclos hpar hzero huniv
    exact ⟨d, nf, rfl, hnd, hroot, hnf, hbound,
      fun p hp hnot => hclos p hp (by simp) hnot, hpar, hzero, huniv, by omega⟩
  | cons cell todo' ih =>
    intro d nf hnd hroot hfront hnf hbound hclos hpar hzero huniv
    have hcell : dlookup d cell = some lev := hfront cell (List.mem_cons_self _ _)
    obtain ⟨Δ, hfold, hΔ, hndΔ, hall⟩ := bfs_inner_fold cell lev (adj cell) d nf hcell
    have hvisit : bfsVisit adj cell (d, nf) = (d ++ Δ, nf ++ Δ.map Prod.fst) := hfold
    have hfreshΔ : ∀ x ∈ Δ.map Prod.fst, x ∉ d.map Prod.fst := by
      intro x hx
      rcases List.mem_map.mp hx with ⟨p, hp, rfl⟩
      exact not_mem_keys_of_dlookup_none d p.1 (hΔ p hp).2.2
    have hnd1 : ((d ++ Δ).map Prod.fst).Nodup := by
      rw [List.map_append, List.nodup_append]
      exact ⟨hnd, hndΔ, fun a ha hb => hfreshΔ a hb ha⟩
    have hlookΔ : ∀ p ∈ Δ, dlookup (d ++ Δ) p.1 = some p.2 := by
      intro p hp
      exact mem_dlookup _ hnd1 _ _ (List.mem_append_right _ hp)
    have hval_d1 : ∀ p ∈ d ++ Δ, p.2 ≤ lev + 1 := by
      intro p hp
      rcases List.mem_append.mp hp with hp | hp
      · exact hbound p hp
      · rw [(hΔ p hp).1]
    obtain ⟨d', nf', hfold', hnd', hroot', hnf', hbound', hclos', hpar', hzero', huniv',
        hlen'⟩ :=
      ih (d ++ Δ) (nf ++ Δ.map Prod.fst) hnd1
        (dlookup_append_left _ _ _ _ hroot)
        (fun c hc => dlookup_append_left _ _ _ _
          (hfront c (List.mem_cons_of_mem _ hc)))
        (by
          intro c hc
          rcases List.mem_append.mp hc with hc | hc
          · exact dlookup_append_left _ _ _ _ (hnf c hc)
          · rcases List.mem_map.mp hc with ⟨p, hp, rfl⟩
            rw [hlookΔ p hp, (hΔ p hp).1])
        hval_d1
        (by
          intro p hp hpt hpn
          have hpnfΔ : p.1 ∉ Δ.map Prod.fst :=
            fun hx => hpn (List.mem_append_right _ hx)
          have hpnf : p.1 ∉ nf := fun hx => hpn (List.mem_append_left _ hx)
          rcases List.mem_append.mp hp with hp | hp
          · by_cases hpc : p.1 = cell
            · have hp2 : p.2 = lev := by
                have := mem_dlookup d hnd p.1 p.2 hp
                rw [hpc, hcell] at this
                exact (Option.some_injective _ this).symm
              intro n hn
              rw [hpc] at hn
              obtain ⟨vn, hvn⟩ := hall n hn
              refine ⟨vn, hvn, ?_⟩
              have hmemn := dlookup_mem _ _ _ hvn
              rw [hp2]
              rcases List.mem_append.mp hmemn with hm | hm
              · exact hbound (n, vn) hm
              · have hv := (hΔ (n, vn) hm).1
                simp only at hv
                omega
            · have := hclos p hp
                (fun hx => (List.mem_cons.mp hx).elim (fun h => hpc h) (fun h => hpt h))
                hpnf
              intro n hn
              obtain ⟨vn, hvn, hb⟩ := this n hn
              exact ⟨vn, dlookup_append_left _ _ _ _ hvn, hb⟩
          · exact absurd (List.mem_map.mpr ⟨p, hp, rfl⟩) hpnfΔ)
        (by
          intro p hp h1
          rcases List.mem_append.mp hp with hp | hp
          · obtain ⟨q, hq, hq1, hq2⟩ := hpar p hp h1
            exact ⟨q, List.mem_append_left _ hq, hq1, hq2⟩
          · refine ⟨(cell, lev), List.mem_append_left _ (dlookup_mem _ _ _ hcell), ?_,
              (hΔ p hp).2.1⟩
            rw [(hΔ p hp).1])
        (by
          intro p hp h0
          rcases List.mem_append.mp hp with hp | hp
          · exact hzero p hp h0
          · rw [(hΔ p hp).1] at h0
            cases h0)
        (by
          intro p hp
          rcases List.mem_append.mp hp with hp | hp
          · exact huniv p hp
          · exact Or.inr ⟨cell, (hΔ p hp).2.1⟩)
    refine ⟨d', nf', ?_, hnd', hroot', hnf', hbound', hclos', hpar', hzero', huniv', ?_⟩
    · rw [List.foldl_cons, hvisit, hfold']
    · have h1 : (d ++ Δ).length = d.length + Δ.length := List.length_append _ _
      have h2 : (nf ++ Δ.map Prod.fst).length = nf.length + Δ.length := by
        rw [List.length_append, List.length_map]
      omega

/-- Keys are distinct and each is the root or the target of a link, so the
dict never holds more than `L.card + 1` entries. -/
lemma distmap_length_bound (L : Links) (adj : Cell → List Cell) (root : Cell)
    (d : DistMap) (hadj : AdjOf L adj) (hnd : (d.map Prod.fst).Nodup)
    (huniv : ∀ p ∈ d, p.1 = root ∨ ∃ q, p.1 ∈ adj q) :
    d.length ≤ L.card + 1 := by
  have hsub : (d.map Prod.fst).toFinset ⊆ insert root (L.image Prod.snd) := by
    intro x hx
    rw [List.mem_toFinset] at hx
    rcases List.mem_map.mp hx with ⟨p, hp, rfl⟩
    rcases huniv p hp with h | ⟨q, hq⟩
    · exact Finset.mem_insert.mpr (Or.inl h)
    · exact Finset.mem_insert.mpr (Or.inr
        (Finset.mem_image.mpr ⟨(q, p.1), ((hadj q).2 p.1).mp hq, rfl⟩))
  have h1 : (d.map Prod.fst).toFinset.card = (d.map Prod.fst).length :=
    List.toFinset_card_of_nodup hnd
  have h2 := Finset.card_le_card hsub
  have h3 := Finset.card_insert_le root (L.image Prod.snd)
  have h4 := Finset.card_image_le (s := L) (f := Prod.snd)
  have h5 : (d.map Prod.fst).length = d.length := List.length_map _ _
  omega

/-- An empty frontier ends the loop whatever the remaining fuel. -/
lemma bfsLoop_nil (adj : Cell → List Cell) (fuel : Nat) (d : DistMap) :
    bfsLoop adj fuel d [] = d := by
  cases fuel with
  | zero => rfl
  | succ fuel => simp [bfsLoop]

/-- With fuel at least `L.card + 2 - |d|` the loop reaches a fixed point
satisfying `BFSFinal`. -/
lemma bfsLoop_spec (L : Links) (adj : Cell → List Cell) (root : Cell)
    (hadj : AdjOf L adj) :
    ∀ (fuel lev : Nat) (d : DistMap) (f : List Cell),
    BFSInv adj root lev d f → L.card + 2 ≤ fuel + d.length →
    BFSFinal adj root (bfsLoop adj fuel d f) := by
  intro fuel
  induction fuel with
  | zero =>
    intro lev d f hinv hfuel
    have hb := distmap_length_bound L adj root d hadj hinv.nodup hinv.univ
    exact absurd hb (by omega)
  | succ fuel ih =>
    intro lev d f hinv hfuel
    by_cases hf : f = []
    · subst hf
      rw [bfsLoop_nil]
      exact ⟨hinv.nodup, hinv.root0,
        fun p hp => hinv.closure p hp (List.not_mem_nil _),
        hinv.parent, hinv.zero⟩
    · obtain ⟨d', nf', hfold, hnd', hroot', hnf', hbound', hclos', hpar', hzero',
        huniv', hlen⟩ :=
        bfsRound_fold adj root lev f d [] hinv.nodup hinv.root0 hinv.frontier
          (by intro c hc; cases hc)
          (fun p hp => Nat.le_succ_of_le (hinv.bound p hp))
          (fun p hp hpt _ => hinv.closure p hp hpt)
          hinv.parent hinv.zero hinv.univ
      have hr : bfsRound adj d f = (d', nf') := hfold
      have hstep : bfsLoop adj (fuel + 1) d f = bfsLoop adj fuel d' nf' := by
        simp only [bfsLoop, if_neg hf, hr]
      rw [hstep]
      by_cases hnf : nf' = []
      · subst hnf
        rw [bfsLoop_nil]
        exact ⟨hnd', hroot', fun p hp => hclos' p hp (List.not_mem_nil _),
          hpar', hzero'⟩
      · have hinv' : BFSInv adj root (lev + 1) d' nf' :=
          ⟨hnd', hroot', hnf', hbound', hclos', hpar', hzero', huniv'⟩
        have hlen1 : 0 < nf'.length := List.length_pos.mpr hnf
        simp only [List.length_nil] at hlen
        exact ih (lev + 1) d' nf' hinv' (by omega)

/-- The finished `Cell.distances` dict satisfies `BFSFinal`. -/
lemma distances_final (L : Links) (adj : Cell → List Cell) (root : Cell)
    (hadj : AdjOf L adj) : BFSFinal adj root (distances L adj root) := by
  refine bfsLoop_spec L adj root hadj (2 * L.card + 2) 0 [(root, 0)] [root] ?_
    (by simp; omega)
  refine ⟨?_, ?_, ?_, ?_, ?_, ?_, ?_, ?_⟩
  · simp
  · rw [dlookup_cons]; simp
  · intro c hc
    rw [List.mem_singleton] at hc
    subst hc
    rw [dlookup_cons]; simp
  · intro p hp
    rw [List.mem_singleton] at hp
    subst hp
    exact Nat.le_refl _
  · intro p hp hpf
    rw [List.mem_singleton] at hp
    subst hp
    exact absurd (List.mem_singleton.mpr rfl) hpf
  · intro p hp h1
    rw [List.mem_singleton] at hp
    subst hp
    simp at h1
  · intro p hp _
    rw [List.mem_singleton] at hp
    subst hp
    rfl
  · intro p hp
    rw [List.mem_singleton] at hp
    subst hp
    exact Or.inl rfl

/-- `adj3` is a faithful iteration order for `L3`. -/
lemma adjOf_L3 : AdjOf L3 adj3 := by
  intro u
  by_cases h1 : u = (0, 0)
  · subst h1
    refine ⟨by decide, fun v => ?_⟩
    show v ∈ [(0, 1), (1, 0)] ↔ ((0, 0), v) ∈ L3
    constructor
    · intro hv
      rcases List.mem_cons.mp hv with rfl | hv
      · decide
      · rcases List.mem_cons.mp hv with rfl | hv
        · decide
        · cases hv
    · intro hv
      simp only [L3, Finset.mem_insert, Finset.mem_singleton] at hv
      rcases hv with h | h | h | h | h | h <;>
        rw [Prod.mk.injEq] at h <;>
        obtain ⟨ha, hb⟩ := h <;>
        first
          | exact absurd ha (by decide)
          | (subst hb; decide)
  · by_cases h2 : u = (0, 1)
    · subst h2
      refine ⟨by decide, fun v => ?_⟩
      show v ∈ [(0, 0), (1, 0)] ↔ ((0, 1), v) ∈ L3
      constructor
      · intro hv
        rcases List.mem_cons.mp hv with rfl | hv
        · decide
        · rcases List.mem_cons.mp hv with rfl | hv
          · decide
          · cases hv
      · intro hv
        simp only [L3, Finset.mem_insert, Finset.mem_singleton] at hv
        rcases hv with h | h | h | h | h | h <;>
          rw [Prod.mk.injEq] at h <;>
          obtain ⟨ha, hb⟩ := h <;>
          first
            | exact absurd ha (by decide)
            | (subst hb; decide)
    · by_cases h3 : u = (1, 0)
      · subst h3
        refine ⟨by decide, fun v => ?_⟩
        show v ∈ [(0, 0), (0, 1)] ↔ ((1, 0), v) ∈ L3
        constructor
        · intro hv
          rcases List.mem_cons.mp hv with rfl | hv
          · decide
          · rcases List.mem_cons.mp hv with rfl | hv
            · decide
            · cases hv
        · intro hv
          simp only [L3, Finset.mem_insert, Finset.mem_singleton] at hv
          rcases hv with h | h | h | h | h | h <;>
            rw [Prod.mk.injEq] at h <;>
            obtain ⟨ha, hb⟩ := h <;>
            first
              | exact absurd ha (by decide)
              | (subst hb; decide)
      · refine ⟨?_, fun v => ?_⟩
        · simp only [adj3, if_neg h1, if_neg h2, if_neg h3]
          exact List.nodup_nil
        · simp only [adj3, if_neg h1, if_neg h2, if_neg h3]
          constructor
          · intro hv
            exact absurd hv (List.not_mem_nil v)
          · intro hv
            simp only [L3, Finset.mem_insert, Finset.mem_singleton] at hv
            rcases hv with h | h | h | h | h | h <;>
              rw [Prod.mk.injEq] at h <;>
              obtain ⟨ha, hb⟩ := h <;>
              first
                | exact absurd ha h1
                | exact absurd ha h2
                | exact absurd ha h3

/-- C3: NOT as stated.  In the triangle `L3` the cells `(0,1)` and `(1,0)`
are linked to each other and both carry BFS distance 1 from root `(0,0)`:
the absolute difference of their distances is 0, not 1. -/
theorem bfs_linked_cells_equal_distance :
    AdjOf L3 adj3 ∧
    dlookup (distances L3 adj3 (0, 0)) (0, 1) = some 1 ∧
    dlookup (distances L3 adj3 (0, 0)) (1, 0) = some 1 ∧
    ((0, 1), (1, 0)) ∈ L3 ∧ ((1, 0), (0, 1)) ∈ L3 :=
  ⟨adjOf_L3, by decide, by decide, by decide, by decide⟩

/-- C3 (amended): for a distance map built by `Cell.distances` and a pair
of cells linked to each other, both present in the map, the recorded
distances differ by at most 1. -/
theorem bfs_linked_distance_diff_le_one (L : Links) (adj : Cell → List Cell)
    (root u v : Cell) (du dv : Nat) (hadj : AdjOf L adj)
    (hu : dlookup (distances L adj root) u = some du)
    (hv : dlookup (distances L adj root) v = some dv)
    (huv : (u, v) ∈ L) (hvu : (v, u) ∈ L) :
    du ≤ dv + 1 ∧ dv ≤ du + 1 := by
  have hfin := distances_final L adj root hadj
  have hmu : (u, du) ∈ distances L adj root := dlookup_mem _ _ _ hu
  have hmv : (v, dv) ∈ distances L adj root := dlookup_mem _ _ _ hv
  constructor
  · obtain ⟨vn, hvn, hb⟩ := hfin.closure (v, dv) hmv u (((hadj v).2 u).mpr hvu)
    rw [hu] at hvn
    injection hvn with hvn
    omega
  · obtain ⟨vn, hvn, hb⟩ := hfin.closure (u, du) hmu v (((hadj u).2 v).mpr huv)
    rw [hv] at hvn
    injection hvn with hvn
    omega

/-- Witness: the amended bound holds at the triangle instance. -/
theorem bfs_linked_distance_diff_le_one_witness :
    (1 : Nat) ≤ 1 + 1 ∧ (1 : Nat) ≤ 1 + 1 :=
  bfs_linked_distance_diff_le_one L3 adj3 (0, 0) (0, 1) (1, 0) 1 1 adjOf_L3
    (by decide) (by decide) (by decide) (by decide)

/-! ## `Distances.path_to` (claim C4) -/

/-- Every cell reachable from the root over the links appears in the
finished distance dict. -/
lemma reach_mem_of_final (L : Links) (adj : Cell → List Cell) (root : Cell)
    (D : DistMap) (hadj : AdjOf L adj) (hfin : BFSFinal adj root D) :
    ∀ goal, LinkReach L root goal → ∃ dg, dlookup D goal = some dg := by
  intro goal hreach
  induction hreach with
  | refl => exact ⟨0, hfin.root0⟩
  | tail hab hbc ih =>
    obtain ⟨db, hb⟩ := ih
    obtain ⟨vn, hvn, -⟩ :=
      hfin.closure _ (dlookup_mem _ _ _ hb) _ (((hadj _).2 _).mpr hbc)
    exact ⟨vn, hvn⟩

/-- When every scanned neighbor is present and some neighbor is strictly
closer, the `for neighbor in current.links` scan returns one. -/
lemma findSmaller_some (D : DistMap) (dc : Nat) :
    ∀ l : List Cell, (∀ n ∈ l, ∃ vn, dlookup D n = some vn) →
    (∃ n ∈ l, ∃ vn, dlookup D n = some vn ∧ vn < dc) →
    ∃ n vn, findSmaller D dc l = some n ∧ n ∈ l ∧
      dlookup D n = some vn ∧ vn < dc := by
  intro l
  induction l with
  | nil =>
    intro _ hex
    rcases hex with ⟨n, hn, _⟩
    cases hn
  | cons a t ih =>
    intro hall hex
    obtain ⟨va, hva⟩ := hall a (List.mem_cons_self a t)
    by_cases hlt : va < dc
    · refine ⟨a, va, ?_, List.mem_cons_self a t, hva, hlt⟩
      simp only [findSmaller, hva, if_pos hlt]
    · have hex' : ∃ n ∈ t, ∃ vn, dlookup D n = some vn ∧ vn < dc := by
        rcases hex with ⟨n, hn, vn, hvn, hlt'⟩
        rcases List.mem_cons.mp hn with rfl | hn
        · rw [hva] at hvn
          injection hvn with h
          exact absurd (h ▸ hlt') hlt
        · exact ⟨n, hn, vn, hvn, hlt'⟩
      obtain ⟨n, vn, hfs, hn, hvn, hlt'⟩ :=
        ih (fun n hn => hall n (List.mem_cons_of_mem _ hn)) hex'
      refine ⟨n, vn, ?_, List.mem_cons_of_mem _ hn, hvn, hlt'⟩
      simp only [findSmaller, hva, if_neg hlt]
      exact hfs

/-- `while current != root` exits at once on the root. -/
lemma pathLoop_root (adj : Cell → List Cell) (D : DistMap) (root : Cell)
    (f : Nat) (bc : DistMap) : pathLoop adj D root (f + 1) root bc = some bc := by
  simp [pathLoop]

/-- One iteration of the walk: step to the found neighbor, recording it. -/
lemma pathLoop_step (adj : Cell → List Cell) (D : DistMap) (root : Cell)
    (f : Nat) (current : Cell) (bc : DistMap) (dc : Nat) (n : Cell)
    (hne : current ≠ root) (hcur : dlookup D current = some dc)
    (hfs : findSmaller D dc (adj current) = some n) :
    pathLoop adj D root (f + 1) current bc =
      pathLoop adj D root f n (upsert bc n ((dlookup D n).getD 0)) := by
  simp only [pathLoop, if_neg hne, hcur, hfs]

/-- The backward walk over a finished BFS dict: from a cell at distance
`dc` it reaches the root in exactly `dc` steps, each step moving to a
listed neighbor whose distance is exactly one less, and the breadcrumbs
collect exactly the visited cells with their original distances. -/
lemma pathLoop_spec (adj : Cell → List Cell) (D : DistMap) (root : Cell)
    (hfin : BFSFinal adj root D) (hsa : ∀ a b, b ∈ adj a → a ∈ adj b) :
    ∀ (dc : Nat) (current : Cell) (bc : DistMap) (fuel : Nat),
    dlookup D current = some dc → dc < fuel →
    ∃ (path : List Cell) (bc' : DistMap),
      pathLoop adj D root fuel current bc = some bc' ∧
      path.head? = some current ∧ path.getLast? = some root ∧
      path.length = dc + 1 ∧
      (∀ i (h : i < path.length), dlookup D (path.get ⟨i, h⟩) = some (dc - i)) ∧
      List.Chain' (fun a b => b ∈ adj a) path ∧
      (∀ c, dlookup bc' c =
        if c ∈ path.tail then dlookup D c else dlookup bc c) := by
  intro dc
  induction dc with
  | zero =>
    intro current bc fuel hcur hfuel
    have hroot : current = root := hfin.zero _ (dlookup_mem _ _ _ hcur) rfl
    subst hroot
    obtain ⟨f, rfl⟩ : ∃ f, fuel = f + 1 := ⟨fuel - 1, by omega⟩
    refine ⟨[current], bc, pathLoop_root adj D current f bc, rfl, rfl, rfl, ?_, ?_, ?_⟩
    · intro i h
      simp only [List.length_singleton] at h
      have hi : i = 0 := by omega
      subst hi
      exact hcur
    · simp
    · intro c
      simp
  | succ dc ih =>
    intro current bc fuel hcur hfuel
    have hmem := dlookup_mem _ _ _ hcur
    have hne : current ≠ root := by
      intro h
      subst h
      rw [hfin.root0] at hcur
      injection hcur with h'
      exact Nat.succ_ne_zero dc h'.symm
    obtain ⟨f, rfl⟩ : ∃ f, fuel = f + 1 := ⟨fuel - 1, by omega⟩
    have hall : ∀ n ∈ adj current, ∃ vn, dlookup D n = some vn := by
      intro n hn
      obtain ⟨vn, hvn, -⟩ := hfin.closure _ hmem n hn
      exact ⟨vn, hvn⟩
    have hexists : ∃ n ∈ adj current, ∃ vn, dlookup D n = some vn ∧ vn < dc + 1 := by
      obtain ⟨q, hq, hq1, hq2⟩ := hfin.parent _ hmem (by omega)
      exact ⟨q.1, hsa q.1 current hq2, q.2,
        mem_dlookup D hfin.nodup q.1 q.2 hq, by omega⟩
    obtain ⟨n, vn, hfs, hn, hvn, hlt⟩ :=
      findSmaller_some D (dc + 1) (adj current) hall hexists
    have hvneq : vn = dc := by
      obtain ⟨v', hv', hb⟩ :=
        hfin.closure _ (dlookup_mem _ _ _ hvn) current (hsa current n hn)
      rw [hcur] at hv'
      injection hv' with hv'
      omega
    rw [hvneq] at hvn
    obtain ⟨path', bc', hloop, hhead, hlast, hlen, hvals, hchain, hbc⟩ :=
      ih n (upsert bc n ((dlookup D n).getD 0)) f hvn (by omega)
    cases path' with
    | nil => simp at hhead
    | cons b t =>
      have hbn : b = n := by
        simp only [List.head?_cons] at hhead
        injection hhead
      subst hbn
      refine ⟨current :: b :: t, bc', ?_, rfl, ?_, ?_, ?_, ?_, ?_⟩
      · rw [pathLoop_step adj D root f current bc (dc + 1) b hne hcur hfs]
        exact hloop
      · rw [List.getLast?_cons_cons]
        exact hlast
      · simp only [List.length_cons] at hlen ⊢
        omega
      · intro i h
        cases i with
        | zero => exact hcur
        | succ j =>
          have hj : j < (b :: t).length := by
            simp only [List.length_cons] at h ⊢
            omega
          have hv := hvals j hj
          have harith : dc + 1 - (j + 1) = dc - j := by omega
          rw [show ((current :: b :: t).get ⟨j + 1, h⟩) = (b :: t).get ⟨j, hj⟩
            from rfl, harith]
          exact hv
      · exact List.chain'_cons.mpr ⟨hn, hchain⟩
      · intro c
        have h1 := hbc c
        rw [dlookup_upsert] at h1
        simp only [List.tail_cons] at h1 ⊢
        rw [h1]
        by_cases htc : c ∈ t
        · rw [if_pos htc, if_pos (List.mem_cons_of_mem b htc)]
        · rw [if_neg htc]
          by_cases hcn : c = b
          · subst hcn
            rw [if_pos rfl, if_pos (List.mem_cons_self c t), hvn]
            rfl
          · rw [if_neg hcn, if_neg (by
              intro hc
              rcases List.mem_cons.mp hc with h | h
              · exact hcn h
              · exact htc h)]

/-- `SymmLinks` holds of the concrete triangle. -/
lemma symmLinks_L3 : SymmLinks L3 := by
  intro u v hv
  simp only [L3, Finset.mem_insert, Finset.mem_singleton] at hv
  rcases hv with h | h | h | h | h | h <;>
    rw [Prod.mk.injEq] at h <;>
    obtain ⟨ha, hb⟩ := h <;>
    subst ha <;> subst hb <;> decide

/-- C4: over a distance map built by `Cell.distances`, for every goal
reachable from the root over the links, `path_to(goal)` succeeds and
returns the distances restricted to one goal-to-root path: the path
starts at the goal, ends at the root, has `distance(goal) + 1` cells,
consecutive cells are linked, distances decrease by exactly 1 at each
step, and the returned dict holds exactly the path's cells with their
original distances. -/
theorem path_to_spec (L : Links) (adj : Cell → List Cell) (root goal : Cell)
    (hadj : AdjOf L adj) (hsym : SymmLinks L)
    (hreach : LinkReach L root goal) :
    ∃ (bc : DistMap) (path : List Cell) (dg : Nat),
      dlookup (distances L adj root) goal = some dg ∧
      path_to adj (distances L adj root) root goal = some bc ∧
      path.head? = some goal ∧
      path.getLast? = some root ∧
      path.length = dg + 1 ∧
      (∀ i (h : i < path.length),
        dlookup (distances L adj root) (path.get ⟨i, h⟩) = some (dg - i)) ∧
      List.Chain' (fun a b => (a, b) ∈ L) path ∧
      (∀ c, dlookup bc c =
        if c ∈ path then dlookup (distances L adj root) c else none) := by
  have hfin : BFSFinal adj root (distances L adj root) :=
    distances_final L adj root hadj
  have hsa : ∀ a b, b ∈ adj a → a ∈ adj b := by
    intro a b hb
    exact ((hadj b).2 a).mpr (hsym a b (((hadj a).2 b).mp hb))
  obtain ⟨dg, hg⟩ :=
    reach_mem_of_final L adj root (distances L adj root) hadj hfin goal hreach
  obtain ⟨path, bc', hloop, hhead, hlast, hlen, hvals, hchain, hbc⟩ :=
    pathLoop_spec adj (distances L adj root) root hfin hsa dg goal
      (upsert [(root, 0)] goal dg) (dg + 1) hg (by omega)
  have hrootmem : root ∈ path := by
    obtain ⟨hne, heq⟩ := List.mem_getLast?_eq_getLast (Option.mem_def.mpr hlast)
    rw [heq]
    exact List.getLast_mem hne
  refine ⟨bc', path, dg, hg, ?_, hhead, hlast, hlen, hvals, ?_, ?_⟩
  · simp only [path_to, hg]
    exact hloop
  · exact List.Chain'.imp (fun a b hb => ((hadj a).2 b).mp hb) hchain
  · intro c
    have h1 := hbc c
    rw [dlookup_upsert] at h1
    rw [h1]
    by_cases hct : c ∈ path.tail
    · have hcp : c ∈ path := by
        cases path with
        | nil => cases hct
        | cons a t => exact List.mem_cons_of_mem a hct
      rw [if_pos hct, if_pos hcp]
    · rw [if_neg hct]
      by_cases hcg : c = goal
      · subst hcg
        have hcp : c ∈ path := by
          cases path with
          | nil => simp at hhead
          | cons a t =>
            simp only [List.head?_cons] at hhead
            injection hhead with hhead
            exact hhead ▸ List.mem_cons_self a t
        rw [if_pos rfl, if_pos hcp, hg]
      · rw [if_neg hcg, dlookup_cons]
        by_cases hcr : root = c
        · subst hcr
          rw [if_pos rfl, if_pos hrootmem, hfin.root0]
        · rw [if_neg hcr, if_neg (by
            intro hc
            cases path with
            | nil => cases hc
            | cons a t =>
              rcases List.mem_cons.mp hc with rfl | hmem
              · simp only [List.head?_cons] at hhead
                injection hhead with hhead
                exact hcg hhead
              · exact hct hmem), dlookup_nil]

/-- Witness: on the triangle, `path_to` from root `(0,0)` to goal `(1,0)`
succeeds. -/
theorem path_to_spec_witness :
    ∃ bc, path_to adj3 (distances L3 adj3 (0, 0)) (0, 0) (1, 0) = some bc := by
  obtain ⟨bc, path, dg, -, h2, -, -, -, -, -, -⟩ :=
    path_to_spec L3 adj3 (0, 0) (1, 0) adjOf_L3 symmLinks_L3
      (Relation.ReflTransGen.single (by decide))
  exact ⟨bc, h2⟩

/-! ## Generators build spanning trees (claim C1)

Shared infrastructure: membership in `Links.link`, reachability
closure properties, the growing-tree extension step, and grid geometry
facts. -/

lemma links_link_comm (L : Links) (u v : Cell) : L.link u v = L.link v u :=
  Finset.Insert.comm _ _ _

lemma mem_link (L : Links) (u v : Cell) (p : Cell × Cell) :
    p ∈ L.link u v ↔ p = (v, u) ∨ p = (u, v) ∨ p ∈ L := by
  unfold Links.link
  simp [Finset.mem_insert]

lemma subset_link (L : Links) (u v : Cell) : L ⊆ L.link u v := by
  intro p hp
  exact (mem_link L u v p).mpr (Or.inr (Or.inr hp))

lemma linkReach_mono (L L' : Links) (h : L ⊆ L') (u v : Cell) :
    LinkReach L u v → LinkReach L' u v :=
  Relation.ReflTransGen.mono (fun a b hab => h hab)

lemma linkReach_symm (L : Links) (hs : SymmLinks L) (u v : Cell) :
    LinkReach L u v → LinkReach L v u := by
  intro h
  induction h with
  | refl => exact .refl
  | tail hab hbc ih => exact Relation.ReflTransGen.head (hs _ _ hbc) ih

/-- A single present cell with no links is a (trivial) spanning tree. -/
lemma spanningTreeOn_singleton (c : Cell) : SpanningTreeOn {c} ∅ := by
  refine ⟨?_, ?_, ?_, ?_, ?_⟩
  · intro u v h
    exact absurd h (Finset.not_mem_empty _)
  · intro u h
    exact absurd h (Finset.not_mem_empty _)
  · intro u v h
    exact absurd h (Finset.not_mem_empty _)
  · simp
  · intro u hu v hv
    rw [Finset.mem_singleton] at hu hv
    subst hu
    subst hv
    exact .refl

/-- Growing-tree step: linking a fresh cell `w` to a spanned cell `u`
extends the spanning tree by one vertex and one undirected link. -/
lemma SpanningTreeOn.extend (V : Finset Cell) (L : Links)
    (st : SpanningTreeOn V L) (u w : Cell) (hu : u ∈ V) (hw : w ∉ V) :
    SpanningTreeOn (insert w V) (L.link u w) := by
  have hne : u ≠ w := fun h => hw (h ▸ hu)
  have hnm1 : (u, w) ∉ L := fun h => hw (st.mem_left w u (st.symm u w h))
  have hnm2 : (w, u) ∉ L := fun h => hw (st.mem_left w u h)
  have hmono : ∀ x y, LinkReach L x y → LinkReach (L.link u w) x y :=
    fun x y => linkReach_mono L _ (subset_link L u w) x y
  refine ⟨?_, ?_, ?_, ?_, ?_⟩
  · intro a b hab
    rcases (mem_link L u w _).mp hab with h | h | h
    · rw [Prod.mk.injEq] at h
      rw [h.1, h.2]
      exact (mem_link L u w _).mpr (Or.inr (Or.inl rfl))
    · rw [Prod.mk.injEq] at h
      rw [h.1, h.2]
      exact (mem_link L u w _).mpr (Or.inl rfl)
    · exact subset_link L u w (st.symm a b h)
  · intro a ha
    rcases (mem_link L u w _).mp ha with h | h | h
    · rw [Prod.mk.injEq] at h
      exact hne (h.2.symm.trans h.1)
    · rw [Prod.mk.injEq] at h
      exact hne (h.1.symm.trans h.2)
    · exact st.irrefl a h
  · intro a b hab
    rcases (mem_link L u w _).mp hab with h | h | h
    · rw [Prod.mk.injEq] at h
      rw [h.1]
      exact Finset.mem_insert_self w V
    · rw [Prod.mk.injEq] at h
      rw [h.1]
      exact Finset.mem_insert_of_mem hu
    · exact Finset.mem_insert_of_mem (st.mem_left a b h)
  · have h1 : ((u, w) : Cell × Cell) ∉ L := hnm1
    have h2 : ((w, u) : Cell × Cell) ∉ insert ((u, w) : Cell × Cell) L := by
      intro h
      rcases Finset.mem_insert.mp h with h | h
      · rw [Prod.mk.injEq] at h
        exact hne h.2
      · exact hnm2 h
    show (insert (w, u) (insert (u, w) L)).card = 2 * ((insert w V).card - 1)
    rw [Finset.card_insert_of_not_mem h2, Finset.card_insert_of_not_mem h1,
      Finset.card_insert_of_not_mem hw, st.card_links]
    have hpos : 0 < V.card := Finset.card_pos.mpr ⟨u, hu⟩
    omega
  · intro a ha b hb
    have hstepuw : LinkReach (L.link u w) u w :=
      Relation.ReflTransGen.single ((mem_link L u w _).mpr (Or.inr (Or.inl rfl)))
    have hstepwu : LinkReach (L.link u w) w u :=
      Relation.ReflTransGen.single ((mem_link L u w _).mpr (Or.inl rfl))
    rcases Finset.mem_insert.mp ha with h1 | h1
    · rcases Finset.mem_insert.mp hb with h2 | h2
      · rw [h1, h2]
        exact .refl
      · rw [h1]
        exact hstepwu.trans (hmono u b (st.conn u hu b h2))
    · rcases Finset.mem_insert.mp hb with h2 | h2
      · rw [h2]
        exact (hmono a u (st.conn a h1 u hu)).trans hstepuw
      · exact hmono a b (st.conn a h1 b h2)

lemma choiceO_mem_of_some (l : List Cell) (n : Nat) (a : Cell)
    (h : choiceO l n = some a) : a ∈ l :=
  List.get?_mem h

lemma choiceO_isSome (l : List Cell) (n : Nat) (h : l ≠ []) :
    ∃ a, choiceO l n = some a ∧ a ∈ l := by
  have hlen : 0 < l.length := List.length_pos.mpr h
  have hlt : n % l.length < l.length := Nat.mod_lt _ hlen
  refine ⟨l.get ⟨n % l.length, hlt⟩, ?_, List.get_mem _ _ _⟩
  unfold choiceO
  exact List.get?_eq_get hlt

lemma Grid.mem_cells_iff (g : Grid) (c : Cell) :
    c ∈ g.cells ↔ c.1 < g.rows ∧ c.2 < g.cols ∧ g.present c.1 c.2 = true := by
  unfold Grid.cells
  rw [Finset.mem_filter, Finset.mem_product, Finset.mem_range, Finset.mem_range]
  tauto

lemma Grid.cellAt_of_mem (g : Grid) (a : Cell) (ha : a ∈ g.cells) :
    g.cellAt a.1 a.2 = some a := by
  rw [Grid.mem_cells_iff] at ha
  unfold Grid.cellAt
  rw [if_pos ⟨ha.1, ha.2.1, ha.2.2⟩]

lemma Grid.cellAt_some (g : Grid) (r c : Nat) (x : Cell)
    (h : g.cellAt r c = some x) : x = (r, c) ∧ x ∈ g.cells := by
  unfold Grid.cellAt at h
  by_cases hc : r < g.rows ∧ c < g.cols ∧ g.present r c
  · rw [if_pos hc] at h
    injection h with h
    subst h
    exact ⟨rfl, (Grid.mem_cells_iff g (r, c)).mpr ⟨hc.1, hc.2.1, hc.2.2⟩⟩
  · rw [if_neg hc] at h
    cases h

lemma Grid.mem_neighbors_iff (g : Grid) (a b : Cell) :
    b ∈ g.neighbors a ↔
      g.N a = some b ∨ g.E a = some b ∨ g.S a = some b ∨ g.W a = some b := by
  unfold Grid.neighbors
  simp only [List.mem_filterMap, id_eq, List.mem_cons, List.not_mem_nil, or_false]
  constructor
  · rintro ⟨o, (rfl | rfl | rfl | rfl), ho⟩
    · exact Or.inl ho
    · exact Or.inr (Or.inl ho)
    · exact Or.inr (Or.inr (Or.inl ho))
    · exact Or.inr (Or.inr (Or.inr ho))
  · rintro (h | h | h | h)
    · exact ⟨g.N a, Or.inl rfl, h⟩
    · exact ⟨g.E a, Or.inr (Or.inl rfl), h⟩
    · exact ⟨g.S a, Or.inr (Or.inr (Or.inl rfl)), h⟩
    · exact ⟨g.W a, Or.inr (Or.inr (Or.inr rfl)), h⟩

lemma Grid.neighbors_mem_cells (g : Grid) (a b : Cell)
    (h : b ∈ g.neighbors a) : b ∈ g.cells := by
  rcases (Grid.mem_neighbors_iff g a b).mp h with h | h | h | h
  · unfold Grid.N at h
    by_cases h0 : a.1 = 0
    · rw [if_pos h0] at h
      cases h
    · rw [if_neg h0] at h
      exact (Grid.cellAt_some g _ _ b h).2
  · exact (Grid.cellAt_some g _ _ b h).2
  · exact (Grid.cellAt_some g _ _ b h).2
  · unfold Grid.W at h
    by_cases h0 : a.2 = 0
    · rw [if_pos h0] at h
      cases h
    · rw [if_neg h0] at h
      exact (Grid.cellAt_some g _ _ b h).2

lemma Grid.neighbors_ne (g : Grid) (a b : Cell)
    (h : b ∈ g.neighbors a) : b ≠ a := by
  rcases (Grid.mem_neighbors_iff g a b).mp h with h | h | h | h
  · unfold Grid.N at h
    by_cases h0 : a.1 = 0
    · rw [if_pos h0] at h
      cases h
    · rw [if_neg h0] at h
      obtain ⟨hb, -⟩ := Grid.cellAt_some g _ _ b h
      intro he
      rw [he] at hb
      have : a.1 = a.1 - 1 := congrArg Prod.fst hb
      omega
  · obtain ⟨hb, -⟩ := Grid.cellAt_some g _ _ b h
    intro he
    rw [he] at hb
    have : a.2 = a.2 + 1 := congrArg Prod.snd hb
    omega
  · obtain ⟨hb, -⟩ := Grid.cellAt_some g _ _ b h
    intro he
    rw [he] at hb
    have : a.1 = a.1 + 1 := congrArg Prod.fst hb
    omega
  · unfold Grid.W at h
    by_cases h0 : a.2 = 0
    · rw [if_pos h0] at h
      cases h
    · rw [if_neg h0] at h
      obtain ⟨hb, -⟩ := Grid.cellAt_some g _ _ b h
      intro he
      rw [he] at hb
      have : a.2 = a.2 - 1 := congrArg Prod.snd hb
      omega

/-- Lattice adjacency is symmetric between present cells. -/
lemma Grid.neighbors_symm (g : Grid) (a b : Cell) (ha : a ∈ g.cells)
    (h : b ∈ g.neighbors a) : a ∈ g.neighbors b := by
  rcases (Grid.mem_neighbors_iff g a b).mp h with h | h | h | h
  · unfold Grid.N at h
    by_cases h0 : a.1 = 0
    · rw [if_pos h0] at h
      cases h
    · rw [if_neg h0] at h
      obtain ⟨hb, -⟩ := Grid.cellAt_some g _ _ b h
      refine (Grid.mem_neighbors_iff g b a).mpr (Or.inr (Or.inr (Or.inl ?_)))
      unfold Grid.S
      rw [hb]
      have h1 : a.1 - 1 + 1 = a.1 := by omega
      rw [h1]
      exact Grid.cellAt_of_mem g a ha
  · obtain ⟨hb, -⟩ := Grid.cellAt_some g _ _ b h
    refine (Grid.mem_neighbors_iff g b a).mpr (Or.inr (Or.inr (Or.inr ?_)))
    unfold Grid.W
    rw [hb]
    rw [if_neg (by omega : ¬(((a.1 : Nat), a.2 + 1) : Cell).2 = 0)]
    have h1 : (((a.1 : Nat), a.2 + 1) : Cell).2 - 1 = a.2 := by omega
    rw [h1]
    exact Grid.cellAt_of_mem g a ha
  · obtain ⟨hb, -⟩ := Grid.cellAt_some g _ _ b h
    refine (Grid.mem_neighbors_iff g b a).mpr (Or.inl ?_)
    unfold Grid.N
    rw [hb]
    rw [if_neg (by omega : ¬(((a.1 + 1 : Nat), a.2) : Cell).1 = 0)]
    have h1 : (((a.1 + 1 : Nat), a.2) : Cell).1 - 1 = a.1 := by omega
    rw [h1]
    exact Grid.cellAt_of_mem g a ha
  · unfold Grid.W at h
    by_cases h0 : a.2 = 0
    · rw [if_pos h0] at h
      cases h
    · rw [if_neg h0] at h
      obtain ⟨hb, -⟩ := Grid.cellAt_some g _ _ b h
      refine (Grid.mem_neighbors_iff g b a).mpr (Or.inr (Or.inl ?_))
      unfold Grid.E
      rw [hb]
      have h1 : a.2 - 1 + 1 = a.2 := by omega
      rw [h1]
      exact Grid.cellAt_of_mem g a ha

lemma Grid.mem_eachCell (g : Grid) (c : Cell) :
    c ∈ g.eachCell ↔ c ∈ g.cells := by
  unfold Grid.eachCell
  rw [Grid.mem_cells_iff]
  simp only [List.mem_flatMap, List.mem_range, List.mem_filterMap]
  constructor
  · rintro ⟨r, hr, cc, hcc, hsome⟩
    by_cases hp : g.present r cc
    · rw [if_pos hp] at hsome
      injection hsome with hsome
      subst hsome
      exact ⟨hr, hcc, hp⟩
    · rw [if_neg hp] at hsome
      cases hsome
  · rintro ⟨h1, h2, h3⟩
    refine ⟨c.1, h1, c.2, h2, ?_⟩
    rw [if_pos h3]

lemma Grid.eachCell_nodup (g : Grid) : g.eachCell.Nodup := by
  unfold Grid.eachCell
  rw [List.nodup_flatMap]
  constructor
  · intro r _
    refine List.Nodup.filterMap ?_ (List.nodup_range _)
    intro c c' p hc hc'
    by_cases hp : g.present r c
    · rw [if_pos hp] at hc
      by_cases hp' : g.present r c'
      · rw [if_pos hp'] at hc'
        rw [Option.mem_def] at hc hc'
        injection hc with hc
        injection hc' with hc'
        rw [← hc'] at hc
        injection hc with h1 h2
      · rw [if_neg hp'] at hc'
        cases hc'
    · rw [if_neg hp] at hc
      cases hc
  · have hrow : ∀ r p, p ∈ (List.range g.cols).filterMap
        (fun c => if g.present r c then some ((r, c) : Cell) else none) → p.1 = r := by
      intro r p hp
      rcases List.mem_filterMap.mp hp with ⟨c, -, hsome⟩
      by_cases hpres : g.present r c
      · rw [if_pos hpres] at hsome
        injection hsome with hsome
        rw [← hsome]
      · rw [if_neg hpres] at hsome
        cases hsome
    refine List.Pairwise.imp ?_ (List.pairwise_lt_range g.rows)
    intro r r' hlt p hp hp'
    have h1 := hrow r p hp
    have h2 := hrow r' p hp'
    omega

lemma cellLinks_eq_empty_iff (L : Links) (u : Cell) :
    cellLinks L u = ∅ ↔ ∀ v, (u, v) ∉ L := by
  unfold cellLinks
  constructor
  · intro h v hv
    have : v ∈ (L.filter (fun p => p.1 = u)).image Prod.snd :=
      Finset.mem_image.mpr ⟨(u, v), Finset.mem_filter.mpr ⟨hv, rfl⟩, rfl⟩
    rw [h] at this
    exact absurd this (Finset.not_mem_empty v)
  · intro h
    rw [Finset.eq_empty_iff_forall_not_mem]
    intro x hx
    rcases Finset.mem_image.mp hx with ⟨p, hp, hsnd⟩
    rcases Finset.mem_filter.mp hp with ⟨hpL, hpu⟩
    have hpeq : p = (u, p.2) := by
      rw [Prod.ext_iff]
      exact ⟨hpu, rfl⟩
    rw [hpeq] at hpL
    exact h p.2 hpL

lemma cellLinks_link_eq_empty_iff (L : Links) (u w c : Cell) :
    cellLinks (L.link u w) c = ∅ ↔
      (cellLinks L c = ∅ ∧ c ≠ u ∧ c ≠ w) := by
  rw [cellLinks_eq_empty_iff, cellLinks_eq_empty_iff]
  constructor
  · intro h
    refine ⟨fun v hv => h v (subset_link L u w hv), ?_, ?_⟩
    · intro hcu
      exact h w ((mem_link L u w _).mpr (Or.inr (Or.inl (by rw [hcu]))))
    · intro hcw
      exact h u ((mem_link L u w _).mpr (Or.inl (by rw [hcw])))
  · rintro ⟨h, hcu, hcw⟩ v hv
    rcases (mem_link L u w _).mp hv with h1 | h1 | h1
    · rw [Prod.mk.injEq] at h1
      exact hcw h1.1
    · rw [Prod.mk.injEq] at h1
      exact hcu h1.1
    · exact h v h1

lemma cellLinks_empty (c : Cell) : cellLinks ∅ c = ∅ :=
  (cellLinks_eq_empty_iff ∅ c).mpr (fun v => Finset.not_mem_empty (c, v))

lemma Grid.dims_pos_of_mem (g : Grid) (c : Cell) (hc : c ∈ g.cells) :
    0 < g.rows ∧ 0 < g.cols := by
  rw [Grid.mem_cells_iff] at hc
  omega

lemma Grid.size_ne_zero (g : Grid) (h : g.size ≠ 0) : g.cells.Nonempty := by
  unfold Grid.size at h
  exact Finset.card_pos.mp (by omega)

lemma Grid.random_cell_mem (g : Grid) (O : Oracle) :
    ∀ (fuel k : Nat) (c : Cell) (k' : Nat),
      g.random_cell O k fuel = some (c, k') → c ∈ g.cells := by
  intro fuel
  induction fuel with
  | zero =>
    intro k c k' h
    cases h
  | succ fuel ih =>
    intro k c k' h
    simp only [Grid.random_cell] at h
    by_cases hsz : g.size = 0
    · rw [if_pos hsz] at h
      cases h
    · rw [if_neg hsz] at h
      obtain ⟨c0, hc0⟩ := Grid.size_ne_zero g hsz
      obtain ⟨hr, hcdim⟩ := Grid.dims_pos_of_mem g c0 hc0
      by_cases hp : g.present (O k % g.rows) (O (k + 1) % g.cols)
      · rw [if_pos hp] at h
        injection h with h
        injection h with h1 h2
        rw [← h1]
        exact (Grid.mem_cells_iff g _).mpr
          ⟨Nat.mod_lt _ hr, Nat.mod_lt _ hcdim, hp⟩
      · rw [if_neg hp] at h
        exact ih (k + 2) c k' h

/-- A nonempty neighbor-closed subset of a lattice-connected grid's
cells is everything. -/
lemma latticeConn_closed (g : Grid) (hconn : LatticeConn g) (S : Finset Cell)
    (hsub : S ⊆ g.cells)
    (hcl : ∀ c ∈ S, ∀ n, n ∈ g.neighbors c → n ∈ S)
    (u : Cell) (hu : u ∈ S) : ∀ v ∈ g.cells, v ∈ S := by
  intro v hv
  have hreach := hconn u (hsub hu) v hv
  clear hv
  induction hreach with
  | refl => exact hu
  | tail hab hbc ih => exact hcl _ ih _ hbc

/-- The `aldous_broder` walk invariant: the links span exactly the
visited cells and the `unvisited` counter counts the rest. -/
lemma abLoop_spec (g : Grid) (O : Oracle) :
    ∀ (fuel : Nat) (cell : Cell) (unvisited : Nat) (L : Links) (k : Nat)
      (V : Finset Cell),
    cell ∈ V → V ⊆ g.cells →
    SpanningTreeOn V L →
    (∀ c, cellLinks L c ≠ ∅ ↔ (c ∈ V ∧ 1 < V.card)) →
    unvisited = g.size - V.card →
    ∀ L', abLoop g O fuel cell unvisited L k = some L' →
    SpanningTreeOn g.cells L' := by
  intro fuel
  induction fuel with
  | zero =>
    intro cell unvisited L k V _ _ _ _ _ L' h
    cases h
  | succ fuel ih =>
    intro cell unvisited L k V hcell hsub hst hchar hunv L' h
    rw [abLoop] at h
    by_cases h0 : unvisited = 0
    · rw [if_pos h0] at h
      injection h with h
      subst h
      have hsz : g.size = g.cells.card := rfl
      have hle : V.card ≤ g.cells.card := Finset.card_le_card hsub
      have hVeq : V = g.cells :=
        Finset.eq_of_subset_of_card_le hsub (by omega)
      rw [← hVeq]
      exact hst
    · rw [if_neg h0] at h
      cases hnb : choiceO (g.neighbors cell) (O k) with
      | none =>
        rw [hnb] at h
        cases h
      | some nb =>
        simp only [hnb] at h
        have hnbmem := choiceO_mem_of_some _ _ _ hnb
        have hnbcells := Grid.neighbors_mem_cells g cell nb hnbmem
        have hVpos : 0 < V.card := Finset.card_pos.mpr ⟨cell, hcell⟩
        by_cases hfresh : cellLinks L nb = ∅
        · rw [if_pos hfresh] at h
          have hnbV : nb ∉ V := by
            intro hmem
            by_cases hcard1 : 1 < V.card
            · exact ((hchar nb).mpr ⟨hmem, hcard1⟩) hfresh
            · have hle : V.card ≤ 1 := by omega
              exact (Grid.neighbors_ne g cell nb hnbmem)
                (Finset.card_le_one.mp hle nb hmem cell hcell)
          have hst' := SpanningTreeOn.extend V L hst cell nb hcell hnbV
          have hcardins : (insert nb V).card = V.card + 1 :=
            Finset.card_insert_of_not_mem hnbV
          refine ih nb (unvisited - 1) (L.link cell nb) (k + 1) (insert nb V)
            (Finset.mem_insert_self nb V)
            (Finset.insert_subset_iff.mpr ⟨hnbcells, hsub⟩) hst' ?_ ?_ L' h
          · intro c
            constructor
            · intro hne
              refine ⟨?_, by omega⟩
              by_cases hold : cellLinks L c = ∅
              · rcases not_and_or.mp
                  ((not_iff_not.mpr (cellLinks_link_eq_empty_iff L cell nb c)).mp
                    hne |> fun hh => hh) with h1 | h1
                · exact absurd hold h1
                · rcases not_and_or.mp h1 with h2 | h2
                  · rw [not_not] at h2
                    rw [h2]
                    exact Finset.mem_insert_of_mem hcell
                  · rw [not_not] at h2
                    rw [h2]
                    exact Finset.mem_insert_self nb V
              · exact Finset.mem_insert_of_mem ((hchar c).mp hold).1
            · rintro ⟨hmem, -⟩
              rw [Ne, cellLinks_link_eq_empty_iff]
              rcases Finset.mem_insert.mp hmem with h1 | h1
              · rintro ⟨-, -, hcnb⟩
                exact hcnb h1
              · by_cases hcard1 : 1 < V.card
                · rintro ⟨hold, -, -⟩
                  exact ((hchar c).mpr ⟨h1, hcard1⟩) hold
                · have hle : V.card ≤ 1 := by omega
                  have hceq : c = cell := Finset.card_le_one.mp hle c h1 cell hcell
                  rintro ⟨-, hcu, -⟩
                  exact hcu hceq
          · have hszle : V.card + 1 ≤ g.size := by
              have : (insert nb V).card ≤ g.cells.card :=
                Finset.card_le_card (Finset.insert_subset_iff.mpr ⟨hnbcells, hsub⟩)
              rw [hcardins] at this
              exact this
            rw [hcardins]
            omega
        · rw [if_neg hfresh] at h
          exact ih nb unvisited L (k + 1) V ((hchar nb).mp hfresh).1 hsub hst hchar
            hunv L' h

/-- Partial correctness of `aldous_broder`: a terminating run yields a
spanning tree over all present cells. -/
lemma aldous_broder_spec (g : Grid) (O : Oracle) (fuel : Nat) (L : Links)
    (h : aldous_broder g O fuel = some L) : SpanningTreeOn g.cells L := by
  unfold aldous_broder at h
  cases hrc : g.random_cell O 0 fuel with
  | none =>
    rw [hrc] at h
    cases h
  | some p =>
    rw [hrc] at h
    obtain ⟨cell, k⟩ := p
    have hmem := Grid.random_cell_mem g O fuel 0 cell k hrc
    refine abLoop_spec g O fuel cell (g.size - 1) ∅ k {cell}
      (Finset.mem_singleton_self cell) (Finset.singleton_subset_iff.mpr hmem)
      (spanningTreeOn_singleton cell) ?_ (by simp) L h
    intro c
    simp [cellLinks_empty c]

/-- A cell with no links is unvisited (given a spanned inhabitant). -/
lemma not_mem_of_links_empty (V : Finset Cell) (L : Links) (u : Cell)
    (hu : u ∈ V)
    (hchar : ∀ c, cellLinks L c ≠ ∅ ↔ (c ∈ V ∧ 1 < V.card))
    (c : Cell) (hc0 : cellLinks L c = ∅) (hne : c ≠ u) : c ∉ V := by
  intro hmem
  by_cases h1 : 1 < V.card
  · exact ((hchar c).mpr ⟨hmem, h1⟩) hc0
  · exact hne (Finset.card_le_one.mp (by omega) c hmem u hu)

/-- `link` updates the links-iff-visited characterisation. -/
lemma linksChar_link (V : Finset Cell) (L : Links) (u w : Cell)
    (hu : u ∈ V) (hw : w ∉ V)
    (hchar : ∀ c, cellLinks L c ≠ ∅ ↔ (c ∈ V ∧ 1 < V.card)) :
    ∀ c, cellLinks (L.link u w) c ≠ ∅ ↔
      (c ∈ insert w V ∧ 1 < (insert w V).card) := by
  have hVpos : 0 < V.card := Finset.card_pos.mpr ⟨u, hu⟩
  have hcardins : (insert w V).card = V.card + 1 :=
    Finset.card_insert_of_not_mem hw
  intro c
  constructor
  · intro hne
    refine ⟨?_, by omega⟩
    by_cases hold : cellLinks L c = ∅
    · have h1 : ¬(cellLinks L c = ∅ ∧ c ≠ u ∧ c ≠ w) :=
        fun hh => hne ((cellLinks_link_eq_empty_iff L u w c).mpr hh)
      rcases not_and_or.mp h1 with h2 | h2
      · exact absurd hold h2
      · rcases not_and_or.mp h2 with h3 | h3
        · rw [not_not] at h3
          rw [h3]
          exact Finset.mem_insert_of_mem hu
        · rw [not_not] at h3
          rw [h3]
          exact Finset.mem_insert_self w V
    · exact Finset.mem_insert_of_mem ((hchar c).mp hold).1
  · rintro ⟨hmem, -⟩
    rw [Ne, cellLinks_link_eq_empty_iff]
    rcases Finset.mem_insert.mp hmem with h1 | h1
    · rintro ⟨-, -, hcw⟩
      exact hcw h1
    · by_cases hcard1 : 1 < V.card
      · rintro ⟨hold, -, -⟩
        exact ((hchar c).mpr ⟨h1, hcard1⟩) hold
      · have hceq : c = u := Finset.card_le_one.mp (by omega) c h1 u hu
        rintro ⟨-, hcu, -⟩
        exact hcu hceq

lemma mem_neighborsWithoutLinks (g : Grid) (L : Links) (c n : Cell) :
    n ∈ neighborsWithoutLinks g L c ↔
      n ∈ g.neighbors c ∧ cellLinks L n = ∅ := by
  unfold neighborsWithoutLinks
  rw [List.mem_filter]
  simp

lemma mem_neighborsWithLinks (g : Grid) (L : Links) (c n : Cell) :
    n ∈ neighborsWithLinks g L c ↔
      n ∈ g.neighbors c ∧ cellLinks L n ≠ ∅ := by
  unfold neighborsWithLinks
  rw [List.mem_filter]
  simp

/-- The `recursive_backtracker` stack invariant: the links span the
visited cells, the stack holds visited cells, and every popped cell has
all its lattice neighbors visited. -/
lemma rbLoop_spec (g : Grid) (O : Oracle) (hconn : LatticeConn g) :
    ∀ (fuel : Nat) (stack : List Cell) (L : Links) (k : Nat) (V : Finset Cell),
    V.Nonempty → (∀ c ∈ stack, c ∈ V) → V ⊆ g.cells →
    SpanningTreeOn V L →
    (∀ c, cellLinks L c ≠ ∅ ↔ (c ∈ V ∧ 1 < V.card)) →
    (∀ c ∈ V, c ∉ stack → ∀ n, n ∈ g.neighbors c → n ∈ V) →
    ∀ L', rbLoop g O fuel stack L k = some L' →
    SpanningTreeOn g.cells L' := by
  intro fuel
  induction fuel with
  | zero =>
    intro stack L k V _ _ _ _ _ _ L' h
    cases h
  | succ fuel ih =>
    intro stack L k V hne hstack hsub hst hchar hclosed L' h
    cases stack with
    | nil =>
      simp only [rbLoop] at h
      injection h with h
      subst h
      obtain ⟨u, hu⟩ := hne
      have hVeq : V = g.cells :=
        Finset.Subset.antisymm hsub
          (latticeConn_closed g hconn V hsub
            (fun c hc n hn => hclosed c hc (List.not_mem_nil c) n hn) u hu)
      rw [← hVeq]
      exact hst
    | cons current stack' =>
      simp only [rbLoop] at h
      have hcur : current ∈ V := hstack current (List.mem_cons_self _ _)
      by_cases hemp : (neighborsWithoutLinks g L current).isEmpty = true
      · rw [if_pos hemp] at h
        have hclosed' : ∀ n, n ∈ g.neighbors current → n ∈ V := by
          intro n hn
          by_cases hl : cellLinks L n = ∅
          · exfalso
            have hmem : n ∈ neighborsWithoutLinks g L current :=
              (mem_neighborsWithoutLinks g L current n).mpr ⟨hn, hl⟩
            rw [List.isEmpty_iff] at hemp
            rw [hemp] at hmem
            cases hmem
          · exact ((hchar n).mp hl).1
        refine ih stack' L k V hne
          (fun c hc => hstack c (List.mem_cons_of_mem _ hc)) hsub hst hchar
          ?_ L' h
        intro c hc hcs n hn
        by_cases hcc : c = current
        · rw [hcc] at hn
          exact hclosed' n hn
        · refine hclosed c hc ?_ n hn
          intro hmem
          rcases List.mem_cons.mp hmem with h1 | h1
          · exact hcc h1
          · exact hcs h1
      · rw [if_neg hemp] at h
        cases hch : choiceO (neighborsWithoutLinks g L current) (O k) with
        | none =>
          rw [hch] at h
          cases h
        | some nb =>
          simp only [hch] at h
          have hnbu := choiceO_mem_of_some _ _ _ hch
          obtain ⟨hnbn, hnbl⟩ :=
            (mem_neighborsWithoutLinks g L current nb).mp hnbu
          have hnbV : nb ∉ V :=
            not_mem_of_links_empty V L current hcur hchar nb hnbl
              (Grid.neighbors_ne g current nb hnbn)
          have hnbcells := Grid.neighbors_mem_cells g current nb hnbn
          refine ih (nb :: current :: stack') (L.link current nb) (k + 1)
            (insert nb V) ⟨nb, Finset.mem_insert_self nb V⟩ ?_
            (Finset.insert_subset_iff.mpr ⟨hnbcells, hsub⟩)
            (SpanningTreeOn.extend V L hst current nb hcur hnbV)
            (linksChar_link V L current nb hcur hnbV hchar) ?_ L' h
          · intro c hc
            rcases List.mem_cons.mp hc with h1 | h1
            · rw [h1]
              exact Finset.mem_insert_self nb V
            · exact Finset.mem_insert_of_mem (hstack c h1)
          · intro c hc hcs n hn
            have hcnb : c ≠ nb := by
              intro he
              exact hcs (he ▸ List.mem_cons_self _ _)
            have hcV : c ∈ V := by
              rcases Finset.mem_insert.mp hc with h1 | h1
              · exact absurd h1 hcnb
              · exact h1
            refine Finset.mem_insert_of_mem (hclosed c hcV ?_ n hn)
            intro hmem
            exact hcs (List.mem_cons_of_mem _ hmem)

/-- Partial correctness of `recursive_backtracker`. -/
lemma recursive_backtracker_spec (g : Grid) (O : Oracle) (fuel : Nat)
    (L : Links) (hconn : LatticeConn g)
    (h : recursive_backtracker g O fuel = some L) :
    SpanningTreeOn g.cells L := by
  unfold recursive_backtracker at h
  cases hrc : g.random_cell O 0 fuel with
  | none =>
    rw [hrc] at h
    cases h
  | some p =>
    rw [hrc] at h
    obtain ⟨start, k⟩ := p
    have hmem := Grid.random_cell_mem g O fuel 0 start k hrc
    refine rbLoop_spec g O hconn fuel [start] ∅ k {start}
      ⟨start, Finset.mem_singleton_self start⟩ ?_
      (Finset.singleton_subset_iff.mpr hmem)
      (spanningTreeOn_singleton start) ?_ ?_ L h
    · intro c hc
      rcases List.mem_cons.mp hc with h1 | h1
      · rw [h1]
        exact Finset.mem_singleton_self start
      · cases h1
    · intro c
      simp [cellLinks_empty c]
    · intro c hc hcs
      rw [Finset.mem_singleton] at hc
      exact absurd (hc ▸ List.mem_cons_self start []) (hc ▸ hcs)

/-- The `hunt_and_kill` invariant: kill-walk and hunt-scan both extend
the spanned set by one fresh cell linked to a visited one; the scan
comes up empty only when every present cell is spanned. -/
lemma hkLoop_spec (g : Grid) (O : Oracle) (hconn : LatticeConn g) :
    ∀ (fuel : Nat) (current : Cell) (L : Links) (k : Nat) (V : Finset Cell),
    current ∈ V → V ⊆ g.cells → SpanningTreeOn V L →
    (∀ c, cellLinks L c ≠ ∅ ↔ (c ∈ V ∧ 1 < V.card)) →
    ∀ L', hkLoop g O fuel (some current) L k = some L' →
    SpanningTreeOn g.cells L' := by
  intro fuel
  induction fuel with
  | zero =>
    intro current L k V _ _ _ _ L' h
    cases h
  | succ fuel ih =>
    intro current L k V hcur hsub hst hchar L' h
    simp only [hkLoop] at h
    by_cases hemp : (neighborsWithoutLinks g L current).isEmpty = true
    · rw [if_pos hemp] at h
      cases hf : huntFind g L with
      | none =>
        simp only [hf] at h
        have hclosedV : ∀ c ∈ V, ∀ n, n ∈ g.neighbors c → n ∈ V := by
          intro a haV n hn
          by_cases hcard : 1 < V.card
          · by_contra hnV
            have hnl : cellLinks L n = ∅ := by
              by_contra hh
              exact hnV ((hchar n).mp hh).1
            have hna : a ∈ g.neighbors n :=
              Grid.neighbors_symm g a n (hsub haV) hn
            have hal : cellLinks L a ≠ ∅ := (hchar a).mpr ⟨haV, hcard⟩
            have hncells := Grid.neighbors_mem_cells g a n hn
            have hfnone := List.find?_eq_none.mp hf n
              ((Grid.mem_eachCell g n).mpr hncells)
            rw [Bool.and_eq_true, decide_eq_true_eq, decide_eq_true_eq] at hfnone
            exact hfnone ⟨hnl, List.ne_nil_of_mem
              ((mem_neighborsWithLinks g L n a).mpr ⟨hna, hal⟩)⟩
          · have hVsing : V = {current} := by
              have hle : V.card ≤ 1 := by omega
              apply Finset.eq_singleton_iff_unique_mem.mpr
              exact ⟨hcur, fun x hx => Finset.card_le_one.mp hle x hx current hcur⟩
            have haeq : a = current := by
              rw [hVsing, Finset.mem_singleton] at haV
              exact haV
            exfalso
            have hnl : cellLinks L n = ∅ := by
              by_contra hh
              exact hcard ((hchar n).mp hh).2
            have hmem : n ∈ neighborsWithoutLinks g L current :=
              (mem_neighborsWithoutLinks g L current n).mpr ⟨haeq ▸ hn, hnl⟩
            rw [List.isEmpty_iff] at hemp
            rw [hemp] at hmem
            cases hmem
        have hVeq : V = g.cells :=
          Finset.Subset.antisymm hsub
            (latticeConn_closed g hconn V hsub hclosedV current hcur)
        cases fuel with
        | zero => cases h
        | succ fuel' =>
          simp only [hkLoop] at h
          injection h with h
          rw [← h, ← hVeq]
          exact hst
      | some cell =>
        simp only [hf] at h
        cases hch : choiceO (neighborsWithLinks g L cell) (O k) with
        | none =>
          rw [hch] at h
          cases h
        | some nb =>
          simp only [hch] at h
          have hnbm := choiceO_mem_of_some _ _ _ hch
          obtain ⟨hnbn, hnbl⟩ := (mem_neighborsWithLinks g L cell nb).mp hnbm
          have hnbV : nb ∈ V := ((hchar nb).mp hnbl).1
          have hpred := List.find?_some hf
          rw [Bool.and_eq_true, decide_eq_true_eq, decide_eq_true_eq] at hpred
          have hcellV : cell ∉ V :=
            not_mem_of_links_empty V L nb hnbV hchar cell hpred.1
              (fun he => (Grid.neighbors_ne g cell nb hnbn) he.symm)
          have hcellcells : cell ∈ g.cells :=
            (Grid.mem_eachCell g cell).mp (List.mem_of_find?_eq_some hf)
          have hst' : SpanningTreeOn (insert cell V) (L.link cell nb) := by
            rw [links_link_comm]
            exact SpanningTreeOn.extend V L hst nb cell hnbV hcellV
          have hchar' :
              ∀ c, cellLinks (L.link cell nb) c ≠ ∅ ↔
                (c ∈ insert cell V ∧ 1 < (insert cell V).card) := by
            intro c
            rw [links_link_comm]
            exact linksChar_link V L nb cell hnbV hcellV hchar c
          exact ih cell (L.link cell nb) (k + 1) (insert cell V)
            (Finset.mem_insert_self cell V)
            (Finset.insert_subset_iff.mpr ⟨hcellcells, hsub⟩) hst' hchar' L' h
    · rw [if_neg hemp] at h
      cases hch : choiceO (neighborsWithoutLinks g L current) (O k) with
      | none =>
        rw [hch] at h
        cases h
      | some nb =>
        simp only [hch] at h
        have hnbm := choiceO_mem_of_some _ _ _ hch
        obtain ⟨hnbn, hnbl⟩ := (mem_neighborsWithoutLinks g L current nb).mp hnbm
        have hnbV : nb ∉ V :=
          not_mem_of_links_empty V L current hcur hchar nb hnbl
            (Grid.neighbors_ne g current nb hnbn)
        exact ih nb (L.link current nb) (k + 1) (insert nb V)
          (Finset.mem_insert_self nb V)
          (Finset.insert_subset_iff.mpr
            ⟨Grid.neighbors_mem_cells g current nb hnbn, hsub⟩)
          (SpanningTreeOn.extend V L hst current nb hcur hnbV)
          (linksChar_link V L current nb hcur hnbV hchar) L' h

/-- Partial correctness of `hunt_and_kill`. -/
lemma hunt_and_kill_spec (g : Grid) (O : Oracle) (fuel : Nat)
    (L : Links) (hconn : LatticeConn g)
    (h : hunt_and_kill g O fuel = some L) : SpanningTreeOn g.cells L := by
  unfold hunt_and_kill at h
  cases hrc : g.random_cell O 0 fuel with
  | none =>
    rw [hrc] at h
    cases h
  | some p =>
    rw [hrc] at h
    obtain ⟨start, k⟩ := p
    have hmem := Grid.random_cell_mem g O fuel 0 start k hrc
    refine hkLoop_spec g O hconn fuel start ∅ k {start}
      (Finset.mem_singleton_self start)
      (Finset.singleton_subset_iff.mpr hmem)
      (spanningTreeOn_singleton start) ?_ L h
    intro c
    simp [cellLinks_empty c]

/-- The product `BEq` instance on cells agrees with the one induced by
decidable equality (so `List.indexOf` facts transfer). -/
lemma cell_instBEq_eq : (instBEqProd : BEq Cell) = instBEqOfDecidableEq := by
  have hb : @BEq.beq Cell instBEqProd = @BEq.beq Cell instBEqOfDecidableEq := by
    funext a b
    have h1 : (a == b) = true ↔ a = b := beq_iff_eq
    cases hpb : @BEq.beq Cell instBEqProd a b
    · have hne : ¬a = b := fun he => by rw [h1.mpr he] at hpb; cases hpb
      exact (decide_eq_false hne).symm
    · exact (decide_eq_true (h1.mp hpb)).symm
  exact congrArg BEq.mk hb

lemma link_link_swap (L : Links) (a b u v : Cell) :
    (L.link u v).link a b = (L.link a b).link u v := by
  unfold Links.link
  ext p
  simp only [Finset.mem_insert]
  tauto

lemma linkAll_link (p : List Cell) : ∀ (L : Links) (u v : Cell),
    linkAll p (L.link u v) = (linkAll p L).link u v := by
  induction p with
  | nil =>
    intro L u v
    rfl
  | cons a t ih =>
    intro L u v
    cases t with
    | nil => rfl
    | cons b rest =>
      show linkAll (b :: rest) ((L.link u v).link a b)
          = (linkAll (b :: rest) (L.link a b)).link u v
      rw [link_link_swap, ih]

/-- What a successful `wiCommit` does: it adds exactly the consecutive
links of the path and removes exactly the path's non-final cells from
`unvisited`. -/
lemma wiCommit_spec :
    ∀ (p : List Cell) (unvisited : List Cell) (L : Links)
      (u' : List Cell) (L' : Links),
    p.Nodup → unvisited.Nodup →
    wiCommit p unvisited L = some (u', L') →
    L' = linkAll p L ∧ u'.Nodup ∧
      (∀ c, c ∈ u' ↔ (c ∈ unvisited ∧ c ∉ p.dropLast)) := by
  intro p
  induction p with
  | nil =>
    intro unvisited L u' L' _ hnu h
    simp only [wiCommit] at h
    injection h with h
    injection h with h1 h2
    subst h1
    subst h2
    refine ⟨rfl, hnu, fun c => ?_⟩
    simp
  | cons a t ih =>
    intro unvisited L u' L' hnd hnu h
    cases t with
    | nil =>
      simp only [wiCommit] at h
      injection h with h
      injection h with h1 h2
      subst h1
      subst h2
      refine ⟨rfl, hnu, fun c => ?_⟩
      simp
    | cons b rest =>
      by_cases ha : a ∈ unvisited
      · simp only [wiCommit, if_pos ha] at h
        obtain ⟨h1, h2, h3⟩ := ih (unvisited.erase a) (L.link a b) u' L'
          (List.nodup_cons.mp hnd).2 (hnu.erase a) h
        have hdl : (a :: b :: rest).dropLast = a :: (b :: rest).dropLast := rfl
        refine ⟨h1, h2, fun c => ?_⟩
        rw [h3 c, List.Nodup.mem_erase_iff hnu, hdl]
        constructor
        · rintro ⟨⟨hca, hcu⟩, hcd⟩
          refine ⟨hcu, ?_⟩
          intro hc
          rcases List.mem_cons.mp hc with h4 | h4
          · exact hca h4
          · exact hcd h4
        · rintro ⟨hcu, hcd⟩
          exact ⟨⟨fun he => hcd (he ▸ List.mem_cons_self _ _), hcu⟩,
            fun hc => hcd (List.mem_cons_of_mem _ hc)⟩
      · simp only [wiCommit, if_neg ha] at h
        cases h

/-- Attaching a fresh simple path through its final, already-spanned
cell extends a spanning tree by the path's other cells. -/
lemma spanningTree_attach_path :
    ∀ (p : List Cell) (V : Finset Cell) (L : Links),
    p.Nodup →
    (∀ x ∈ p.dropLast, x ∉ V) →
    (∀ z, p.getLast? = some z → z ∈ V) →
    SpanningTreeOn V L →
    SpanningTreeOn (V ∪ p.dropLast.toFinset) (linkAll p L) := by
  intro p
  induction p with
  | nil =>
    intro V L _ _ _ hst
    simpa using hst
  | cons a t ih =>
    intro V L hnd hfresh hlast hst
    cases t with
    | nil => simpa using hst
    | cons b rest =>
      have hdl : (a :: b :: rest).dropLast = a :: (b :: rest).dropLast := rfl
      have hstep : linkAll (a :: b :: rest) L = (linkAll (b :: rest) L).link a b := by
        show linkAll (b :: rest) (L.link a b) = _
        exact linkAll_link (b :: rest) L a b
      have haV : a ∉ V := by
        refine hfresh a ?_
        rw [hdl]
        exact List.mem_cons_self _ _
      have ha_nin : a ∉ b :: rest := (List.nodup_cons.mp hnd).1
      have hndt : (b :: rest).Nodup := (List.nodup_cons.mp hnd).2
      have ht := ih V L hndt
        (fun x hx => hfresh x (by rw [hdl]; exact List.mem_cons_of_mem _ hx))
        (fun z hz => hlast z (by rw [List.getLast?_cons_cons]; exact hz)) hst
      have hb : b ∈ V ∪ (b :: rest).dropLast.toFinset := by
        cases rest with
        | nil =>
          refine Finset.mem_union_left _ (hlast b ?_)
          rw [List.getLast?_cons_cons]
          rfl
        | cons c rest' =>
          refine Finset.mem_union_right _ ?_
          rw [List.mem_toFinset]
          show b ∈ b :: (c :: rest').dropLast
          exact List.mem_cons_self _ _
      have ha : a ∉ V ∪ (b :: rest).dropLast.toFinset := by
        rw [Finset.mem_union]
        rintro (h | h)
        · exact haV h
        · rw [List.mem_toFinset] at h
          exact ha_nin (List.dropLast_subset _ h)
      have hext := SpanningTreeOn.extend _ _ ht b a hb ha
      have hsets : V ∪ (a :: b :: rest).dropLast.toFinset
          = insert a (V ∪ (b :: rest).dropLast.toFinset) := by
        rw [hdl, List.toFinset_cons, Finset.union_insert]
      rw [hstep, hsets, links_link_comm]
      exact hext

/-- Invariants of the loop-erased walk: the returned path is simple,
made of present cells, every non-final cell is unvisited, and the final
cell is visited. -/
lemma wiWalk_spec (g : Grid) (O : Oracle) (unvisited : List Cell) :
    ∀ (fuel : Nat) (path : List Cell) (cell : Cell) (k : Nat)
      (path' : List Cell) (k' : Nat),
    wiWalk g O unvisited fuel path cell k = some (path', k') →
    path.getLast? = some cell → path.Nodup →
    (∀ x ∈ path.dropLast, x ∈ unvisited) →
    (∀ x ∈ path, x ∈ g.cells) →
    path'.Nodup ∧ (∀ x ∈ path'.dropLast, x ∈ unvisited) ∧
    (∀ x ∈ path', x ∈ g.cells) ∧
    (∃ z, path'.getLast? = some z ∧ z ∉ unvisited) := by
  intro fuel
  induction fuel with
  | zero =>
    intro path cell k path' k' h
    cases h
  | succ fuel ih =>
    intro path cell k path' k' h hlast hndp hfresh hcells
    have hpne : path ≠ [] := by
      intro he
      rw [he] at hlast
      cases hlast
    have hgl : path.getLast hpne = cell := by
      have := List.getLast?_eq_getLast path hpne
      rw [this] at hlast
      injection hlast
    have hdecomp : path.dropLast ++ [cell] = path := by
      rw [← hgl]
      exact List.dropLast_append_getLast hpne
    simp only [wiWalk] at h
    by_cases hin : cell ∈ unvisited
    · rw [if_pos hin] at h
      cases hch : choiceO (g.neighbors cell) (O k) with
      | none =>
        rw [hch] at h
        cases h
      | some c' =>
        simp only [hch] at h
        have hc'n := choiceO_mem_of_some _ _ _ hch
        have hc'cells := Grid.neighbors_mem_cells g cell c' hc'n
        have hc'ne : c' ≠ cell := Grid.neighbors_ne g cell c' hc'n
        by_cases hcp : c' ∈ path
        · rw [if_pos hcp] at h
          have hieq : path.indexOf c'
              = @List.indexOf Cell instBEqOfDecidableEq c' path := by
            rw [cell_instBEq_eq]
          have hidx : path.indexOf c' < path.length := by
            rw [hieq]
            exact List.indexOf_lt_length.mpr hcp
          have hgetE : path[path.indexOf c']? = some c' := by
            rw [hieq]
            exact List.getElem?_indexOf hcp
          have htake : path.take (path.indexOf c' + 1)
              = path.take (path.indexOf c') ++ [c'] := by
            rw [List.take_succ, hgetE]
            rfl
          have hgetel : path.get ⟨path.indexOf c', hidx⟩ = c' := by
            have h2 := List.get?_eq_get hidx
            have h3 : path.get? (path.indexOf c') = some c' := by
              rw [List.get?_eq_getElem?]
              exact hgetE
            rw [h3] at h2
            injection h2 with h2
            exact h2.symm
          have hlast' : (path.take (path.indexOf c' + 1)).getLast? = some c' := by
            rw [htake]
            exact List.getLast?_concat _
          have hnd' : (path.take (path.indexOf c' + 1)).Nodup :=
            List.Nodup.sublist (List.take_sublist _ _) hndp
          have hcells' : ∀ x ∈ path.take (path.indexOf c' + 1), x ∈ g.cells :=
            fun x hx => hcells x (List.take_subset _ _ hx)
          have hidx_lt : path.indexOf c' < path.length - 1 := by
            rcases Nat.lt_or_ge (path.indexOf c') (path.length - 1) with hh | hh
            · exact hh
            · exfalso
              have he : path.indexOf c' = path.length - 1 := by omega
              have hlpos : 0 < path.length := List.length_pos.mpr hpne
              have hgl2 : path.get ⟨path.length - 1, by omega⟩ = cell := by
                rw [← hgl]
                exact (List.getLast_eq_get path hpne).symm
              have hfin : (⟨path.indexOf c', hidx⟩ : Fin path.length)
                  = ⟨path.length - 1, by omega⟩ := Fin.ext he
              refine hc'ne ?_
              rw [← hgetel, hfin, hgl2]
          have hfresh' : ∀ x ∈ (path.take (path.indexOf c' + 1)).dropLast,
              x ∈ unvisited := by
            intro x hx
            rw [htake, List.dropLast_concat] at hx
            have hlen : path.dropLast.length = path.length - 1 :=
              List.length_dropLast path
            have htk : ∀ m, m ≤ path.dropLast.length →
                path.take m = path.dropLast.take m := by
              intro m hm
              conv_lhs => rw [← hdecomp]
              exact List.take_append_of_le_length hm
            rw [htk _ (by omega)] at hx
            exact hfresh x (List.take_subset _ _ hx)
          exact ih (path.take (path.indexOf c' + 1)) c' (k + 1) path' k' h
            hlast' hnd' hfresh' hcells'
        · rw [if_neg hcp] at h
          have hnd' : (path ++ [c']).Nodup := by
            rw [List.nodup_append]
            exact ⟨hndp, List.nodup_singleton c',
              fun x hx hx' => hcp ((List.mem_singleton.mp hx') ▸ hx)⟩
          have hfresh' : ∀ x ∈ (path ++ [c']).dropLast, x ∈ unvisited := by
            intro x hx
            rw [List.dropLast_concat] at hx
            rw [← hdecomp] at hx
            rcases List.mem_append.mp hx with h1 | h1
            · exact hfresh x h1
            · rw [List.mem_singleton.mp h1]
              exact hin
          have hcells' : ∀ x ∈ path ++ [c'], x ∈ g.cells := by
            intro x hx
            rcases List.mem_append.mp hx with h1 | h1
            · exact hcells x h1
            · rw [List.mem_singleton.mp h1]
              exact hc'cells
          exact ih (path ++ [c']) c' (k + 1) path' k' h
            (List.getLast?_concat _) hnd' hfresh' hcells'
    · rw [if_neg hin] at h
      injection h with h
      injection h with h1 h2
      subst h1
      exact ⟨hndp, hfresh, hcells, cell, hlast, hin⟩

lemma Grid.eachCell_toFinset (g : Grid) : g.eachCell.toFinset = g.cells := by
  ext c
  rw [List.mem_toFinset, Grid.mem_eachCell]

/-- The `wilsons` outer-loop invariant: the links span exactly the
cells no longer in `unvisited`. -/
lemma wiLoop_spec (g : Grid) (O : Oracle) :
    ∀ (fuel : Nat) (unvisited : List Cell) (L : Links) (k : Nat),
    unvisited.Nodup → (∀ x ∈ unvisited, x ∈ g.cells) →
    (g.cells \ unvisited.toFinset).Nonempty →
    SpanningTreeOn (g.cells \ unvisited.toFinset) L →
    ∀ L', wiLoop g O fuel unvisited L k = some L' →
    SpanningTreeOn g.cells L' := by
  intro fuel
  induction fuel with
  | zero =>
    intro unvisited L k _ _ _ _ L' h
    cases h
  | succ fuel ih =>
    intro unvisited L k hnd hsub hne hst L' h
    simp only [wiLoop] at h
    by_cases hemp : unvisited.isEmpty = true
    · rw [if_pos hemp] at h
      injection h with h
      subst h
      rw [List.isEmpty_iff] at hemp
      subst hemp
      have hV : g.cells \ ([] : List Cell).toFinset = g.cells := by simp
      rw [hV] at hst
      exact hst
    · rw [if_neg hemp] at h
      cases hch : choiceO unvisited (O k) with
      | none =>
        rw [hch] at h
        cases h
      | some cell =>
        simp only [hch] at h
        have hcellm := choiceO_mem_of_some _ _ _ hch
        cases hw : wiWalk g O unvisited fuel [cell] cell (k + 1) with
        | none =>
          rw [hw] at h
          cases h
        | some pr =>
          simp only [hw] at h
          obtain ⟨path, k'⟩ := pr
          obtain ⟨hndp, hfreshp, hcellsp, z, hzl, hzu⟩ :=
            wiWalk_spec g O unvisited fuel [cell] cell (k + 1) path k' hw rfl
              (List.nodup_singleton cell) (by intro x hx; simp at hx)
              (by
                intro x hx
                rw [List.mem_singleton] at hx
                rw [hx]
                exact hsub cell hcellm)
          cases hc : wiCommit path unvisited L with
          | none =>
            rw [hc] at h
            cases h
          | some qr =>
            simp only [hc] at h
            obtain ⟨unvisited', L₁⟩ := qr
            obtain ⟨hL1, hnd', hchar'⟩ :=
              wiCommit_spec path unvisited L unvisited' L₁ hndp hnd hc
            have hsub' : ∀ x ∈ unvisited', x ∈ g.cells :=
              fun x hx => hsub x ((hchar' x).mp hx).1
            have hVeq : g.cells \ unvisited'.toFinset
                = (g.cells \ unvisited.toFinset) ∪ path.dropLast.toFinset := by
              ext c
              rw [Finset.mem_sdiff, Finset.mem_union, Finset.mem_sdiff,
                List.mem_toFinset, List.mem_toFinset, List.mem_toFinset,
                hchar' c]
              constructor
              · rintro ⟨hc1, hc2⟩
                by_cases hcd : c ∈ path.dropLast
                · exact Or.inr hcd
                · exact Or.inl ⟨hc1, fun hc3 => hc2 ⟨hc3, hcd⟩⟩
              · rintro (⟨hc1, hc2⟩ | hc1)
                · exact ⟨hc1, fun hc3 => hc2 hc3.1⟩
                · refine ⟨hcellsp c (List.dropLast_subset _ hc1), ?_⟩
                  rintro ⟨-, hc4⟩
                  exact hc4 hc1
            have hzmem : z ∈ path := by
              obtain ⟨hpne', hgz⟩ :=
                List.mem_getLast?_eq_getLast (Option.mem_def.mpr hzl)
              rw [hgz]
              exact List.getLast_mem hpne'
            have hst' : SpanningTreeOn (g.cells \ unvisited'.toFinset) L₁ := by
              rw [hVeq, hL1]
              refine spanningTree_attach_path path _ L hndp ?_ ?_ hst
              · intro x hx hmem
                exact (Finset.mem_sdiff.mp hmem).2
                  (List.mem_toFinset.mpr (hfreshp x hx))
              · intro z' hz'
                rw [hzl] at hz'
                injection hz' with hz'
                rw [← hz']
                rw [Finset.mem_sdiff, List.mem_toFinset]
                exact ⟨hcellsp z hzmem, hzu⟩
            refine ih unvisited' L₁ k' hnd' hsub' ?_ hst' L' h
            obtain ⟨u, hu⟩ := hne
            exact ⟨u, by rw [hVeq]; exact Finset.mem_union_left _ hu⟩

/-- Partial correctness of `wilsons`. -/
lemma wilsons_spec (g : Grid) (O : Oracle) (fuel : Nat) (L : Links)
    (h : wilsons g O fuel = some L) : SpanningTreeOn g.cells L := by
  unfold wilsons at h
  cases hrr : remove_random g.eachCell (O 0) with
  | none =>
    rw [hrr] at h
    cases h
  | some unvisited =>
    simp only [hrr] at h
    unfold remove_random at hrr
    by_cases hemp : g.eachCell.isEmpty = true
    · rw [if_pos hemp] at hrr
      cases hrr
    · rw [if_neg hemp] at hrr
      injection hrr with hrr
      have hlen : 0 < g.eachCell.length := by
        cases hcel : g.eachCell with
        | nil =>
          rw [hcel] at hemp
          exact absurd rfl hemp
        | cons a t => simp [hcel]
      have hilt : O 0 % g.eachCell.length < g.eachCell.length :=
        Nat.mod_lt _ hlen
      have hndE := Grid.eachCell_nodup g
      have hdrop := List.drop_eq_get_cons hilt
      have hdec : g.eachCell.take (O 0 % g.eachCell.length)
          ++ g.eachCell.get ⟨O 0 % g.eachCell.length, hilt⟩
            :: g.eachCell.drop (O 0 % g.eachCell.length + 1) = g.eachCell := by
        rw [← hdrop]
        exact List.take_append_drop _ _
      have hndE' := hndE
      rw [← hdec, List.nodup_append] at hndE'
      obtain ⟨hnd1, hnd2, hdisj⟩ := hndE'
      have hc0take : g.eachCell.get ⟨O 0 % g.eachCell.length, hilt⟩
          ∉ g.eachCell.take (O 0 % g.eachCell.length) := by
        intro hmem
        exact hdisj hmem (List.mem_cons_self _ _)
      have hc0drop : g.eachCell.get ⟨O 0 % g.eachCell.length, hilt⟩
          ∉ g.eachCell.drop (O 0 % g.eachCell.length + 1) :=
        (List.nodup_cons.mp hnd2).1
      have hrr2 : unvisited = g.eachCell.take (O 0 % g.eachCell.length)
          ++ g.eachCell.drop (O 0 % g.eachCell.length + 1) := by
        rw [← hrr, List.eraseIdx_eq_take_drop_succ]
      have hchar0 : ∀ x, x ∈ unvisited ↔
          (x ∈ g.eachCell ∧ x ≠ g.eachCell.get ⟨O 0 % g.eachCell.length, hilt⟩) := by
        intro x
        rw [hrr2]
        constructor
        · intro hx
          rcases List.mem_append.mp hx with h1 | h1
          · refine ⟨List.take_subset _ _ h1, ?_⟩
            intro he
            rw [he] at h1
            exact hc0take h1
          · refine ⟨List.drop_subset _ _ h1, ?_⟩
            intro he
            rw [he] at h1
            exact hc0drop h1
        · rintro ⟨hx1, hx2⟩
          rw [← hdec] at hx1
          rcases List.mem_append.mp hx1 with h1 | h1
          · exact List.mem_append_left _ h1
          · rcases List.mem_cons.mp h1 with h2 | h2
            · exact absurd h2 hx2
            · exact List.mem_append_right _ h2
      have hc0cells : g.eachCell.get ⟨O 0 % g.eachCell.length, hilt⟩ ∈ g.cells :=
        (Grid.mem_eachCell g _).mp (List.get_mem _ _ _)
      have hV0 : g.cells \ unvisited.toFinset
          = {g.eachCell.get ⟨O 0 % g.eachCell.length, hilt⟩} := by
        ext c
        rw [Finset.mem_sdiff, List.mem_toFinset, Finset.mem_singleton, hchar0 c]
        constructor
        · rintro ⟨hc1, hc2⟩
          by_contra hne
          exact hc2 ⟨(Grid.mem_eachCell g c).mpr hc1, hne⟩
        · intro he
          rw [he]
          exact ⟨hc0cells, fun hx => hx.2 rfl⟩
      refine wiLoop_spec g O fuel unvisited ∅ 1 ?_ ?_ ?_ ?_ L h
      · rw [← hrr]
        exact List.Nodup.sublist (List.eraseIdx_sublist _ _) hndE
      · intro x hx
        exact (Grid.mem_eachCell g x).mp ((hchar0 x).mp hx).1
      · exact ⟨_, by rw [hV0]; exact Finset.mem_singleton_self _⟩
      · rw [hV0]
        exact spanningTreeOn_singleton _

lemma choiceO_none (l : List Cell) (n : Nat) (h : choiceO l n = none) :
    l = [] := by
  by_contra hne
  obtain ⟨a, ha, -⟩ := choiceO_isSome l n hne
  rw [h] at ha
  cases ha

lemma plain_mem_cells (rows cols : Nat) (c : Cell) :
    c ∈ (Grid.plain rows cols).cells ↔ c.1 < rows ∧ c.2 < cols := by
  rw [Grid.mem_cells_iff]
  unfold Grid.plain
  simp

lemma plain_N_char (rows cols : Nat) (c : Cell) (h1 : c.1 < rows)
    (h2 : c.2 < cols) :
    (Grid.plain rows cols).N c
      = if c.1 = 0 then none else some (c.1 - 1, c.2) := by
  unfold Grid.N
  by_cases h0 : c.1 = 0
  · rw [if_pos h0, if_pos h0]
  · rw [if_neg h0, if_neg h0]
    unfold Grid.cellAt Grid.plain
    rw [if_pos ⟨by simp; omega, by simp; omega, rfl⟩]

lemma plain_E_char (rows cols : Nat) (c : Cell) (h1 : c.1 < rows) :
    (Grid.plain rows cols).E c
      = if c.2 + 1 < cols then some (c.1, c.2 + 1) else none := by
  unfold Grid.E Grid.cellAt Grid.plain
  by_cases h2 : c.2 + 1 < cols
  · rw [if_pos h2, if_pos ⟨by simp; omega, by simp; omega, rfl⟩]
  · rw [if_neg h2, if_neg ?_]
    rintro ⟨-, hlt, -⟩
    simp at hlt
    omega

lemma mem_btNbs_iff (g : Grid) (c b : Cell) :
    b ∈ btNbs g c ↔ g.N c = some b ∨ g.E c = some b := by
  unfold btNbs
  simp only [List.mem_filterMap, id_eq, List.mem_cons, List.not_mem_nil, or_false]
  constructor
  · rintro ⟨o, (rfl | rfl), ho⟩
    · exact Or.inl ho
    · exact Or.inr ho
  · rintro (h | h)
    · exact ⟨g.N c, Or.inl rfl, h⟩
    · exact ⟨g.E c, Or.inr rfl, h⟩

lemma btNbs_measure (rows cols : Nat) (a b : Cell)
    (ha : a ∈ (Grid.plain rows cols).cells) (hb : b ∈ btNbs (Grid.plain rows cols) a) :
    b ∈ (Grid.plain rows cols).cells ∧
      b.1 + (cols - 1 - b.2) + 1 = a.1 + (cols - 1 - a.2) := by
  rw [plain_mem_cells] at ha
  rcases (mem_btNbs_iff _ a b).mp hb with h | h
  · rw [plain_N_char rows cols a ha.1 ha.2] at h
    by_cases h0 : a.1 = 0
    · rw [if_pos h0] at h
      cases h
    · rw [if_neg h0] at h
      injection h with h
      rw [← h]
      refine ⟨(plain_mem_cells rows cols _).mpr ⟨by simp; omega, by simp; exact ha.2⟩, ?_⟩
      simp
      omega
  · rw [plain_E_char rows cols a ha.1] at h
    by_cases h2 : a.2 + 1 < cols
    · rw [if_pos h2] at h
      injection h with h
      rw [← h]
      refine ⟨(plain_mem_cells rows cols _).mpr ⟨by simp; exact ha.1, by simp; omega⟩, ?_⟩
      simp
      omega
    · rw [if_neg h2] at h
      cases h

lemma btNbs_nil_iff (rows cols : Nat) (a : Cell)
    (ha : a ∈ (Grid.plain rows cols).cells) :
    btNbs (Grid.plain rows cols) a = [] ↔ a = ((0 : Nat), cols - 1) := by
  rw [plain_mem_cells] at ha
  constructor
  · intro h
    have h0 : a.1 = 0 := by
      by_contra hz
      have hmem : (a.1 - 1, a.2) ∈ btNbs (Grid.plain rows cols) a :=
        (mem_btNbs_iff _ a _).mpr (Or.inl (by
          rw [plain_N_char rows cols a ha.1 ha.2, if_neg hz]))
      rw [h] at hmem
      cases hmem
    have h2 : ¬(a.2 + 1 < cols) := by
      intro hc
      have : (a.1, a.2 + 1) ∈ btNbs (Grid.plain rows cols) a :=
        (mem_btNbs_iff _ a _).mpr (Or.inr (by
          rw [plain_E_char rows cols a ha.1, if_pos hc]))
      rw [h] at this
      cases this
    rw [Prod.ext_iff]
    exact ⟨h0, by omega⟩
  · intro h
    subst h
    unfold btNbs
    rw [plain_N_char rows cols _ ha.1 ha.2, plain_E_char rows cols _ ha.1]
    rw [if_pos rfl, if_neg (by simp; omega)]
    rfl

/-- The `binary_tree` fold invariant over the processed prefix: links
pair each processed non-corner cell with one of its N/E neighbors. -/
lemma bt_fold (rows cols : Nat) (O : Oracle) :
    ∀ (cs : List Cell) (L : Links) (k : Nat) (done : Finset Cell),
    (∀ c ∈ cs, c ∈ (Grid.plain rows cols).cells) →
    (∀ c ∈ cs, c ∉ done) →
    cs.Nodup →
    (∀ c ∈ done, c ∈ (Grid.plain rows cols).cells) →
    SymmLinks L →
    (∀ p ∈ L, (p.2 ∈ btNbs (Grid.plain rows cols) p.1 ∧ p.1 ∈ done) ∨
      (p.1 ∈ btNbs (Grid.plain rows cols) p.2 ∧ p.2 ∈ done)) →
    (∀ c ∈ done, btNbs (Grid.plain rows cols) c ≠ [] →
      ∃ b, (c, b) ∈ L ∧ b ∈ btNbs (Grid.plain rows cols) c) →
    L.card = 2 * (done.filter
      (fun c => btNbs (Grid.plain rows cols) c ≠ [])).card →
    ∃ L' k',
      cs.foldl (fun (acc : Links × Nat) cell =>
        match choiceO (btNbs (Grid.plain rows cols) cell) (O acc.2) with
        | none => acc
        | some nb => (acc.1.link cell nb, acc.2 + 1)) (L, k) = (L', k') ∧
      SymmLinks L' ∧
      (∀ p ∈ L', (p.2 ∈ btNbs (Grid.plain rows cols) p.1
          ∧ p.1 ∈ done ∪ cs.toFinset) ∨
        (p.1 ∈ btNbs (Grid.plain rows cols) p.2 ∧ p.2 ∈ done ∪ cs.toFinset)) ∧
      (∀ c ∈ done ∪ cs.toFinset, btNbs (Grid.plain rows cols) c ≠ [] →
        ∃ b, (c, b) ∈ L' ∧ b ∈ btNbs (Grid.plain rows cols) c) ∧
      L'.card = 2 * ((done ∪ cs.toFinset).filter
        (fun c => btNbs (Grid.plain rows cols) c ≠ [])).card := by
  intro cs
  induction cs with
  | nil =>
    intro L k done _ _ _ _ hsymm hShape hLinked hcard
    refine ⟨L, k, rfl, hsymm, ?_, ?_, ?_⟩ <;>
      simp only [List.toFinset_nil, Finset.union_empty]
    · exact hShape
    · exact hLinked
    · exact hcard
  | cons c cs' ih =>
    intro L k done hcells hfresh hnd hdone hsymm hShape hLinked hcard
    have hc_cells : c ∈ (Grid.plain rows cols).cells :=
      hcells c (List.mem_cons_self _ _)
    have hc_done : c ∉ done := hfresh c (List.mem_cons_self _ _)
    have hset : done ∪ (c :: cs').toFinset = insert c done ∪ cs'.toFinset := by
      rw [List.toFinset_cons, Finset.union_insert, Finset.insert_union]
    rw [hset, List.foldl_cons]
    cases hch : choiceO (btNbs (Grid.plain rows cols) c) (O k) with
    | none =>
      have hnil := choiceO_none _ _ hch
      simp only [hch]
      refine ih L k (insert c done)
        (fun x hx => hcells x (List.mem_cons_of_mem _ hx))
        ?_ (List.nodup_cons.mp hnd).2
        (fun x hx => (Finset.mem_insert.mp hx).elim (fun he => he ▸ hc_cells)
          (hdone x))
        hsymm ?_ ?_ ?_
      · intro x hx hmem
        rcases Finset.mem_insert.mp hmem with he | hmem'
        · exact (List.nodup_cons.mp hnd).1 (he ▸ hx)
        · exact hfresh x (List.mem_cons_of_mem _ hx) hmem'
      · intro p hp
        rcases hShape p hp with ⟨h1, h2⟩ | ⟨h1, h2⟩
        · exact Or.inl ⟨h1, Finset.mem_insert_of_mem h2⟩
        · exact Or.inr ⟨h1, Finset.mem_insert_of_mem h2⟩
      · intro x hx hne
        rcases Finset.mem_insert.mp hx with he | hx'
        · exact absurd (he ▸ hnil) hne
        · exact hLinked x hx' hne
      · rw [Finset.filter_insert, if_neg (by rw [hnil]; exact fun hh => hh rfl)]
        exact hcard
    | some nb =>
      have hnb := choiceO_mem_of_some _ _ _ hch
      obtain ⟨hnb_cells, hnb_meas⟩ := btNbs_measure rows cols c nb hc_cells hnb
      have hnbc : nb ≠ c := by
        intro he
        rw [he] at hnb_meas
        omega
      have hnew1 : (c, nb) ∉ L := by
        intro hmem
        rcases hShape (c, nb) hmem with ⟨h1, h2⟩ | ⟨h1, h2⟩
        · exact hc_done h2
        · obtain ⟨-, hm2⟩ := btNbs_measure rows cols nb c hnb_cells h1
          omega
      have hnew2 : (nb, c) ∉ L := by
        intro hmem
        rcases hShape (nb, c) hmem with ⟨h1, h2⟩ | ⟨h1, h2⟩
        · obtain ⟨-, hm2⟩ := btNbs_measure rows cols nb c hnb_cells h1
          omega
        · exact hc_done h2
      have hcard' : (L.link c nb).card = L.card + 2 := by
        unfold Links.link
        rw [Finset.card_insert_of_not_mem, Finset.card_insert_of_not_mem hnew1]
        intro hmem
        rcases Finset.mem_insert.mp hmem with he | hmem'
        · rw [Prod.mk.injEq] at he
          exact hnbc he.1
        · exact hnew2 hmem'
      simp only [hch]
      refine ih (L.link c nb) (k + 1) (insert c done)
        (fun x hx => hcells x (List.mem_cons_of_mem _ hx))
        ?_ (List.nodup_cons.mp hnd).2
        (fun x hx => (Finset.mem_insert.mp hx).elim (fun he => he ▸ hc_cells)
          (hdone x))
        (symmLinks_link L c nb hsymm) ?_ ?_ ?_
      · intro x hx hmem
        rcases Finset.mem_insert.mp hmem with he | hmem'
        · exact (List.nodup_cons.mp hnd).1 (he ▸ hx)
        · exact hfresh x (List.mem_cons_of_mem _ hx) hmem'
      · intro p hp
        rcases (mem_link L c nb p).mp hp with he | he | hL
        · rw [he]
          exact Or.inr ⟨hnb, Finset.mem_insert_self c done⟩
        · rw [he]
          exact Or.inl ⟨hnb, Finset.mem_insert_self c done⟩
        · rcases hShape p hL with ⟨h1, h2⟩ | ⟨h1, h2⟩
          · exact Or.inl ⟨h1, Finset.mem_insert_of_mem h2⟩
          · exact Or.inr ⟨h1, Finset.mem_insert_of_mem h2⟩
      · intro x hx hne
        rcases Finset.mem_insert.mp hx with he | hx'
        · exact ⟨nb, (mem_link L c nb _).mpr (Or.inr (Or.inl (by rw [he]))),
            he ▸ hnb⟩
        · obtain ⟨b, hb1, hb2⟩ := hLinked x hx' hne
          exact ⟨b, subset_link L c nb hb1, hb2⟩
      · rw [hcard', hcard, Finset.filter_insert,
          if_pos (List.ne_nil_of_mem hnb),
          Finset.card_insert_of_not_mem
            (fun hmem => hc_done (Finset.mem_of_mem_filter c hmem))]
        omega

/-- `binary_tree` on an unmasked grid builds a spanning tree (every
cell except the NE corner links to a neighbor nearer the corner). -/
lemma binary_tree_spec (rows cols : Nat) (O : Oracle) (hr : 1 ≤ rows)
    (hc : 1 ≤ cols) :
    SpanningTreeOn (Grid.plain rows cols).cells
      (binary_tree (Grid.plain rows cols) O) := by
  obtain ⟨L', k', heq, hsymm, hShape, hLinked, hcard⟩ :=
    bt_fold rows cols O (Grid.plain rows cols).eachCell ∅ 0 ∅
      (fun c hcm => (Grid.mem_eachCell _ c).mp hcm)
      (fun c _ => Finset.not_mem_empty c)
      (Grid.eachCell_nodup _)
      (fun c hcm => absurd hcm (Finset.not_mem_empty c))
      symmLinks_empty
      (fun p hp => absurd hp (Finset.not_mem_empty p))
      (fun c hcm => absurd hcm (Finset.not_mem_empty c))
      (by simp)
  have hfin : (∅ : Finset Cell) ∪ (Grid.plain rows cols).eachCell.toFinset
      = (Grid.plain rows cols).cells := by
    rw [Finset.empty_union, Grid.eachCell_toFinset]
  rw [hfin] at hShape hLinked hcard
  have hbt : binary_tree (Grid.plain rows cols) O = L' := by
    unfold binary_tree
    rw [heq]
  rw [hbt]
  have hroot_mem : ((0 : Nat), cols - 1) ∈ (Grid.plain rows cols).cells :=
    (plain_mem_cells rows cols _).mpr ⟨by simpa using hr, by simp; omega⟩
  have hreach : ∀ n, ∀ c ∈ (Grid.plain rows cols).cells,
      c.1 + (cols - 1 - c.2) ≤ n → LinkReach L' c ((0 : Nat), cols - 1) := by
    intro n
    induction n with
    | zero =>
      intro c hcm hle
      have hcc := (plain_mem_cells rows cols c).mp hcm
      have : c = ((0 : Nat), cols - 1) := by
        rw [Prod.ext_iff]
        constructor <;> omega
      rw [this]
      exact Relation.ReflTransGen.refl
    | succ n ihn =>
      intro c hcm hle
      by_cases he : c = ((0 : Nat), cols - 1)
      · rw [he]
        exact Relation.ReflTransGen.refl
      · have hne : btNbs (Grid.plain rows cols) c ≠ [] := by
          intro hnil
          exact he ((btNbs_nil_iff rows cols c hcm).mp hnil)
        obtain ⟨b, hb1, hb2⟩ := hLinked c hcm hne
        obtain ⟨hb_cells, hb_meas⟩ := btNbs_measure rows cols c b hcm hb2
        exact Relation.ReflTransGen.head hb1 (ihn b hb_cells (by omega))
  refine ⟨hsymm, ?_, ?_, ?_, ?_⟩
  · intro a ha
    rcases hShape (a, a) ha with ⟨h1, h2⟩ | ⟨h1, h2⟩ <;>
      · obtain ⟨-, hm⟩ := btNbs_measure rows cols a a h2 h1
        omega
  · intro a b hab
    rcases hShape (a, b) hab with ⟨h1, h2⟩ | ⟨h1, h2⟩
    · exact h2
    · exact (btNbs_measure rows cols b a h2 h1).1
  · have hfilter : (Grid.plain rows cols).cells.filter
        (fun c => btNbs (Grid.plain rows cols) c ≠ [])
        = (Grid.plain rows cols).cells.erase ((0 : Nat), cols - 1) := by
      ext x
      rw [Finset.mem_filter, Finset.mem_erase]
      constructor
      · rintro ⟨hx1, hx2⟩
        exact ⟨fun he => hx2 ((btNbs_nil_iff rows cols x hx1).mpr he), hx1⟩
      · rintro ⟨hx1, hx2⟩
        exact ⟨hx2, fun he => hx1 ((btNbs_nil_iff rows cols x hx2).mp he)⟩
    rw [hcard, hfilter, Finset.card_erase_of_mem hroot_mem]
  · intro u hu v hv
    exact (hreach _ u hu (Nat.le_refl _)).trans
      (linkReach_symm L' hsymm _ _ (hreach _ v hv (Nat.le_refl _)))

/-! ### Sidewinder on a plain grid -/

lemma spanningTreeOn_empty : SpanningTreeOn ∅ ∅ := by
  refine ⟨?_, ?_, ?_, ?_, ?_⟩
  · intro u v h
    exact absurd h (Finset.not_mem_empty _)
  · intro u h
    exact absurd h (Finset.not_mem_empty _)
  · intro u v h
    exact absurd h (Finset.not_mem_empty _)
  · simp
  · intro u hu
    exact absurd hu (Finset.not_mem_empty _)

/-- A tree on the empty or a singleton vertex set has no links. -/
lemma spanningTreeOn_links_empty (V : Finset Cell) (L : Links)
    (st : SpanningTreeOn V L) (h : V.card ≤ 1) : L = ∅ := by
  have hcl := st.card_links
  exact Finset.card_eq_zero.mp (by omega)

lemma link_union_right (X Y : Links) (a b : Cell) :
    (X ∪ Y).link a b = X ∪ Y.link a b := by
  unfold Links.link
  ext p
  simp only [Finset.mem_insert, Finset.mem_union]
  tauto

lemma linkAll_union (p : List Cell) : ∀ L : Links,
    linkAll p L = L ∪ linkAll p ∅ := by
  induction p with
  | nil =>
    intro L
    show L = L ∪ ∅
    rw [Finset.union_empty]
  | cons a t ih =>
    intro L
    cases t with
    | nil =>
      show L = L ∪ ∅
      rw [Finset.union_empty]
    | cons b rest =>
      show linkAll (b :: rest) (L.link a b) = L ∪ linkAll (b :: rest) (Links.link ∅ a b)
      rw [linkAll_link (b :: rest) L a b, linkAll_link (b :: rest) ∅ a b,
        ih L, ← link_union_right]

lemma linkAll_concat (p : List Cell) (z : Cell) :
    ∀ (L : Links) (h : p ≠ []),
    linkAll (p ++ [z]) L = (linkAll p L).link (p.getLast h) z := by
  induction p with
  | nil =>
    intro L h
    exact absurd rfl h
  | cons a t ih =>
    intro L h
    cases t with
    | nil => rfl
    | cons b rest =>
      show linkAll ((b :: rest) ++ [z]) (L.link a b)
          = (linkAll (b :: rest) (L.link a b)).link
            ((a :: b :: rest).getLast h) z
      rw [ih (L.link a b) (List.cons_ne_nil b rest)]
      rfl

/-- A simple nonempty path is a spanning tree of its own cells. -/
lemma path_tree : ∀ (p : List Cell), p ≠ [] → p.Nodup →
    SpanningTreeOn p.toFinset (linkAll p ∅) := by
  intro p
  induction p with
  | nil =>
    intro h
    exact absurd rfl h
  | cons a t ih =>
    intro _ hnd
    cases t with
    | nil =>
      show SpanningTreeOn [a].toFinset ∅
      have : ([a] : List Cell).toFinset = {a} := by simp
      rw [this]
      exact spanningTreeOn_singleton a
    | cons b rest =>
      have ha_nin : a ∉ b :: rest := (List.nodup_cons.mp hnd).1
      have ht := ih (List.cons_ne_nil b rest) ((List.nodup_cons.mp hnd).2)
      have hstep : linkAll (a :: b :: rest) (∅ : Links)
          = (linkAll (b :: rest) ∅).link a b := by
        show linkAll (b :: rest) (Links.link ∅ a b) = _
        exact linkAll_link (b :: rest) ∅ a b
      have hb : b ∈ (b :: rest).toFinset := by
        rw [List.mem_toFinset]
        exact List.mem_cons_self _ _
      have ha : a ∉ (b :: rest).toFinset := by
        rw [List.mem_toFinset]
        exact ha_nin
      have hext := SpanningTreeOn.extend _ _ ht b a hb ha
      rw [hstep, links_link_comm]
      have hset : (a :: b :: rest).toFinset = insert a (b :: rest).toFinset := by
        simp
      rw [hset]
      exact hext

/-- Joining two vertex-disjoint spanning trees with one link spans the
union. -/
lemma spanningTreeOn_join (V₁ V₂ : Finset Cell) (L₁ L₂ : Links)
    (h1 : SpanningTreeOn V₁ L₁) (h2 : SpanningTreeOn V₂ L₂)
    (hdisj : ∀ x ∈ V₁, x ∉ V₂) (u w : Cell) (hu : u ∈ V₁) (hw : w ∈ V₂) :
    SpanningTreeOn (V₁ ∪ V₂) ((L₁ ∪ L₂).link u w) := by
  have hne : u ≠ w := fun he => hdisj u hu (he ▸ hw)
  have hL1 : ∀ a b, (a, b) ∈ L₁ → a ∈ V₁ ∧ b ∈ V₁ :=
    fun a b hab => ⟨h1.mem_left a b hab, h1.mem_left b a (h1.symm a b hab)⟩
  have hL2 : ∀ a b, (a, b) ∈ L₂ → a ∈ V₂ ∧ b ∈ V₂ :=
    fun a b hab => ⟨h2.mem_left a b hab, h2.mem_left b a (h2.symm a b hab)⟩
  have hnm1 : (u, w) ∉ L₁ ∪ L₂ := by
    intro hmem
    rcases Finset.mem_union.mp hmem with hh | hh
    · exact hdisj w (hL1 u w hh).2 hw
    · exact hdisj u hu (hL2 u w hh).1
  have hnm2 : (w, u) ∉ L₁ ∪ L₂ := by
    intro hmem
    rcases Finset.mem_union.mp hmem with hh | hh
    · exact hdisj w (hL1 w u hh).1 hw
    · exact hdisj u hu (hL2 w u hh).2
  have hreach : ∀ x y, (LinkReach L₁ x y ∨ LinkReach L₂ x y) →
      LinkReach ((L₁ ∪ L₂).link u w) x y := by
    intro x y hxy
    rcases hxy with hh | hh
    · exact linkReach_mono _ _ (fun p hp =>
        subset_link _ u w (Finset.mem_union_left _ hp)) x y hh
    · exact linkReach_mono _ _ (fun p hp =>
        subset_link _ u w (Finset.mem_union_right _ hp)) x y hh
  have hstepuw : LinkReach ((L₁ ∪ L₂).link u w) u w :=
    Relation.ReflTransGen.single ((mem_link _ u w _).mpr (Or.inr (Or.inl rfl)))
  have hstepwu : LinkReach ((L₁ ∪ L₂).link u w) w u :=
    Relation.ReflTransGen.single ((mem_link _ u w _).mpr (Or.inl rfl))
  refine ⟨?_, ?_, ?_, ?_, ?_⟩
  · intro a b hab
    rcases (mem_link _ u w _).mp hab with h | h | h
    · rw [Prod.mk.injEq] at h
      rw [h.1, h.2]
      exact (mem_link _ u w _).mpr (Or.inr (Or.inl rfl))
    · rw [Prod.mk.injEq] at h
      rw [h.1, h.2]
      exact (mem_link _ u w _).mpr (Or.inl rfl)
    · refine subset_link _ u w ?_
      rcases Finset.mem_union.mp h with hh | hh
      · exact Finset.mem_union_left _ (h1.symm a b hh)
      · exact Finset.mem_union_right _ (h2.symm a b hh)
  · intro a ha
    rcases (mem_link _ u w _).mp ha with h | h | h
    · rw [Prod.mk.injEq] at h
      exact hne (h.2.symm.trans h.1)
    · rw [Prod.mk.injEq] at h
      exact hne (h.1.symm.trans h.2)
    · rcases Finset.mem_union.mp h with hh | hh
      · exact h1.irrefl a hh
      · exact h2.irrefl a hh
  · intro a b hab
    rcases (mem_link _ u w _).mp hab with h | h | h
    · rw [Prod.mk.injEq] at h
      rw [h.1]
      exact Finset.mem_union_right _ hw
    · rw [Prod.mk.injEq] at h
      rw [h.1]
      exact Finset.mem_union_left _ hu
    · rcases Finset.mem_union.mp h with hh | hh
      · exact Finset.mem_union_left _ (h1.mem_left a b hh)
      · exact Finset.mem_union_right _ (h2.mem_left a b hh)
  · have hdisjL : Disjoint L₁ L₂ := by
      rw [Finset.disjoint_left]
      intro p hp1 hp2
      exact hdisj p.1 (hL1 p.1 p.2 hp1).1 (hL2 p.1 p.2 hp2).1
    have hdisjV : Disjoint V₁ V₂ := by
      rw [Finset.disjoint_left]
      exact hdisj
    have hc2 : ((w, u) : Cell × Cell) ∉ insert ((u, w) : Cell × Cell) (L₁ ∪ L₂) := by
      intro hmem
      rcases Finset.mem_insert.mp hmem with hh | hh
      · rw [Prod.mk.injEq] at hh
        exact hne hh.2
      · exact hnm2 hh
    show (insert (w, u) (insert (u, w) (L₁ ∪ L₂))).card = 2 * ((V₁ ∪ V₂).card - 1)
    rw [Finset.card_insert_of_not_mem hc2, Finset.card_insert_of_not_mem hnm1,
      Finset.card_union_of_disjoint hdisjL, Finset.card_union_of_disjoint hdisjV,
      h1.card_links, h2.card_links]
    have hp1 : 0 < V₁.card := Finset.card_pos.mpr ⟨u, hu⟩
    have hp2 : 0 < V₂.card := Finset.card_pos.mpr ⟨w, hw⟩
    omega
  · intro a ha b hb
    rcases Finset.mem_union.mp ha with ha1 | ha1 <;>
      rcases Finset.mem_union.mp hb with hb1 | hb1
    · exact hreach a b (Or.inl (h1.conn a ha1 b hb1))
    · exact ((hreach a u (Or.inl (h1.conn a ha1 u hu))).trans hstepuw).trans
        (hreach w b (Or.inr (h2.conn w hw b hb1)))
    · exact ((hreach a w (Or.inr (h2.conn a ha1 w hw))).trans hstepwu).trans
        (hreach u b (Or.inl (h1.conn u hu b hb1)))
    · exact hreach a b (Or.inr (h2.conn a ha1 b hb1))

lemma rowSeg_zero (r i : Nat) : rowSeg r i 0 = [] := rfl

lemma rowSeg_cons (r i n : Nat) :
    rowSeg r i (n + 1) = (r, i) :: rowSeg r (i + 1) n := rfl

lemma rowSeg_succ_right (r i n : Nat) :
    rowSeg r i (n + 1) = rowSeg r i n ++ [(r, i + n)] := by
  unfold rowSeg
  rw [List.range'_concat, List.map_append]
  simp

lemma mem_rowSeg (r i n : Nat) (x : Cell) :
    x ∈ rowSeg r i n ↔ i ≤ x.2 ∧ x.2 < i + n ∧ x.1 = r := by
  unfold rowSeg
  rw [List.mem_map]
  constructor
  · rintro ⟨c, hc, rfl⟩
    rw [List.mem_range'_1] at hc
    exact ⟨hc.1, hc.2, rfl⟩
  · rintro ⟨h1, h2, h3⟩
    refine ⟨x.2, List.mem_range'_1.mpr ⟨h1, h2⟩, ?_⟩
    rw [Prod.ext_iff]
    exact ⟨h3.symm, rfl⟩

lemma rowSeg_nodup (r i n : Nat) : (rowSeg r i n).Nodup := by
  unfold rowSeg
  refine List.Nodup.map ?_ (List.nodup_range' _ _)
  intro a b hab
  injection hab

lemma rowSeg_ne_nil (r i n : Nat) (h : 0 < n) : rowSeg r i n ≠ [] := by
  unfold rowSeg
  intro he
  have := congrArg List.length he
  rw [List.length_map, List.length_range'] at this
  simp at this
  omega

lemma rowSeg_append (r i n : Nat) :
    rowSeg r 0 i ++ rowSeg r i n = rowSeg r 0 (i + n) := by
  unfold rowSeg
  rw [← List.map_append]
  congr 1
  have := List.range'_append 0 i n 1
  simp at this
  rw [this, Nat.add_comm]

/-- Row `r` extends the first `r` rows to the first `r + 1` rows. -/
lemma plain_cells_succ_row (r cols : Nat) :
    (Grid.plain r cols).cells ∪ (rowSeg r 0 cols).toFinset
      = (Grid.plain (r + 1) cols).cells := by
  ext x
  rw [Finset.mem_union, List.mem_toFinset, plain_mem_cells, plain_mem_cells,
    mem_rowSeg]
  constructor
  · rintro (⟨h1, h2⟩ | ⟨h1, h2, h3⟩)
    · exact ⟨by omega, h2⟩
    · exact ⟨by omega, by omega⟩
  · rintro ⟨h1, h2⟩
    by_cases hx : x.1 < r
    · exact Or.inl ⟨hx, h2⟩
    · exact Or.inr ⟨by omega, by omega, by omega⟩

lemma plain_zero_cells (cols : Nat) : (Grid.plain 0 cols).cells = ∅ := by
  ext x
  rw [plain_mem_cells]
  simp

/-- Closing a sidewinder run attaches the whole current run (which ends
at column `j`) to the rows above, leaving the first `j + 1` columns of
row `r` spanned. -/
lemma sw_close_spec (rows cols : Nat) (O : Oracle) (r j i kk : Nat)
    (hr : r < rows) (hjc : j < cols) (L : Links)
    (hinv : (i = j ∧ (r = 0 → j = 0) ∧
        SpanningTreeOn ((Grid.plain r cols).cells ∪ (rowSeg r 0 j).toFinset) L) ∨
      (i < j ∧ (r = 0 → i = 0) ∧
        ∃ L₀, SpanningTreeOn ((Grid.plain r cols).cells
            ∪ (rowSeg r 0 i).toFinset) L₀ ∧
          L = linkAll (rowSeg r i (j - i + 1)) L₀)) :
    ∃ L', swClose (Grid.plain rows cols) L (rowSeg r i (j - i + 1)) O kk
        = some (L', kk + 1) ∧
      SpanningTreeOn ((Grid.plain r cols).cells
        ∪ (rowSeg r 0 (j + 1)).toFinset) L' := by
  have hij : i ≤ j := by
    rcases hinv with ⟨he, -⟩ | ⟨hlt, -⟩
    · omega
    · omega
  have hne : rowSeg r i (j - i + 1) ≠ [] := rowSeg_ne_nil r i _ (by omega)
  obtain ⟨member, hchm, hmemm⟩ := choiceO_isSome _ (O kk) hne
  obtain ⟨hm1, hm2, hm3⟩ := (mem_rowSeg r i _ member).mp hmemm
  have hmcol : member.2 < cols := by omega
  unfold swClose
  simp only [hchm]
  by_cases hr0 : r = 0
  · have hN : (Grid.plain rows cols).N member = none := by
      rw [plain_N_char rows cols member (by rw [hm3]; exact hr) hmcol, hm3,
        if_pos hr0]
    simp only [hN]
    refine ⟨L, rfl, ?_⟩
    subst hr0
    rcases hinv with ⟨he, hj0, hst⟩ | ⟨hlt, hi0, L₀, hst, hL⟩
    · have hj0' : j = 0 := hj0 rfl
      subst hj0'
      rw [plain_zero_cells, Finset.empty_union] at hst ⊢
      have hL0 : L = ∅ := spanningTreeOn_links_empty _ L hst (by decide)
      subst hL0
      have : (rowSeg 0 0 1).toFinset = {((0 : Nat), (0 : Nat))} := rfl
      rw [this]
      exact spanningTreeOn_singleton _
    · have hi0' : i = 0 := hi0 rfl
      subst hi0'
      rw [plain_zero_cells, Finset.empty_union] at hst ⊢
      have hL0 : L₀ = ∅ := spanningTreeOn_links_empty _ L₀ hst (by decide)
      subst hL0
      rw [hL]
      have hp := path_tree (rowSeg 0 0 (j - 0 + 1)) (rowSeg_ne_nil 0 0 _ (by omega))
        (rowSeg_nodup 0 0 _)
      have : j - 0 + 1 = j + 1 := by omega
      rw [this] at hp ⊢
      exact hp
  · have hN : (Grid.plain rows cols).N member = some (member.1 - 1, member.2) := by
      rw [plain_N_char rows cols member (by rw [hm3]; exact hr) hmcol,
        if_neg (by omega : ¬member.1 = 0)]
    simp only [hN]
    have hnbmem : ((member.1 - 1, member.2) : Cell) ∈ (Grid.plain r cols).cells :=
      (plain_mem_cells r cols _).mpr
        ⟨show member.1 - 1 < r by omega, show member.2 < cols from hmcol⟩
    refine ⟨L.link member (member.1 - 1, member.2), rfl, ?_⟩
    rcases hinv with ⟨he, -, hst⟩ | ⟨hlt, -, L₀, hst, hL⟩
    · subst he
      have hmember : member = ((r, i) : Cell) := by
        rw [Prod.ext_iff]
        exact ⟨hm3, by omega⟩
      have hmnotin : member ∉ (Grid.plain r cols).cells
          ∪ (rowSeg r 0 i).toFinset := by
        rw [Finset.mem_union, plain_mem_cells, List.mem_toFinset, mem_rowSeg]
        rintro (⟨h1, -⟩ | ⟨-, h2, -⟩) <;> omega
      have hext := SpanningTreeOn.extend _ _ hst _ member
        (Finset.mem_union_left _ hnbmem) hmnotin
      rw [links_link_comm] at hext
      have hset : (Grid.plain r cols).cells ∪ (rowSeg r 0 (i + 1)).toFinset
          = insert member ((Grid.plain r cols).cells ∪ (rowSeg r 0 i).toFinset) := by
        rw [rowSeg_succ_right, hmember]
        ext x
        simp only [Finset.mem_insert, Finset.mem_union, List.mem_toFinset,
          List.mem_append, List.mem_singleton, Nat.zero_add]
        tauto
      rw [hset]
      exact hext
    · have hV2 : ∀ x ∈ (Grid.plain r cols).cells ∪ (rowSeg r 0 i).toFinset,
          x ∉ (rowSeg r i (j - i + 1)).toFinset := by
        intro x hx
        rw [List.mem_toFinset, mem_rowSeg]
        rw [Finset.mem_union, plain_mem_cells, List.mem_toFinset, mem_rowSeg] at hx
        rcases hx with ⟨h1, -⟩ | ⟨-, h2, -⟩ <;>
          · rintro ⟨hh1, hh2, hh3⟩
            omega
      have hpt := path_tree (rowSeg r i (j - i + 1)) hne (rowSeg_nodup r i _)
      have hjoin := spanningTreeOn_join _ _ L₀ (linkAll (rowSeg r i (j - i + 1)) ∅)
        hst hpt hV2 (member.1 - 1, member.2) member
        (Finset.mem_union_left _ hnbmem) (List.mem_toFinset.mpr hmemm)
      rw [hL, linkAll_union, links_link_comm]
      have hset : ((Grid.plain r cols).cells ∪ (rowSeg r 0 i).toFinset)
          ∪ (rowSeg r i (j - i + 1)).toFinset
          = (Grid.plain r cols).cells ∪ (rowSeg r 0 (j + 1)).toFinset := by
        rw [Finset.union_assoc, ← List.toFinset_append, rowSeg_append]
        have : i + (j - i + 1) = j + 1 := by omega
        rw [this]
      rw [hset] at hjoin
      exact hjoin

/-- Linking east extends the current run by one cell. -/
lemma sw_continue_inv (r cols j i : Nat) (hij : i ≤ j) (L : Links)
    (hinv : (i = j ∧
        SpanningTreeOn ((Grid.plain r cols).cells ∪ (rowSeg r 0 j).toFinset) L) ∨
      (i < j ∧ ∃ L₀, SpanningTreeOn ((Grid.plain r cols).cells
          ∪ (rowSeg r 0 i).toFinset) L₀ ∧
        L = linkAll (rowSeg r i (j - i + 1)) L₀)) :
    ∃ L₀, SpanningTreeOn ((Grid.plain r cols).cells
        ∪ (rowSeg r 0 i).toFinset) L₀ ∧
      L.link (r, j) (r, j + 1) = linkAll (rowSeg r i (j + 1 - i + 1)) L₀ := by
  rcases hinv with ⟨he, hst⟩ | ⟨hlt, L₀, hst, hL⟩
  · refine ⟨L, by rw [← he] at hst; exact hst, ?_⟩
    subst he
    have h2 : i + 1 - i + 1 = 2 := by omega
    rw [h2]
    rfl
  · refine ⟨L₀, hst, ?_⟩
    have h1 : j + 1 - i + 1 = (j - i + 1) + 1 := by omega
    rw [h1, rowSeg_succ_right]
    have h2 : i + (j - i + 1) = j + 1 := by omega
    rw [h2]
    have hne : rowSeg r i (j - i + 1) ≠ [] := rowSeg_ne_nil r i _ (by omega)
    rw [linkAll_concat (rowSeg r i (j - i + 1)) ((r, j + 1) : Cell) L₀ hne]
    have hlast : (rowSeg r i (j - i + 1)).getLast hne = ((r, j) : Cell) := by
      have hsr : rowSeg r i (j - i + 1) = rowSeg r i (j - i) ++ [((r, i + (j - i)) : Cell)] :=
        rowSeg_succ_right r i (j - i)
      have h3 : i + (j - i) = j := by omega
      rw [h3] at hsr
      rw [List.getLast_congr _ _ hsr, List.getLast_concat]
    rw [hlast, hL]

lemma plain_eachRow (rows cols : Nat) :
    (Grid.plain rows cols).eachRow
      = (List.range rows).map (fun r => (rowSeg r 0 cols).map some) := by
  unfold Grid.eachRow
  refine List.map_congr_left ?_
  intro r _
  unfold rowSeg
  rw [List.map_map, List.range_eq_range']
  refine List.map_congr_left ?_
  intro c _
  rfl

/-- The sidewinder row loop: processing the remaining columns of row
`r` from column `j` always succeeds and leaves the first `r + 1` rows
spanned once the row is finished. -/
lemma sw_row_fold (rows cols : Nat) (O : Oracle) (r : Nat) (hr : r < rows) :
    ∀ (n : Nat), ∀ (j : Nat), j + n = cols →
    ∀ (L : Links) (k i : Nat), i ≤ j →
    ((i = j ∧ (r = 0 → j = 0 ∨ j = cols) ∧
        SpanningTreeOn ((Grid.plain r cols).cells ∪ (rowSeg r 0 j).toFinset) L) ∨
      (i < j ∧ j < cols ∧ (r = 0 → i = 0) ∧
        ∃ L₀, SpanningTreeOn ((Grid.plain r cols).cells
            ∪ (rowSeg r 0 i).toFinset) L₀ ∧
          L = linkAll (rowSeg r i (j - i + 1)) L₀)) →
    ∃ L' k',
      ((rowSeg r j n).map some).foldlM
          (fun st oc => swStep (Grid.plain rows cols) O st oc)
          (L, k, rowSeg r i (j - i)) = some (L', k', ([] : List Cell)) ∧
      SpanningTreeOn ((Grid.plain r cols).cells
        ∪ (rowSeg r 0 cols).toFinset) L' := by
  intro n
  induction n with
  | zero =>
    intro j hj L k i hij hinv
    rcases hinv with ⟨he, -, hst⟩ | ⟨-, hlt, -⟩
    · refine ⟨L, k, ?_, ?_⟩
      · have h0 : j - i = 0 := by omega
        rw [h0, rowSeg_zero, rowSeg_zero]
        rfl
      · have hjc : j = cols := by omega
        rw [hjc] at hst
        exact hst
    · omega
  | succ n' ih =>
    intro j hj L k i hij hinv
    have hjc : j < cols := by omega
    have hrj : ((r, j) : Cell).1 < rows := hr
    have hrun' : rowSeg r i (j - i) ++ [((r, j) : Cell)] = rowSeg r i (j - i + 1) := by
      rw [rowSeg_succ_right]
      have h3 : i + (j - i) = j := by omega
      rw [h3]
    by_cases hE1 : j + 1 < cols
    · -- the east neighbor exists: continue or coin
      have hE : (Grid.plain rows cols).E (r, j) = some (r, j + 1) := by
        rw [plain_E_char rows cols (r, j) hrj, if_pos hE1]
      by_cases hr0 : r = 0
      · -- row 0: `not_at_N` is false, always link east
        have hN : (Grid.plain rows cols).N (r, j) = none := by
          rw [plain_N_char rows cols (r, j) hrj (by omega : ((r, j) : Cell).2 < cols),
            if_pos hr0]
        have hi0 : i = 0 ∧ (i = j → j = 0) := by
          rcases hinv with ⟨he, hcase, -⟩ | ⟨-, -, hcase, -⟩
          · rcases hcase hr0 with h0 | h0
            · exact ⟨by omega, fun _ => h0⟩
            · omega
          · exact ⟨hcase hr0, by omega⟩
        have hstep : swStep (Grid.plain rows cols) O (L, k, rowSeg r i (j - i))
            (some (r, j))
            = some (L.link (r, j) (r, j + 1), k, rowSeg r i (j - i + 1)) := by
          simp only [swStep]
          rw [hrun', hE]
          rw [if_neg (by simp : ¬((some ((r, j + 1) : Cell)).isNone = true))]
          rw [hN]
          rw [if_pos (by rfl : ((none : Option Cell).isNone = true))]
        obtain ⟨L₀, hst₀, hLeq⟩ := sw_continue_inv r cols j i hij L (by
          rcases hinv with ⟨he, -, hst⟩ | ⟨hlt, -, -, L₀, hst, hL⟩
          · exact Or.inl ⟨he, hst⟩
          · exact Or.inr ⟨hlt, L₀, hst, hL⟩)
        obtain ⟨L', k', hfold, hst'⟩ := ih (j + 1) (by omega)
          (L.link (r, j) (r, j + 1)) k i (by omega)
          (Or.inr ⟨by omega, hE1, fun _ => hi0.1, L₀, hst₀, by
            rw [hLeq]⟩)
        have hsub1 : j + 1 - i = j - i + 1 := by omega
        rw [hsub1] at hfold
        refine ⟨L', k', ?_, hst'⟩
        rw [rowSeg_cons, List.map_cons, List.foldlM_cons, hstep]
        exact hfold
      · -- rows below the top: a coin decides
        have hN : (Grid.plain rows cols).N (r, j) = some (r - 1, j) := by
          rw [plain_N_char rows cols (r, j) hrj (by omega : ((r, j) : Cell).2 < cols),
            if_neg (by omega : ¬((r, j) : Cell).1 = 0)]
        by_cases hodd : O k % 2 = 1
        · -- close the run through a random member's northern neighbor
          obtain ⟨L₂, hclose, hst₂⟩ := sw_close_spec rows cols O r j i (k + 1) hr hjc L
            (by
              rcases hinv with ⟨he, hcase, hst⟩ | ⟨hlt, -, hcase, L₀, hst, hL⟩
              · exact Or.inl ⟨he, fun hh => absurd hh hr0, hst⟩
              · exact Or.inr ⟨hlt, hcase, L₀, hst, hL⟩)
          have hstep : swStep (Grid.plain rows cols) O (L, k, rowSeg r i (j - i))
              (some (r, j)) = some (L₂, k + 1 + 1, ([] : List Cell)) := by
            simp only [swStep]
            rw [hrun', hE]
            rw [if_neg (by simp : ¬((some ((r, j + 1) : Cell)).isNone = true))]
            rw [hN]
            rw [if_neg (by simp : ¬((some ((r - 1, j) : Cell)).isNone = true))]
            rw [if_pos hodd, hclose]
            rfl
          obtain ⟨L', k', hfold, hst'⟩ := ih (j + 1) (by omega) L₂ (k + 1 + 1)
            (j + 1) (Nat.le_refl _)
            (Or.inl ⟨rfl, fun hh => absurd hh hr0, hst₂⟩)
          have hsub1 : j + 1 - (j + 1) = 0 := by omega
          rw [hsub1, rowSeg_zero] at hfold
          refine ⟨L', k', ?_, hst'⟩
          rw [rowSeg_cons, List.map_cons, List.foldlM_cons, hstep]
          exact hfold
        · -- keep running east
          have hstep : swStep (Grid.plain rows cols) O (L, k, rowSeg r i (j - i))
              (some (r, j))
              = some (L.link (r, j) (r, j + 1), k + 1, rowSeg r i (j - i + 1)) := by
            simp only [swStep]
            rw [hrun', hE]
            rw [if_neg (by simp : ¬((some ((r, j + 1) : Cell)).isNone = true))]
            rw [hN]
            rw [if_neg (by simp : ¬((some ((r - 1, j) : Cell)).isNone = true))]
            rw [if_neg hodd]
          obtain ⟨L₀, hst₀, hLeq⟩ := sw_continue_inv r cols j i hij L (by
            rcases hinv with ⟨he, -, hst⟩ | ⟨hlt, -, -, L₀, hst, hL⟩
            · exact Or.inl ⟨he, hst⟩
            · exact Or.inr ⟨hlt, L₀, hst, hL⟩)
          obtain ⟨L', k', hfold, hst'⟩ := ih (j + 1) (by omega)
            (L.link (r, j) (r, j + 1)) (k + 1) i (by omega)
            (Or.inr ⟨by omega, hE1, fun hh => absurd hh hr0, L₀, hst₀, by
              rw [hLeq]⟩)
          have hsub1 : j + 1 - i = j - i + 1 := by omega
          rw [hsub1] at hfold
          refine ⟨L', k', ?_, hst'⟩
          rw [rowSeg_cons, List.map_cons, List.foldlM_cons, hstep]
          exact hfold
    · -- eastern boundary: close the run
      have hcols : j + 1 = cols := by omega
      have hE : (Grid.plain rows cols).E (r, j) = none := by
        rw [plain_E_char rows cols (r, j) hrj, if_neg hE1]
      obtain ⟨L₂, hclose, hst₂⟩ := sw_close_spec rows cols O r j i k hr hjc L
        (by
          rcases hinv with ⟨he, hcase, hst⟩ | ⟨hlt, -, hcase, L₀, hst, hL⟩
          · refine Or.inl ⟨he, fun hh => ?_, hst⟩
            rcases hcase hh with h0 | h0
            · exact h0
            · omega
          · exact Or.inr ⟨hlt, hcase, L₀, hst, hL⟩)
      have hstep : swStep (Grid.plain rows cols) O (L, k, rowSeg r i (j - i))
          (some (r, j)) = some (L₂, k + 1, ([] : List Cell)) := by
        simp only [swStep]
        rw [hrun', hE]
        rw [if_pos (by rfl : ((none : Option Cell).isNone = true))]
        rw [hclose]
        rfl
      obtain ⟨L', k', hfold, hst'⟩ := ih (j + 1) (by omega) L₂ (k + 1)
        (j + 1) (Nat.le_refl _)
        (Or.inl ⟨rfl, fun _ => Or.inr hcols, hst₂⟩)
      have hsub1 : j + 1 - (j + 1) = 0 := by omega
      rw [hsub1, rowSeg_zero] at hfold
      refine ⟨L', k', ?_, hst'⟩
      rw [rowSeg_cons, List.map_cons, List.foldlM_cons, hstep]
      exact hfold

/-- The sidewinder outer loop: each processed row extends the spanned
region by one row. -/
lemma sw_rows_fold (rows cols : Nat) (O : Oracle) :
    ∀ (m r : Nat), r + m = rows →
    ∀ (L : Links) (k : Nat),
    SpanningTreeOn (Grid.plain r cols).cells L →
    ∃ L' k',
      ((List.range' r m).map (fun r => (rowSeg r 0 cols).map some)).foldlM
        (swRow (Grid.plain rows cols) O) (L, k) = some (L', k') ∧
      SpanningTreeOn (Grid.plain rows cols).cells L' := by
  intro m
  induction m with
  | zero =>
    intro r hrm L k hst
    refine ⟨L, k, rfl, ?_⟩
    have he : r = rows := by omega
    rw [← he]
    exact hst
  | succ m' ih =>
    intro r hrm L k hst
    have hr : r < rows := by omega
    have hst0 : SpanningTreeOn ((Grid.plain r cols).cells
        ∪ (rowSeg r 0 0).toFinset) L := by
      rw [rowSeg_zero]
      simpa using hst
    obtain ⟨L₁, k₁, hfold, hst₁⟩ := sw_row_fold rows cols O r hr cols 0 (by omega)
      L k 0 (Nat.le_refl 0) (Or.inl ⟨rfl, fun _ => Or.inl rfl, hst0⟩)
    have hfold2 : ((rowSeg r 0 cols).map some).foldlM
        (fun st oc => swStep (Grid.plain rows cols) O st oc)
        (((L, k) : Links × Nat).1, (L, k).2, ([] : List Cell))
        = some (L₁, k₁, ([] : List Cell)) := hfold
    have hrow : swRow (Grid.plain rows cols) O (L, k) ((rowSeg r 0 cols).map some)
        = some (L₁, k₁) := by
      unfold swRow
      rw [hfold2]
      rfl
    have hst₂ : SpanningTreeOn (Grid.plain (r + 1) cols).cells L₁ := by
      rw [← plain_cells_succ_row]
      exact hst₁
    obtain ⟨L', k', hrest, hst'⟩ := ih (r + 1) (by omega) L₁ k₁ hst₂
    refine ⟨L', k', ?_, hst'⟩
    show (((r :: List.range' (r + 1) m').map
        (fun r => (rowSeg r 0 cols).map some)).foldlM
      (swRow (Grid.plain rows cols) O) (L, k)) = some (L', k')
    rw [List.map_cons, List.foldlM_cons, hrow]
    exact hrest

/-- `sidewinder` on an unmasked grid always terminates successfully with
a spanning tree. -/
lemma sidewinder_spec (rows cols : Nat) (O : Oracle) (hc : 1 ≤ cols) :
    ∃ L, sidewinder (Grid.plain rows cols) O = some L ∧
      SpanningTreeOn (Grid.plain rows cols).cells L := by
  obtain ⟨L', k', hfold, hst⟩ := sw_rows_fold rows cols O rows 0 (by omega) ∅ 0
    (by rw [plain_zero_cells]; exact spanningTreeOn_empty)
  refine ⟨L', ?_, hst⟩
  unfold sidewinder
  rw [plain_eachRow, List.range_eq_range', hfold]
  rfl

/-- The L-shaped three-cell masked grid is lattice-connected. -/
lemma latticeConn_maskL :
    LatticeConn (Grid.ofMask ⟨[[true, false], [true, true]]⟩) := by
  intro u hu v hv
  rw [Grid.mem_cells_iff] at hu hv
  have hu' : u = ((0, 0) : Cell) ∨ u = ((1, 0) : Cell) ∨ u = ((1, 1) : Cell) := by
    obtain ⟨a, b⟩ := u
    obtain ⟨h1, h2, h3⟩ := hu
    have h1' : a < 2 := h1
    have h2' : b < 2 := h2
    interval_cases a <;> interval_cases b
    · exact Or.inl rfl
    · exact absurd h3 (by decide)
    · exact Or.inr (Or.inl rfl)
    · exact Or.inr (Or.inr rfl)
  have hv' : v = ((0, 0) : Cell) ∨ v = ((1, 0) : Cell) ∨ v = ((1, 1) : Cell) := by
    obtain ⟨a, b⟩ := v
    obtain ⟨h1, h2, h3⟩ := hv
    have h1' : a < 2 := h1
    have h2' : b < 2 := h2
    interval_cases a <;> interval_cases b
    · exact Or.inl rfl
    · exact absurd h3 (by decide)
    · exact Or.inr (Or.inl rfl)
    · exact Or.inr (Or.inr rfl)
  have s1 : Relation.ReflTransGen
      (fun a b => b ∈ (Grid.ofMask ⟨[[true, false], [true, true]]⟩).neighbors a)
      ((0, 0) : Cell) ((1, 0) : Cell) := Relation.ReflTransGen.single (by decide)
  have s2 : Relation.ReflTransGen
      (fun a b => b ∈ (Grid.ofMask ⟨[[true, false], [true, true]]⟩).neighbors a)
      ((1, 0) : Cell) ((0, 0) : Cell) := Relation.ReflTransGen.single (by decide)
  have s3 : Relation.ReflTransGen
      (fun a b => b ∈ (Grid.ofMask ⟨[[true, false], [true, true]]⟩).neighbors a)
      ((1, 0) : Cell) ((1, 1) : Cell) := Relation.ReflTransGen.single (by decide)
  have s4 : Relation.ReflTransGen
      (fun a b => b ∈ (Grid.ofMask ⟨[[true, false], [true, true]]⟩).neighbors a)
      ((1, 1) : Cell) ((1, 0) : Cell) := Relation.ReflTransGen.single (by decide)
  rcases hu' with rfl | rfl | rfl <;> rcases hv' with rfl | rfl | rfl
  · exact Relation.ReflTransGen.refl
  · exact s1
  · exact s1.trans s3
  · exact s2
  · exact Relation.ReflTransGen.refl
  · exact s3
  · exact s4.trans s2
  · exact s4
  · exact Relation.ReflTransGen.refl

lemma latticeConn_plain11 : LatticeConn (Grid.plain 1 1) := by
  intro u hu v hv
  rw [plain_mem_cells] at hu hv
  have hu' : u = ((0, 0) : Cell) := by
    rw [Prod.ext_iff]
    omega
  have hv' : v = ((0, 0) : Cell) := by
    rw [Prod.ext_iff]
    omega
  rw [hu', hv']

/-- C1: NOT as stated.  On the lattice-connected masked grid with
present cells (0,0), (1,0), (1,1), `binary_tree` links only (1,0)–(1,1)
(the isolated-in-row cell (0,0) has neither a northern nor an eastern
neighbor, and neither does the hole), so the output is not a spanning
tree: 2 directed pairs instead of 2·(3−1) = 4. -/
theorem binary_tree_masked_not_spanning :
    LatticeConn (Grid.ofMask ⟨[[true, false], [true, true]]⟩) ∧
    latticeConnected (Grid.ofMask ⟨[[true, false], [true, true]]⟩) = true ∧
    (Grid.ofMask ⟨[[true, false], [true, true]]⟩).size = 3 ∧
    (binary_tree (Grid.ofMask ⟨[[true, false], [true, true]]⟩) (fun _ => 0)).card
      ≠ 2 * ((Grid.ofMask ⟨[[true, false], [true, true]]⟩).size - 1) :=
  ⟨latticeConn_maskL, by decide, by decide, by decide⟩

/-- C1 (amended): `binary_tree` and `sidewinder` build spanning trees on
unmasked grids (every run; sidewinder also always terminates there); the
four random-walk generators build spanning trees over the present cells
of any grid whenever a run terminates, `hunt_and_kill` and
`recursive_backtracker` under the claim's lattice-connectivity
hypothesis. -/
theorem generators_spanning_tree :
    (∀ rows cols O, 1 ≤ rows → 1 ≤ cols →
      SpanningTreeOn (Grid.plain rows cols).cells
        (binary_tree (Grid.plain rows cols) O)) ∧
    (∀ rows cols O, 1 ≤ cols →
      ∃ L, sidewinder (Grid.plain rows cols) O = some L ∧
        SpanningTreeOn (Grid.plain rows cols).cells L) ∧
    (∀ g O fuel L, aldous_broder g O fuel = some L →
      SpanningTreeOn g.cells L) ∧
    (∀ g O fuel L, wilsons g O fuel = some L →
      SpanningTreeOn g.cells L) ∧
    (∀ g O fuel L, LatticeConn g → hunt_and_kill g O fuel = some L →
      SpanningTreeOn g.cells L) ∧
    (∀ g O fuel L, LatticeConn g → recursive_backtracker g O fuel = some L →
      SpanningTreeOn g.cells L) :=
  ⟨fun rows cols O hr hc => binary_tree_spec rows cols O hr hc,
   fun rows cols O hc => sidewinder_spec rows cols O hc,
   fun g O fuel L h => aldous_broder_spec g O fuel L h,
   fun g O fuel L h => wilsons_spec g O fuel L h,
   fun g O fuel L hconn h => hunt_and_kill_spec g O fuel L hconn h,
   fun g O fuel L hconn h => recursive_backtracker_spec g O fuel L hconn h⟩

/-- Witness: all six generators at concrete instances (a 1×1 grid and a
constant oracle; the four walk generators terminate there with fuel 5
and the empty link set). -/
theorem generators_spanning_tree_witness :
    SpanningTreeOn (Grid.plain 1 1).cells
      (binary_tree (Grid.plain 1 1) (fun _ => 0)) ∧
    (∃ L, sidewinder (Grid.plain 1 1) (fun _ => 0) = some L ∧
      SpanningTreeOn (Grid.plain 1 1).cells L) ∧
    SpanningTreeOn (Grid.plain 1 1).cells (∅ : Links) ∧
    SpanningTreeOn (Grid.plain 1 1).cells (∅ : Links) ∧
    SpanningTreeOn (Grid.plain 1 1).cells (∅ : Links) ∧
    SpanningTreeOn (Grid.plain 1 1).cells (∅ : Links) :=
  ⟨generators_spanning_tree.1 1 1 (fun _ => 0) (by omega) (by omega),
   generators_spanning_tree.2.1 1 1 (fun _ => 0) (by omega),
   generators_spanning_tree.2.2.1 (Grid.plain 1 1) (fun _ => 0) 5 ∅ (by decide),
   generators_spanning_tree.2.2.2.1 (Grid.plain 1 1) (fun _ => 0) 5 ∅ (by decide),
   generators_spanning_tree.2.2.2.2.1 (Grid.plain 1 1) (fun _ => 0) 5 ∅
     latticeConn_plain11 (by decide),
   generators_spanning_tree.2.2.2.2.2 (Grid.plain 1 1) (fun _ => 0) 5 ∅
     latticeConn_plain11 (by decide)⟩

end Mazes
